import Mathlib

/-!
# Stroke-to-bitmap pipeline of the ESP32 digit recogniser (src/main.cpp)

A shallow embedding of the touch capture loop, the Bresenham rasteriser, the bounding-box
normaliser, the mass-centering pass and the arg-max over the inference scores.

* C `int` and `int16_t` values are `Int`.  In the rasteriser, whose arguments are arbitrary
  `int` values, every arithmetic operation is followed by `wrap32`, the reduction to the 32-bit
  two's complement range: an overflowing `int` operation wraps around on the ESP32.  Elsewhere
  every quantity the pipeline computes stays far inside the machine ranges and no reduction is
  written.
* C `float` values are rationals that are binary32 numbers; every float operation is the exact
  rational operation followed by `f32`, round-to-nearest-even on a 24 bit significand.  The
  exponent range is not bounded: the pipeline only meets magnitudes between 2^-16 and 2^16.
* Arrays are lists; a store goes through `writeCell` / `writePoint`, which fault when the index is
  outside the array, so that a result `Except.ok` also certifies memory safety.
* The `for (;;)` loop of the rasteriser takes a fuel argument bounding its iterations.
* The display, the LCD and `delay` have no effect on the modelled state and are left out.
* `drawLoopTrace`, `drawLineTrace` and `strokeTrace` are the loops of the rasteriser with the
  stores left out and the visited pixels recorded; `drawLoop_eq_brushAlong` ties them to
  `drawLoop`.
* `preprocessImageWith` is `preprocessImage` with the scale factor left open: the code is its
  instance at the binary32 scale factor `scaleOf`.
-/

namespace DigitRecognition

/-! ## Constants and data (main.cpp 31-33, 50-59) -/

/-- The macro IMG_WIDTH. -/
def IMG_WIDTH : Int := 28

/-- The macro IMG_HEIGHT. -/
def IMG_HEIGHT : Int := 28

/-- The macro MAX_POINTS. -/
def MAX_POINTS : Int := 250

/-- The struct Point of main.cpp 50-54. -/
structure Point where
  x : Int
  y : Int
deriving DecidableEq

/-- An int8_t array. -/
abbrev Buffer := List Int

/-- Ways in which a run of the model stops without a result. -/
inductive Fault where
  | outOfFuel
  | outOfBounds
deriving DecidableEq

/-- The global variables of main.cpp 55-59. -/
structure State where
  captured_points : List Point
  point_count : Int
  image_buffer : Buffer
  is_drawing : Bool
deriving DecidableEq

/-- One poll of the touch controller: ts.touched() and the mapped sample of main.cpp 124-126. -/
structure Sample where
  touched : Bool
  x : Int
  y : Int

/-- Result of interpreter->Invoke(): whether it returned kTfLiteOk, and the output tensor. -/
structure Invocation where
  ok : Bool
  scores : List Int

/-! ## Array access -/

/-- Store into an int8_t array; a store outside the array is a fault. -/
def writeCell (buffer : Buffer) (idx : Int) (v : Int) : Except Fault Buffer :=
  if 0 ≤ idx ∧ idx < buffer.length then .ok (buffer.set idx.toNat v) else .error .outOfBounds

/-- Load from an int8_t array. -/
def readCell (buffer : Buffer) (idx : Int) : Int := buffer.getD idx.toNat 0

/-- Store into the Point array; a store outside the array is a fault. -/
def writePoint (points : List Point) (idx : Int) (p : Point) : Except Fault (List Point) :=
  if 0 ≤ idx ∧ idx < points.length then .ok (points.set idx.toNat p) else .error .outOfBounds

/-- Load captured_points[i]. -/
def pointAt (st : State) (i : Nat) : Point := st.captured_points.getD i ⟨0, 0⟩

/-- A counted for-loop whose body may fault: the body runs on each index in turn. -/
def forEach {σ ι : Type} (body : σ → ι → Except Fault σ) : List ι → σ → Except Fault σ
  | [], s => .ok s
  | i :: rest, s =>
    match body s i with
    | .error f => .error f
    | .ok s1 => forEach body rest s1

/-! ## Floating point (binary32) -/

/-- Round a rational to the nearest integer, ties going to the even neighbour. -/
def roundHalfEven (q : ℚ) : Int :=
  if q - ⌊q⌋ < 1 / 2 then ⌊q⌋
  else if 1 / 2 < q - ⌊q⌋ then ⌊q⌋ + 1
  else if ⌊q⌋ % 2 = 0 then ⌊q⌋ else ⌊q⌋ + 1

/-- Rounding of an exact result to type float: the nearest number with a 24 bit significand,
ties to even; the exponent is the binade of the operand, without bounds. -/
def f32 (q : ℚ) : ℚ :=
  if q = 0 then 0
  else (roundHalfEven (q / (2 : ℚ) ^ (Int.log 2 |q| - 23)) : ℚ) * (2 : ℚ) ^ (Int.log 2 |q| - 23)

/-- Conversion from float to an integer type: truncation toward zero. -/
def floatToInt (q : ℚ) : Int := if 0 ≤ q then ⌊q⌋ else ⌈q⌉

/-! ## Inference (main.cpp 164-190) -/

/-- One iteration of the arg-max loop, main.cpp 183-187, on (best_score, predicted_digit). -/
def argmaxStep (output : List Int) (acc : Int × Int) (i : Nat) : Int × Int :=
  if output.getD i 0 > acc.1 then (output.getD i 0, (i : Int)) else acc

/-- The input tensor after the copy loop of main.cpp 167-170. -/
def inputTensor (image_buffer : Buffer) : Buffer :=
  (List.range (IMG_WIDTH * IMG_HEIGHT).toNat).map fun (i : Nat) => readCell image_buffer i

/-- The function perform_real_inference: copy the image into the input tensor, invoke the
interpreter, and return the index of the best score, or -1 when the invocation fails. -/
def perform_real_inference (invoke : Buffer → Invocation) (image_buffer : Buffer) : Int :=
  let result := invoke (inputTensor image_buffer)
  if result.ok = false then -1
  else ((List.range 10).foldl (argmaxStep result.scores) (-128, -1)).2

/-! ## Rasteriser (main.cpp 209-242) -/

/-- The guarded store of main.cpp 222-225. -/
def plot (px py : Int) (buffer : Buffer) : Except Fault Buffer :=
  if px ≥ 0 ∧ px < IMG_WIDTH ∧ py ≥ 0 ∧ py < IMG_HEIGHT then
    writeCell buffer (py * IMG_WIDTH + px) 127
  else .ok buffer

/-- The value of a 32-bit `int` computation whose exact result is n: n reduced modulo 2^32 to
the range -2^31 .. 2^31 - 1. -/
def wrap32 (n : Int) : Int := (n + 2147483648) % 4294967296 - 2147483648

/-- The 2x2 brush of main.cpp 216-227: offsets (0,0), (0,1), (1,0), (1,1) in that order. -/
def brush (x0 y0 : Int) (buffer : Buffer) : Except Fault Buffer :=
  forEach (fun b (ij : Int × Int) => plot (wrap32 (x0 + ij.1)) (wrap32 (y0 + ij.2)) b)
    [(0, 0), (0, 1), (1, 0), (1, 1)] buffer

/-- The for (;;) loop of main.cpp 214-241; fuel bounds the number of iterations. -/
def drawLoop (x1 y1 dx sx dy sy : Int) : Nat → Int → Int → Int → Buffer → Except Fault Buffer
  | 0, _, _, _, _ => .error .outOfFuel
  | fuel + 1, x0, y0, err, buffer =>
    match brush x0 y0 buffer with
    | .error f => .error f
    | .ok buffer1 =>
      if x0 = x1 ∧ y0 = y1 then .ok buffer1
      else
        let e2 := wrap32 (2 * err)
        let err1 := if e2 ≥ dy then wrap32 (err + dy) else err
        let x0n := if e2 ≥ dy then wrap32 (x0 + sx) else x0
        let err2 := if e2 ≤ dx then wrap32 (err1 + dx) else err1
        let y0n := if e2 ≤ dx then wrap32 (y0 + sy) else y0
        drawLoop x1 y1 dx sx dy sy fuel x0n y0n err2 buffer1

/-- The function drawLineOnBuffer, main.cpp 209-242; abs and the unary minus are 32-bit
operations as well. -/
def drawLineOnBuffer (fuel : Nat) (x0 y0 x1 y1 : Int) (buffer : Buffer) : Except Fault Buffer :=
  let dx := wrap32 |wrap32 (x1 - x0)|
  let sx : Int := if x0 < x1 then 1 else -1
  let dy := wrap32 (-wrap32 |wrap32 (y1 - y0)|)
  let sy : Int := if y0 < y1 then 1 else -1
  drawLoop x1 y1 dx sx dy sy fuel x0 y0 (wrap32 (dx + dy)) buffer

/-! ## Normaliser and centering (main.cpp 244-315) -/

/-- The loop `for (i = 0; i < IMG_WIDTH * IMG_HEIGHT; i++) buffer[i] = -128`. -/
def fillBackground (buffer : Buffer) : Except Fault Buffer :=
  forEach (fun b (i : Nat) => writeCell b i (-128)) (List.range (IMG_WIDTH * IMG_HEIGHT).toNat) buffer

/-- The stroke: captured_points[0 .. point_count-1]. -/
def stroke (st : State) : List Point := (List.range st.point_count.toNat).map (pointAt st)

/-- The variables minX, minY, maxX, maxY of main.cpp 256. -/
structure BBox where
  minX : Int
  minY : Int
  maxX : Int
  maxY : Int
deriving DecidableEq

/-- The body of the bounding-box loop, main.cpp 259-262. -/
def growBox (b : BBox) (p : Point) : BBox :=
  { minX := min b.minX p.x, maxX := max b.maxX p.x, minY := min b.minY p.y, maxY := max b.maxY p.y }

/-- The bounding-box loop of main.cpp 256-263. -/
def boundingBox (st : State) : BBox :=
  (List.range st.point_count.toNat).foldl (fun b i => growBox b (pointAt st i))
    { minX := 32767, minY := 32767, maxX := -1, maxY := -1 }

/-- The scale factor of main.cpp 267. -/
def scaleOf (b : BBox) : ℚ :=
  min (f32 (f32 ((IMG_WIDTH - 8 : Int) : ℚ) / f32 ((b.maxX - b.minX : Int) : ℚ)))
    (f32 (f32 ((IMG_HEIGHT - 8 : Int) : ℚ) / f32 ((b.maxY - b.minY : Int) : ℚ)))

/-- The remapped coordinate `(c - lo) * scale` of main.cpp 271-274: the int difference is
converted to float, multiplied in float, and the product truncated to int16_t. -/
def remap (scale : ℚ) (lo c : Int) : Int := floatToInt (f32 (f32 ((c - lo : Int) : ℚ) * scale))

/-- The body of the segment loop, main.cpp 271-275. -/
def drawSegment (fuel : Nat) (st : State) (b : BBox) (scale : ℚ) (temp_buffer : Buffer) (i : Nat) :
    Except Fault Buffer :=
  drawLineOnBuffer fuel
    (remap scale b.minX (pointAt st (i - 1)).x) (remap scale b.minY (pointAt st (i - 1)).y)
    (remap scale b.minX (pointAt st i).x) (remap scale b.minY (pointAt st i).y) temp_buffer

/-- The all-background image: 784 cells holding -128. -/
def background : Buffer := List.replicate (IMG_WIDTH * IMG_HEIGHT).toNat (-128)

/-- The scratch buffer after main.cpp 252-276: the local array with every cell set to -128,
then one line per segment, for i = 1 .. point_count-1. -/
def rasterize (fuel : Nat) (st : State) : Except Fault Buffer :=
  forEach (drawSegment fuel st (boundingBox st) (scaleOf (boundingBox st)))
    (List.range' 1 (st.point_count.toNat - 1)) background

/-- The body of the scan of main.cpp 283-288 on (sumX, sumY, totalMass). -/
def accumulate (temp_buffer : Buffer) (y : Nat) (acc : ℚ × ℚ × ℚ) (x : Nat) : ℚ × ℚ × ℚ :=
  if readCell temp_buffer (y * IMG_WIDTH + x) > -128 then
    (f32 (acc.1 + f32 x), f32 (acc.2.1 + f32 y), f32 (acc.2.2 + 1))
  else acc

/-- The scan of main.cpp 278-290: the float sums (sumX, sumY, totalMass). -/
def massSums (temp_buffer : Buffer) : ℚ × ℚ × ℚ :=
  (List.range IMG_HEIGHT.toNat).foldl
    (fun acc y => (List.range IMG_WIDTH.toNat).foldl (accumulate temp_buffer y) acc) (0, 0, 0)

/-- The variable comX of main.cpp 295. -/
def comX (temp_buffer : Buffer) : Int :=
  floatToInt (f32 ((massSums temp_buffer).1 / (massSums temp_buffer).2.2))

/-- The variable comY of main.cpp 296. -/
def comY (temp_buffer : Buffer) : Int :=
  floatToInt (f32 ((massSums temp_buffer).2.1 / (massSums temp_buffer).2.2))

/-- The body of the copy loop, main.cpp 304-312. -/
def shiftCell (temp_buffer : Buffer) (shiftX shiftY : Int) (y : Nat) (image : Buffer) (x : Nat) :
    Except Fault Buffer :=
  if readCell temp_buffer (y * IMG_WIDTH + x) > -128 then
    let newX := x + shiftX
    let newY := y + shiftY
    if newX ≥ 0 ∧ newX < IMG_WIDTH ∧ newY ≥ 0 ∧ newY < IMG_HEIGHT then
      writeCell image (newY * IMG_WIDTH + newX) 127
    else .ok image
  else .ok image

/-- The copy loop of main.cpp 300-314. -/
def shiftInk (temp_buffer : Buffer) (shiftX shiftY : Int) (image : Buffer) : Except Fault Buffer :=
  forEach (fun img y => forEach (shiftCell temp_buffer shiftX shiftY y) (List.range IMG_WIDTH.toNat) img)
    (List.range IMG_HEIGHT.toNat) image

/-- The mass-centering pass, main.cpp 278-314. -/
def centerImage (temp_buffer : Buffer) (image : Buffer) : Except Fault Buffer :=
  if (massSums temp_buffer).2.2 = 0 then .ok image
  else
    shiftInk temp_buffer (IMG_WIDTH / 2 - comX temp_buffer) (IMG_HEIGHT / 2 - comY temp_buffer) image

/-- The function preprocessImage. -/
def preprocessImage (fuel : Nat) (st : State) : Except Fault State :=
  match fillBackground st.image_buffer with
  | .error f => .error f
  | .ok image =>
    if st.point_count < 2 then .ok { st with image_buffer := image }
    else if (boundingBox st).maxX = (boundingBox st).minX ∨
        (boundingBox st).maxY = (boundingBox st).minY then
      .ok { st with image_buffer := image }
    else
      match rasterize fuel st with
      | .error f => .error f
      | .ok temp_buffer =>
        match centerImage temp_buffer image with
        | .error f => .error f
        | .ok image1 => .ok { st with image_buffer := image1 }

/-! ## Capture loop (main.cpp 113-162) -/

/-- The function processDrawing: the state after preprocessImage and the digit shown. -/
def processDrawing (fuel : Nat) (invoke : Buffer → Invocation) (st : State) :
    Except Fault (State × Int) :=
  match preprocessImage fuel st with
  | .error f => .error f
  | .ok st1 => .ok (st1, perform_real_inference invoke st1.image_buffer)

/-- The start of a stroke, main.cpp 117-123: on the first touch the point array is cleared. -/
def beginStroke (st : State) : State :=
  if st.is_drawing = false then
    { st with
      is_drawing := true
      point_count := 0
      captured_points := st.captured_points.map fun _ => ⟨0, 0⟩ }
  else st

/-- The range check and the append of main.cpp 127-132. -/
def appendSample (s : Sample) (st : State) : Except Fault State :=
  if s.x > 10 ∧ s.x < 230 ∧ s.y > 10 ∧ s.y < 230 ∧ st.point_count < MAX_POINTS then
    match writePoint st.captured_points st.point_count ⟨s.x, s.y⟩ with
    | .error f => .error f
    | .ok points => .ok { st with captured_points := points, point_count := st.point_count + 1 }
  else .ok st

/-- The release of a stroke, main.cpp 136-144. -/
def endStroke (fuel : Nat) (invoke : Buffer → Invocation) (st : State) : Except Fault State :=
  if st.point_count > 10 then
    match processDrawing fuel invoke { st with is_drawing := false } with
    | .error f => .error f
    | .ok r => .ok r.1
  else .ok { st with is_drawing := false }

/-- One iteration of loop(). -/
def loop (fuel : Nat) (invoke : Buffer → Invocation) (s : Sample) (st : State) : Except Fault State :=
  if s.touched then appendSample s (beginStroke st)
  else if st.is_drawing then endStroke fuel invoke st
  else .ok st

/-- The globals before the first iteration: zero-initialised arrays, no stroke in progress. -/
def initialState : State :=
  { captured_points := List.replicate MAX_POINTS.toNat ⟨0, 0⟩
    point_count := 0
    image_buffer := List.replicate (IMG_WIDTH * IMG_HEIGHT).toNat 0
    is_drawing := false }

/-- States the firmware can be in: the initial state and whatever loop() makes of a reachable one. -/
inductive Reachable (fuel : Nat) (invoke : Buffer → Invocation) : State → Prop where
  | init : Reachable fuel invoke initialState
  | step (s : Sample) (st st1 : State) :
      Reachable fuel invoke st → loop fuel invoke s st = .ok st1 → Reachable fuel invoke st1

/-- A gesture: the iterations of loop() that see the touch samples (x, y) in turn, then the
iteration that sees the release. -/
def gesture (fuel : Nat) (invoke : Buffer → Invocation) (samples : List (Int × Int)) (st : State) :
    Except Fault State :=
  match forEach (fun s (p : Int × Int) => loop fuel invoke ⟨true, p.1, p.2⟩ s) samples st with
  | .error f => .error f
  | .ok st1 => loop fuel invoke ⟨false, 0, 0⟩ st1

/-! ## The pixels stepped by the rasteriser

The loops of the rasteriser with the stores left out and the visited pixels recorded. -/

/-- The pixels (x0, y0) at which the for (;;) loop of main.cpp 214-241 applies the brush, in
order: the loop of drawLoop with the stores left out and the visited pixels recorded. -/
def drawLoopTrace (x1 y1 dx sx dy sy : Int) : Nat → Int → Int → Int → Option (List (Int × Int))
  | 0, _, _, _ => none
  | fuel + 1, x0, y0, err =>
    if x0 = x1 ∧ y0 = y1 then some [(x0, y0)]
    else
      let e2 := wrap32 (2 * err)
      let err1 := if e2 ≥ dy then wrap32 (err + dy) else err
      let x0n := if e2 ≥ dy then wrap32 (x0 + sx) else x0
      let err2 := if e2 ≤ dx then wrap32 (err1 + dx) else err1
      let y0n := if e2 ≤ dx then wrap32 (y0 + sy) else y0
      (drawLoopTrace x1 y1 dx sx dy sy fuel x0n y0n err2).map fun rest => (x0, y0) :: rest

/-- The pixels stepped by drawLineOnBuffer, in order. -/
def drawLineTrace (fuel : Nat) (x0 y0 x1 y1 : Int) : Option (List (Int × Int)) :=
  let dx := wrap32 |wrap32 (x1 - x0)|
  let sx : Int := if x0 < x1 then 1 else -1
  let dy := wrap32 (-wrap32 |wrap32 (y1 - y0)|)
  let sy : Int := if y0 < y1 then 1 else -1
  drawLoopTrace x1 y1 dx sx dy sy fuel x0 y0 (wrap32 (dx + dy))

/-- The brush applied at each pixel of a list in turn. -/
def brushAlong (path : List (Int × Int)) (buffer : Buffer) : Except Fault Buffer :=
  forEach (fun b (p : Int × Int) => brush p.1 p.2 b) path buffer

/-- The pixels stepped by the rasteriser call for segment i: the call of main.cpp 271-275 with
the stores left out. -/
def segmentTrace (fuel : Nat) (st : State) (b : BBox) (scale : ℚ) (i : Nat) :
    Option (List (Int × Int)) :=
  drawLineTrace fuel
    (remap scale b.minX (pointAt st (i - 1)).x) (remap scale b.minY (pointAt st (i - 1)).y)
    (remap scale b.minX (pointAt st i).x) (remap scale b.minY (pointAt st i).y)

/-- The traces of the given segments, one after the other. -/
def joinTraces (seg : Nat → Option (List (Int × Int))) : List Nat → Option (List (Int × Int))
  | [] => some []
  | i :: rest =>
    match seg i, joinTraces seg rest with
    | some a, some r => some (a ++ r)
    | _, _ => none

/-- The pixels stepped while the stroke is drawn into the scratch buffer, main.cpp 269-276:
the traces of the segments i = 1 .. point_count-1, in order. -/
def strokeTrace (scale : ℚ) (fuel : Nat) (st : State) : Option (List (Int × Int)) :=
  joinTraces (segmentTrace fuel st (boundingBox st) scale)
    (List.range' 1 (st.point_count.toNat - 1))

/-- The remapped captured point i, the end point of segment i and the start of segment i+1. -/
def remapped (scale : ℚ) (st : State) (i : Nat) : Int × Int :=
  (remap scale (boundingBox st).minX (pointAt st i).x,
    remap scale (boundingBox st).minY (pointAt st i).y)

/-! ## Integer counterparts

The same pipeline with the float computations replaced by integer arithmetic: the scale is the
fraction num/den and a quotient is truncated.  The theorems below relate the two. -/

/-- The remapped coordinate for the scale num/den, in integer arithmetic. -/
def remapZ (num den lo c : Int) : Int := (c - lo) * num / den

/-- The body of the segment loop with remapZ for remap. -/
def drawSegmentZ (fuel : Nat) (st : State) (b : BBox) (num den : Int) (temp_buffer : Buffer)
    (i : Nat) : Except Fault Buffer :=
  drawLineOnBuffer fuel
    (remapZ num den b.minX (pointAt st (i - 1)).x) (remapZ num den b.minY (pointAt st (i - 1)).y)
    (remapZ num den b.minX (pointAt st i).x) (remapZ num den b.minY (pointAt st i).y) temp_buffer

/-- The scratch buffer computed with remapZ. -/
def rasterizeZ (fuel : Nat) (num den : Int) (st : State) : Except Fault Buffer :=
  forEach (drawSegmentZ fuel st (boundingBox st) num den)
    (List.range' 1 (st.point_count.toNat - 1)) background

/-- The body of the scan on integer sums. -/
def accumulateZ (temp_buffer : Buffer) (y : Nat) (acc : Int × Int × Int) (x : Nat) :
    Int × Int × Int :=
  if readCell temp_buffer (y * IMG_WIDTH + x) > -128 then (acc.1 + x, acc.2.1 + y, acc.2.2 + 1)
  else acc

/-- The scan on integer sums: (sum of x, sum of y, number of ink cells). -/
def massSumsZ (temp_buffer : Buffer) : Int × Int × Int :=
  (List.range IMG_HEIGHT.toNat).foldl
    (fun acc y => (List.range IMG_WIDTH.toNat).foldl (accumulateZ temp_buffer y) acc) (0, 0, 0)

/-- The mass-centering pass with the centre of mass as an integer quotient. -/
def centerImageZ (temp_buffer : Buffer) (image : Buffer) : Except Fault Buffer :=
  if (massSumsZ temp_buffer).2.2 = 0 then .ok image
  else
    shiftInk temp_buffer (IMG_WIDTH / 2 - (massSumsZ temp_buffer).1 / (massSumsZ temp_buffer).2.2)
      (IMG_HEIGHT / 2 - (massSumsZ temp_buffer).2.1 / (massSumsZ temp_buffer).2.2) image

/-- The function preprocessImage in integer arithmetic, for the scale num/den. -/
def preprocessImageZ (fuel : Nat) (num den : Int) (st : State) : Except Fault State :=
  match fillBackground st.image_buffer with
  | .error f => .error f
  | .ok image =>
    if st.point_count < 2 then .ok { st with image_buffer := image }
    else if (boundingBox st).maxX = (boundingBox st).minX ∨
        (boundingBox st).maxY = (boundingBox st).minY then
      .ok { st with image_buffer := image }
    else
      match rasterizeZ fuel num den st with
      | .error f => .error f
      | .ok temp_buffer =>
        match centerImageZ temp_buffer image with
        | .error f => .error f
        | .ok image1 => .ok { st with image_buffer := image1 }

/-! ## The pipeline for a given scale factor

The function preprocessImage with the value of the variable scale left open, to compare the
runs on two strokes through the values of scale and the remapped coordinates alone. -/

/-- The scratch buffer of main.cpp 252-276 for a given value of the variable scale. -/
def rasterizeWith (scale : ℚ) (fuel : Nat) (st : State) : Except Fault Buffer :=
  forEach (drawSegment fuel st (boundingBox st) scale)
    (List.range' 1 (st.point_count.toNat - 1)) background

/-- The function preprocessImage with the scale factor given as a function of the box. -/
def preprocessImageWith (scale : BBox → ℚ) (fuel : Nat) (st : State) : Except Fault State :=
  match fillBackground st.image_buffer with
  | .error f => .error f
  | .ok image =>
    if st.point_count < 2 then .ok { st with image_buffer := image }
    else if (boundingBox st).maxX = (boundingBox st).minX ∨
        (boundingBox st).maxY = (boundingBox st).minY then
      .ok { st with image_buffer := image }
    else
      match rasterizeWith (scale (boundingBox st)) fuel st with
      | .error f => .error f
      | .ok temp_buffer =>
        match centerImage temp_buffer image with
        | .error f => .error f
        | .ok image1 => .ok { st with image_buffer := image1 }

/-! ## Vocabulary of the specification -/

/-- Sum of f x y over the cells (x, y) of the canvas that hold the ink value 127. -/
def inkSum (f : Int → Int → Int) (buffer : Buffer) : Int :=
  ((List.range IMG_HEIGHT.toNat).map fun (y : Nat) =>
    ((List.range IMG_WIDTH.toNat).map fun (x : Nat) =>
      if readCell buffer (y * IMG_WIDTH + x) = 127 then f x y else 0).sum).sum

/-- Number of ink cells. -/
def inkCount (buffer : Buffer) : Int := inkSum (fun _ _ => 1) buffer

/-- Sum of the x-coordinates of the ink cells. -/
def inkSumX (buffer : Buffer) : Int := inkSum (fun x _ => x) buffer

/-- Sum of the y-coordinates of the ink cells. -/
def inkSumY (buffer : Buffer) : Int := inkSum (fun _ y => y) buffer

/-- The ink centroid exists and each of its coordinates, inkSumX / inkCount and
inkSumY / inkCount, differs from the canvas centre 14 by at most 1. -/
def CentroidNearCentre (buffer : Buffer) : Prop :=
  0 < inkCount buffer ∧
  13 * inkCount buffer ≤ inkSumX buffer ∧ inkSumX buffer ≤ 15 * inkCount buffer ∧
  13 * inkCount buffer ≤ inkSumY buffer ∧ inkSumY buffer ≤ 15 * inkCount buffer

/-- The bounding box of the stroke has positive width and positive height. -/
def PositiveBox (st : State) : Prop :=
  (∃ p ∈ stroke st, ∃ q ∈ stroke st, p.x ≠ q.x) ∧ (∃ p ∈ stroke st, ∃ q ∈ stroke st, p.y ≠ q.y)

/-- The centering shift moves no ink cell of the scratch buffer off the canvas. -/
def NoClip (temp_buffer : Buffer) : Prop :=
  ∀ y x : Nat, y < 28 → x < 28 → readCell temp_buffer (y * IMG_WIDTH + x) > -128 →
    (x + (IMG_WIDTH / 2 - comX temp_buffer) ≥ 0 ∧
      x + (IMG_WIDTH / 2 - comX temp_buffer) < IMG_WIDTH ∧
      y + (IMG_HEIGHT / 2 - comY temp_buffer) ≥ 0 ∧
      y + (IMG_HEIGHT / 2 - comY temp_buffer) < IMG_HEIGHT)

/-- The horizontal centering shift of the specification: 14 minus the floor of the mean x of
the ink cells. -/
def centreShiftX (t : Buffer) : Int := 14 - inkSumX t / inkCount t

/-- The vertical centering shift of the specification: 14 minus the floor of the mean y of the
ink cells. -/
def centreShiftY (t : Buffer) : Int := 14 - inkSumY t / inkCount t

/-- The values of a C int on the target: the 32-bit two's complement range. -/
def IsInt32 (n : Int) : Prop := -2147483648 ≤ n ∧ n ≤ 2147483647

/-- Two distinct pixels that differ by at most 1 in x and by at most 1 in y: 8-neighbours. -/
def Adjacent (p q : Int × Int) : Prop := p ≠ q ∧ |q.1 - p.1| ≤ 1 ∧ |q.2 - p.2| ≤ 1

/-- Two pixels that differ by at most 1 in x and by at most 1 in y: equal or 8-neighbours. -/
def Near (p q : Int × Int) : Prop := |q.1 - p.1| ≤ 1 ∧ |q.2 - p.2| ≤ 1

/-- The stroke with every raw coordinate multiplied by k. -/
def scaleStroke (k : Int) (st : State) : State :=
  { st with captured_points := st.captured_points.map fun p => ⟨k * p.x, k * p.y⟩ }

/-- The stroke with the offset (a, b) added to every point. -/
def translateStroke (a b : Int) (st : State) : State :=
  { st with captured_points := st.captured_points.map fun p => ⟨p.x + a, p.y + b⟩ }

/-! ## Predicates of the proofs -/

/-- Relation between a buffer and a later one when every store in between wrote 127. -/
def Inked (b b1 : Buffer) : Prop :=
  b1.length = b.length ∧ ∀ i : Nat, b1.getD i 0 = b.getD i 0 ∨ b1.getD i 0 = 127

/-- The buffer has 784 cells and each holds the background value or the ink value. -/
def TwoValued (b : Buffer) : Prop :=
  b.length = 784 ∧ ∀ j, j < 784 → b.getD j 0 = -128 ∨ b.getD j 0 = 127

/-- Some cell of the canvas holds ink. -/
def HasInk (b : Buffer) : Prop := ∃ x y : Nat, x < 28 ∧ y < 28 ∧ b.getD (y * 28 + x) 0 = 127

/-- The scratch cell (x, y) is the source of the output cell j under the shift: it holds ink and
its shifted position lies on the canvas, at index j. -/
def ShiftSource (temp_buffer : Buffer) (shiftX shiftY : Int) (y x j : Nat) : Prop :=
  readCell temp_buffer (y * IMG_WIDTH + x) > -128 ∧
    (x + shiftX ≥ 0 ∧ x + shiftX < IMG_WIDTH ∧ y + shiftY ≥ 0 ∧ y + shiftY < IMG_HEIGHT) ∧
    ((y + shiftY) * IMG_WIDTH + (x + shiftX)).toNat = j

/-- The float accumulators equal the integer sums, which stay small: after k cells each
coordinate sum is at most 27 k and the mass at most k. -/
def SumsAgree (k : Nat) (a : ℚ × ℚ × ℚ) (z : Int × Int × Int) : Prop :=
  k ≤ 784 → (a = ((z.1 : ℚ), (z.2.1 : ℚ), (z.2.2 : ℚ)) ∧
    (0 ≤ z.1 ∧ z.1 ≤ 27 * k) ∧ (0 ≤ z.2.1 ∧ z.2.1 ≤ 27 * k) ∧ (0 ≤ z.2.2 ∧ z.2.2 ≤ k))

/-- The ink cells of a buffer, as pairs (y, x). -/
def inkCells (b : Buffer) : Finset (ℕ × ℕ) :=
  (Finset.range 28 ×ˢ Finset.range 28).filter fun p => readCell b (p.1 * IMG_WIDTH + p.2) = 127

/-- The state of the arg-max loop after n iterations: best_score bounds the scores seen, and
predicted_digit is -1 with best_score still -128, or the first index holding best_score. -/
def ArgmaxInv (output : List Int) (n : Nat) (acc : Int × Int) : Prop :=
  (∀ j, j < n → output.getD j 0 ≤ acc.1) ∧
    ((acc.2 = -1 ∧ acc.1 = -128) ∨
      ∃ p : Nat, acc.2 = p ∧ p < n ∧ output.getD p 0 = acc.1 ∧ -128 < acc.1 ∧
        ∀ j, j < p → output.getD j 0 < acc.1)

/-- The arrays have their declared sizes and point_count is within 0..MAX_POINTS. -/
def StateOk (st : State) : Prop :=
  (0 ≤ st.point_count ∧ st.point_count ≤ MAX_POINTS) ∧ st.captured_points.length = 250 ∧
    st.image_buffer.length = 784

/-- The stored points lie strictly inside the drawing area: 10 < x < 230 and 10 < y < 230 for
captured_points[i], i < point_count. -/
def PointsInRange (st : State) : Prop :=
  ∀ i : Nat, i < st.point_count.toNat →
    10 < (pointAt st i).x ∧ (pointAt st i).x < 230 ∧ 10 < (pointAt st i).y ∧ (pointAt st i).y < 230

/-- The trace (x0, y0) :: tail of the line loop with a steps left in x and b in y: consecutive
pixels are 8-neighbours, the last pixel is the end point, there are at most a + b steps, and
every pixel lies between (x0, y0) and the end point. -/
def TraceOk (x1 y1 sx sy a b x0 y0 : Int) (tail : List (Int × Int)) : Prop :=
  List.Chain Adjacent (x0, y0) tail ∧ ((x0, y0) :: tail).getLast? = some (x1, y1) ∧
    (tail.length : Int) ≤ a + b ∧
    ∀ p ∈ (x0, y0) :: tail, ∃ a1 b1 : Int, (0 ≤ a1 ∧ a1 ≤ a) ∧ (0 ≤ b1 ∧ b1 ≤ b) ∧
      p.1 = x1 - sx * a1 ∧ p.2 = y1 - sy * b1

/-- Relation between a buffer and a later one when every store in between wrote 127 into a
cell of the columns 0..n and the rows 0..n. -/
def InkedWithin (n : Nat) (b b1 : Buffer) : Prop :=
  b1.length = b.length ∧
    ∀ i : Nat, b1.getD i 0 = b.getD i 0 ∨ (b1.getD i 0 = 127 ∧ i % 28 ≤ n ∧ i / 28 ≤ n)

/-! ## Bit masks

A two-valued buffer as a number: bit i is set when cell i holds ink.  The pipeline on masks
mirrors the pipeline on buffers, store for store, and is what the concrete runs below
evaluate. -/

/-- The two-valued buffer of a mask. -/
def decodeMask (m : Nat) : Buffer := (List.range 784).map fun i => if m.testBit i then 127 else -128

/-- The guarded store of the rasteriser, on a mask. -/
def plotMask (px py : Int) (m : Nat) : Nat :=
  if px ≥ 0 ∧ px < IMG_WIDTH ∧ py ≥ 0 ∧ py < IMG_HEIGHT then m ||| 2 ^ (py * IMG_WIDTH + px).toNat
  else m

/-- The 2x2 brush, on a mask. -/
def brushMask (x0 y0 : Int) (m : Nat) : Nat :=
  plotMask (wrap32 (x0 + 1)) (wrap32 (y0 + 1)) (plotMask (wrap32 (x0 + 1)) (wrap32 (y0 + 0))
    (plotMask (wrap32 (x0 + 0)) (wrap32 (y0 + 1)) (plotMask (wrap32 (x0 + 0)) (wrap32 (y0 + 0)) m)))

/-- The line loop, on a mask. -/
def drawLoopMask (x1 y1 dx sx dy sy : Int) : Nat → Int → Int → Int → Nat → Except Fault Nat
  | 0, _, _, _, _ => .error .outOfFuel
  | fuel + 1, x0, y0, err, m =>
    if x0 = x1 ∧ y0 = y1 then .ok (brushMask x0 y0 m)
    else
      let e2 := wrap32 (2 * err)
      let err1 := if e2 ≥ dy then wrap32 (err + dy) else err
      let x0n := if e2 ≥ dy then wrap32 (x0 + sx) else x0
      let err2 := if e2 ≤ dx then wrap32 (err1 + dx) else err1
      let y0n := if e2 ≤ dx then wrap32 (y0 + sy) else y0
      drawLoopMask x1 y1 dx sx dy sy fuel x0n y0n err2 (brushMask x0 y0 m)

/-- The rasteriser, on a mask. -/
def drawLineMask (fuel : Nat) (x0 y0 x1 y1 : Int) (m : Nat) : Except Fault Nat :=
  let dx := wrap32 |wrap32 (x1 - x0)|
  let sx : Int := if x0 < x1 then 1 else -1
  let dy := wrap32 (-wrap32 |wrap32 (y1 - y0)|)
  let sy : Int := if y0 < y1 then 1 else -1
  drawLoopMask x1 y1 dx sx dy sy fuel x0 y0 (wrap32 (dx + dy)) m

/-- The body of the segment loop, on a mask, for the scale num/den. -/
def drawSegmentMask (fuel : Nat) (st : State) (b : BBox) (num den : Int) (m : Nat) (i : Nat) :
    Except Fault Nat :=
  drawLineMask fuel
    (remapZ num den b.minX (pointAt st (i - 1)).x) (remapZ num den b.minY (pointAt st (i - 1)).y)
    (remapZ num den b.minX (pointAt st i).x) (remapZ num den b.minY (pointAt st i).y) m

/-- The scratch buffer, as a mask. -/
def rasterizeMask (fuel : Nat) (num den : Int) (st : State) : Except Fault Nat :=
  forEach (drawSegmentMask fuel st (boundingBox st) num den)
    (List.range' 1 (st.point_count.toNat - 1)) 0

/-- The body of the scan, on a mask. -/
def accumulateMask (t : Nat) (y : Nat) (acc : Int × Int × Int) (x : Nat) : Int × Int × Int :=
  if t.testBit (y * 28 + x) then (acc.1 + x, acc.2.1 + y, acc.2.2 + 1) else acc

/-- The scan, on a mask. -/
def massSumsMask (t : Nat) : Int × Int × Int :=
  (List.range 28).foldl (fun acc y => (List.range 28).foldl (accumulateMask t y) acc) (0, 0, 0)

/-- The body of the copy loop, on masks. -/
def shiftCellMask (t : Nat) (shiftX shiftY : Int) (y : Nat) (image : Nat) (x : Nat) : Nat :=
  if t.testBit (y * 28 + x) then
    if x + shiftX ≥ 0 ∧ x + shiftX < IMG_WIDTH ∧ y + shiftY ≥ 0 ∧ y + shiftY < IMG_HEIGHT then
      image ||| 2 ^ ((y + shiftY) * IMG_WIDTH + (x + shiftX)).toNat
    else image
  else image

/-- The copy loop, on masks. -/
def shiftMask (t : Nat) (shiftX shiftY : Int) (image : Nat) : Nat :=
  (List.range 28).foldl (fun img y => (List.range 28).foldl (shiftCellMask t shiftX shiftY y) img)
    image

/-- The mass-centering pass, on masks. -/
def centerMask (t : Nat) (image : Nat) : Nat :=
  if (massSumsMask t).2.2 = 0 then image
  else
    shiftMask t (IMG_WIDTH / 2 - (massSumsMask t).1 / (massSumsMask t).2.2)
      (IMG_HEIGHT / 2 - (massSumsMask t).2.1 / (massSumsMask t).2.2) image

/-- The function preprocessImage, producing the mask of image_buffer. -/
def preprocessMask (fuel : Nat) (num den : Int) (st : State) : Except Fault Nat :=
  if st.point_count < 2 then .ok 0
  else if (boundingBox st).maxX = (boundingBox st).minX ∨
      (boundingBox st).maxY = (boundingBox st).minY then .ok 0
  else
    match rasterizeMask fuel num den st with
    | .error f => .error f
    | .ok t => .ok (centerMask t 0)

/-- Sum of f x y over the ink cells, on a mask. -/
def inkSumMask (f : Int → Int → Int) (m : Nat) : Int :=
  ((List.range 28).map fun (y : Nat) =>
    ((List.range 28).map fun (x : Nat) => if m.testBit (y * 28 + x) then f x y else 0).sum).sum

/-- The mask of a run that returned, 0 for a fault. -/
def maskOf (r : Except Fault Nat) : Nat :=
  match r with
  | .ok m => m
  | .error _ => 0

/-- Whether a run returned. -/
def succeeded (r : Except Fault Nat) : Bool :=
  match r with
  | .ok _ => true
  | .error _ => false

/-- The check of NoClip on a mask: every ink cell stays on the canvas under the shift. -/
def noClipMask (t : Nat) : Bool :=
  (List.range 28).all fun y => (List.range 28).all fun x =>
    !t.testBit (y * 28 + x) ||
      decide ((x : Int) + (IMG_WIDTH / 2 - (massSumsMask t).1 / (massSumsMask t).2.2) ≥ 0 ∧
        (x : Int) + (IMG_WIDTH / 2 - (massSumsMask t).1 / (massSumsMask t).2.2) < IMG_WIDTH ∧
        (y : Int) + (IMG_HEIGHT / 2 - (massSumsMask t).2.1 / (massSumsMask t).2.2) ≥ 0 ∧
        (y : Int) + (IMG_HEIGHT / 2 - (massSumsMask t).2.1 / (massSumsMask t).2.2) < IMG_HEIGHT)

/-! ## Sample inputs -/

/-- A state holding the given stroke in a 250-entry point array. -/
def strokeState (pts : List Point) (image : Buffer) : State :=
  { captured_points := pts ++ List.replicate (MAX_POINTS.toNat - pts.length) ⟨0, 0⟩
    point_count := pts.length
    image_buffer := image
    is_drawing := false }

/-- The L-shaped stroke of the specification: (10,10), (10,50), (50,50). -/
def strokeL : State :=
  strokeState [⟨10, 10⟩, ⟨10, 50⟩, ⟨50, 50⟩] (List.replicate 784 0)

/-- A vertical stroke: (10,10), (10,50). -/
def strokeVertical : State :=
  strokeState [⟨10, 10⟩, ⟨10, 50⟩] (List.replicate 784 0)

/-- A single captured point: (10,10). -/
def strokeDot : State :=
  strokeState [⟨10, 10⟩] (List.replicate 784 0)

/-- An 11-point stroke: a zig-zag filling a block on the left, then a bar along the top and
down the right-hand side. -/
def strokeBlock : State :=
  strokeState
    [⟨11, 11⟩, ⟨11, 31⟩, ⟨13, 31⟩, ⟨13, 11⟩, ⟨15, 11⟩, ⟨15, 31⟩, ⟨16, 31⟩, ⟨16, 11⟩, ⟨31, 11⟩,
      ⟨31, 17⟩, ⟨31, 23⟩]
    (List.replicate 784 0)

/-- An 11-point diagonal stroke from (11,11) to (51,51). -/
def strokeDiagonal : State :=
  strokeState
    [⟨11, 11⟩, ⟨15, 15⟩, ⟨19, 19⟩, ⟨23, 23⟩, ⟨27, 27⟩, ⟨31, 31⟩, ⟨35, 35⟩, ⟨39, 39⟩, ⟨43, 43⟩,
      ⟨47, 47⟩, ⟨51, 51⟩]
    (List.replicate 784 0)

/-- An interpreter that reports success with the given scores, whatever the input. -/
def fixedScores (scores : List Int) : Buffer → Invocation := fun _ => ⟨true, scores⟩

/-- An interpreter whose invocation fails. -/
def failing (scores : List Int) : Buffer → Invocation := fun _ => ⟨false, scores⟩

/-- The state of a stroke in progress after n accepted samples (100, 100). -/
def fedState (n : Nat) : State :=
  { captured_points := List.replicate n ⟨100, 100⟩ ++ List.replicate (250 - n) ⟨0, 0⟩
    point_count := n
    image_buffer := initialState.image_buffer
    is_drawing := true }

/-- The touch samples of a gesture along the diagonal from (11, 11) to (51, 51): 11 samples,
all inside the drawing area. -/
def diagonalSamples : List (Int × Int) :=
  [(11, 11), (15, 15), (19, 19), (23, 23), (27, 27), (31, 31), (35, 35), (39, 39), (43, 43),
    (47, 47), (51, 51)]

/-- A scratch buffer with a single ink cell, at (0, 0). -/
def scratchDot : Buffer := background.set 0 127

/-- A two-point stroke with a box of width and height 19: (11,11), (30,30). -/
def strokeShort : State :=
  strokeState [⟨11, 11⟩, ⟨30, 30⟩] (List.replicate 784 0)

/-! ## Facts about binary32 rounding -/

theorem floor_le_roundHalfEven (q : ℚ) : ⌊q⌋ ≤ roundHalfEven q := by
  unfold roundHalfEven
  split_ifs <;> omega

theorem roundHalfEven_le_ceil (q : ℚ) : roundHalfEven q ≤ ⌈q⌉ := by
  unfold roundHalfEven
  have h1 : ⌊q⌋ ≤ ⌈q⌉ := Int.floor_le_ceil q
  split_ifs with h h'
  · exact h1
  · have : (⌊q⌋ : ℚ) < q := by linarith
    have := Int.lt_ceil.mpr this
    omega
  · exact h1
  · have hq : (⌊q⌋ : ℚ) < q := by
      have : q - ⌊q⌋ = 1 / 2 := le_antisymm (not_lt.mp h') (not_lt.mp h)
      linarith
    have := Int.lt_ceil.mpr hq
    omega

theorem abs_roundHalfEven_sub_le (q : ℚ) : |(roundHalfEven q : ℚ) - q| ≤ 1 / 2 := by
  unfold roundHalfEven
  have h0 : (⌊q⌋ : ℚ) ≤ q := Int.floor_le q
  have h1 : q < ⌊q⌋ + 1 := Int.lt_floor_add_one q
  rw [abs_le]
  split_ifs with h h' <;> push_cast <;> constructor <;> linarith

theorem f32_zero : f32 0 = 0 := by simp [f32]

theorem two_zpow_pos (e : Int) : (0 : ℚ) < (2 : ℚ) ^ e := zpow_pos (by norm_num) e

theorem two_zpow_log_le {q : ℚ} (hq : 0 < q) : (2 : ℚ) ^ Int.log 2 q ≤ q := by
  have := Int.zpow_log_le_self (b := 2) (r := q) (by norm_num) hq
  simpa using this

/-- Relative error of binary32 rounding: at most 2^-24 of the operand. -/
theorem abs_f32_sub_le {q : ℚ} (hq : 0 < q) : |f32 q - q| ≤ q / 2 ^ 24 := by
  have hne : q ≠ 0 := ne_of_gt hq
  have habs : |q| = q := abs_of_pos hq
  unfold f32
  rw [if_neg hne, habs]
  set E := Int.log 2 q with hE
  have hu : (0 : ℚ) < (2 : ℚ) ^ (E - 23) := two_zpow_pos _
  have hr := abs_roundHalfEven_sub_le (q / (2 : ℚ) ^ (E - 23))
  have hEq : (2 : ℚ) ^ E ≤ q := two_zpow_log_le hq
  have key : (roundHalfEven (q / (2 : ℚ) ^ (E - 23)) : ℚ) * (2 : ℚ) ^ (E - 23) - q
      = ((roundHalfEven (q / (2 : ℚ) ^ (E - 23)) : ℚ) - q / (2 : ℚ) ^ (E - 23)) * (2 : ℚ) ^ (E - 23) := by
    field_simp
  rw [key, abs_mul, abs_of_pos hu]
  have h24 : (2 : ℚ) ^ (E - 23) = (2 : ℚ) ^ E / 2 ^ 23 := by
    rw [zpow_sub₀ (by norm_num : (2 : ℚ) ≠ 0)]
    norm_num
  calc |(roundHalfEven (q / (2 : ℚ) ^ (E - 23)) : ℚ) - q / (2 : ℚ) ^ (E - 23)| * (2 : ℚ) ^ (E - 23)
      ≤ 1 / 2 * (2 : ℚ) ^ (E - 23) := by
        exact mul_le_mul_of_nonneg_right hr (le_of_lt hu)
    _ = (2 : ℚ) ^ E / 2 ^ 24 := by rw [h24]; ring
    _ ≤ q / 2 ^ 24 := by
        apply div_le_div_of_nonneg_right hEq (by positivity)


theorem abs_f32_sub_le_of_nonneg {q : ℚ} (hq : 0 ≤ q) : |f32 q - q| ≤ q / 2 ^ 24 := by
  rcases eq_or_lt_of_le hq with h | h
  · subst h; simp [f32_zero]
  · exact abs_f32_sub_le h

theorem f32_le_mul {q : ℚ} (hq : 0 ≤ q) : f32 q ≤ q * (1 + 1 / 2 ^ 24) := by
  have := abs_le.mp (abs_f32_sub_le_of_nonneg hq)
  linarith [this.2]

theorem mul_le_f32 {q : ℚ} (hq : 0 ≤ q) : q * (1 - 1 / 2 ^ 24) ≤ f32 q := by
  have := abs_le.mp (abs_f32_sub_le_of_nonneg hq)
  linarith [this.1]

theorem f32_nonneg {q : ℚ} (hq : 0 ≤ q) : 0 ≤ f32 q := by
  unfold f32
  split_ifs with h
  · exact le_refl _
  · have hu : (0 : ℚ) < (2 : ℚ) ^ (Int.log 2 |q| - 23) := two_zpow_pos _
    have h0 : (0 : ℤ) ≤ ⌊q / (2 : ℚ) ^ (Int.log 2 |q| - 23)⌋ := Int.floor_nonneg.mpr (div_nonneg hq hu.le)
    have h1 := floor_le_roundHalfEven (q / (2 : ℚ) ^ (Int.log 2 |q| - 23))
    have h2 : (0 : ℚ) ≤ (roundHalfEven (q / (2 : ℚ) ^ (Int.log 2 |q| - 23)) : ℚ) := by
      exact_mod_cast le_trans h0 h1
    exact mul_nonneg h2 hu.le

theorem log_le_of_lt {q : ℚ} (hq : 0 < q) (hlt : q < 2 ^ 24) : Int.log 2 q ≤ 23 := by
  have h := (Int.lt_zpow_iff_log_lt (b := 2) (x := 24) (r := q) (by norm_num) hq).mp
    (by
      have h24 : (((2 : ℕ) : ℚ)) ^ (24 : ℤ) = 2 ^ 24 := by norm_num
      rw [h24]; exact hlt)
  omega

theorem ulp_eq {E : Int} (hE : E ≤ 23) : (2 : ℚ) ^ (E - 23) = 1 / ((2 ^ (23 - E).toNat : ℤ) : ℚ) := by
  have h : E - 23 = -((23 - E).toNat : ℤ) := by
    rw [Int.toNat_of_nonneg (by omega)]; ring
  rw [h, zpow_neg, zpow_natCast]
  push_cast
  rw [one_div]

/-- Rounding never crosses an integer below the operand (operand under 2^24). -/
theorem le_f32_of_intCast_le {q : ℚ} {k : ℤ} (hq : 0 < q) (hlt : q < 2 ^ 24) (h : (k : ℚ) ≤ q) :
    (k : ℚ) ≤ f32 q := by
  have hE := log_le_of_lt hq hlt
  unfold f32
  rw [if_neg (ne_of_gt hq), abs_of_pos hq, ulp_eq hE]
  set N : ℤ := 2 ^ (23 - Int.log 2 q).toNat with hN
  have hNpos : (0 : ℚ) < (N : ℚ) := by
    have : (0 : ℤ) < N := by rw [hN]; positivity
    exact_mod_cast this
  have hm : q / (1 / (N : ℚ)) = q * N := by field_simp
  rw [hm]
  have h1 : ((k * N : ℤ) : ℚ) ≤ q * N := by
    push_cast
    exact mul_le_mul_of_nonneg_right h hNpos.le
  have h2 : k * N ≤ ⌊q * (N : ℚ)⌋ := Int.le_floor.mpr h1
  have h3 := floor_le_roundHalfEven (q * (N : ℚ))
  have h4 : ((k * N : ℤ) : ℚ) ≤ (roundHalfEven (q * (N : ℚ)) : ℚ) := by
    exact_mod_cast le_trans h2 h3
  push_cast at h4
  rw [mul_one_div, le_div_iff₀ hNpos]
  exact h4

/-- Rounding never crosses an integer above the operand (operand under 2^24). -/
theorem f32_le_of_le_intCast {q : ℚ} {k : ℤ} (hq : 0 < q) (hlt : q < 2 ^ 24) (h : q ≤ (k : ℚ)) :
    f32 q ≤ (k : ℚ) := by
  have hE := log_le_of_lt hq hlt
  unfold f32
  rw [if_neg (ne_of_gt hq), abs_of_pos hq, ulp_eq hE]
  set N : ℤ := 2 ^ (23 - Int.log 2 q).toNat with hN
  have hNpos : (0 : ℚ) < (N : ℚ) := by
    have : (0 : ℤ) < N := by rw [hN]; positivity
    exact_mod_cast this
  have hm : q / (1 / (N : ℚ)) = q * N := by field_simp
  rw [hm]
  have h1 : q * N ≤ ((k * N : ℤ) : ℚ) := by
    push_cast
    exact mul_le_mul_of_nonneg_right h hNpos.le
  have h2 : ⌈q * (N : ℚ)⌉ ≤ k * N := Int.ceil_le.mpr h1
  have h3 := roundHalfEven_le_ceil (q * (N : ℚ))
  have h4 : (roundHalfEven (q * (N : ℚ)) : ℚ) ≤ ((k * N : ℤ) : ℚ) := by
    exact_mod_cast le_trans h3 h2
  push_cast at h4
  rw [mul_one_div, div_le_iff₀ hNpos]
  exact h4

/-- Integers below 2^24 are binary32 values: converting them to float is exact. -/
theorem f32_natCast (n : ℕ) (hn : n < 2 ^ 24) : f32 (n : ℚ) = n := by
  rcases Nat.eq_zero_or_pos n with h | h
  · subst h; simp [f32_zero]
  · have hq : (0 : ℚ) < (n : ℚ) := by exact_mod_cast h
    have hlt : (n : ℚ) < 2 ^ 24 := by exact_mod_cast hn
    have h1 := le_f32_of_intCast_le (k := (n : ℤ)) hq hlt (by simp)
    have h2 := f32_le_of_le_intCast (k := (n : ℤ)) hq hlt (by simp)
    have := le_antisymm h2 h1
    simpa using this

theorem floatToInt_f32_div (a b : ℕ) (hb : 0 < b) (ha : a < 2 ^ 24) :
    floatToInt (f32 ((a : ℚ) / b)) = ((a / b : ℕ) : ℤ) := by
  have hbq : (0 : ℚ) < (b : ℚ) := by exact_mod_cast hb
  rcases Nat.eq_zero_or_pos a with h | h
  · subst h; simp [f32_zero, floatToInt]
  · have hq : (0 : ℚ) < (a : ℚ) / b := div_pos (by exact_mod_cast h) hbq
    have hqa : (a : ℚ) / b ≤ a := by
      apply div_le_self (by positivity)
      exact_mod_cast hb
    have haq : (a : ℚ) < 2 ^ 24 := by exact_mod_cast ha
    have hlt : (a : ℚ) / b < 2 ^ 24 := lt_of_le_of_lt hqa haq
    have hk : (((a / b : ℕ) : ℤ) : ℚ) ≤ (a : ℚ) / b := by
      rw [le_div_iff₀ hbq]
      have : a / b * b ≤ a := Nat.div_mul_le_self a b
      exact_mod_cast this
    have h1 := le_f32_of_intCast_le hq hlt hk
    have h2 := f32_le_mul hq.le
    have hd : a < (a / b + 1) * b := by
      have := Nat.lt_div_mul_add hb (a := a)
      nlinarith [Nat.div_mul_le_self a b]
    have hd2 : (a : ℚ) + 1 ≤ ((a / b : ℕ) + 1) * b := by exact_mod_cast hd
    have hub : (a : ℚ) / b * (1 + 1 / 2 ^ 24) < ((a / b : ℕ) : ℚ) + 1 := by
      rw [div_mul_eq_mul_div, div_lt_iff₀ hbq]
      nlinarith
    have h3 : f32 ((a : ℚ) / b) < ((a / b : ℕ) : ℚ) + 1 := lt_of_le_of_lt h2 hub
    have h0 : (0 : ℚ) ≤ f32 ((a : ℚ) / b) := f32_nonneg hq.le
    unfold floatToInt
    rw [if_pos h0, Int.floor_eq_iff]
    constructor
    · simpa using h1
    · simpa using h3

/-! ## Loops and stores -/

@[simp] theorem IMG_WIDTH_eq : IMG_WIDTH = 28 := rfl

@[simp] theorem IMG_HEIGHT_eq : IMG_HEIGHT = 28 := rfl

@[simp] theorem MAX_POINTS_eq : MAX_POINTS = 250 := rfl

theorem forEach_nil {σ ι : Type} (body : σ → ι → Except Fault σ) (s : σ) :
    forEach body [] s = .ok s := rfl

theorem forEach_cons_ok {σ ι : Type} {body : σ → ι → Except Fault σ} {s s1 : σ} {i : ι}
    (rest : List ι) (h : body s i = .ok s1) :
    forEach body (i :: rest) s = forEach body rest s1 := by
  simp [forEach, h]

theorem forEach_cons_error {σ ι : Type} {body : σ → ι → Except Fault σ} {s : σ} {i : ι} {f : Fault}
    (rest : List ι) (h : body s i = .error f) :
    forEach body (i :: rest) s = .error f := by
  simp [forEach, h]

/-- A loop whose body succeeds and keeps an invariant succeeds and keeps it. -/
theorem forEach_total {σ ι : Type} {body : σ → ι → Except Fault σ} (P : σ → Prop) :
    ∀ (l : List ι) (s : σ), (∀ s i, i ∈ l → P s → ∃ s1, body s i = .ok s1 ∧ P s1) → P s →
      ∃ s1, forEach body l s = .ok s1 ∧ P s1
  | [], s, _, hs => ⟨s, rfl, hs⟩
  | i :: rest, s, hbody, hs => by
    obtain ⟨s1, h1, hP1⟩ := hbody s i (List.mem_cons_self _ _) hs
    rw [forEach_cons_ok rest h1]
    exact forEach_total P rest s1 (fun s j hj => hbody s j (List.mem_cons_of_mem _ hj)) hP1

theorem forEach_congr {σ ι : Type} {body body1 : σ → ι → Except Fault σ} :
    ∀ (l : List ι) (s : σ), (∀ s i, i ∈ l → body s i = body1 s i) →
      forEach body l s = forEach body1 l s
  | [], _, _ => rfl
  | i :: rest, s, h => by
    have hi := h s i (List.mem_cons_self _ _)
    have hrest : ∀ s1, forEach body rest s1 = forEach body1 rest s1 := fun s1 =>
      forEach_congr rest s1 (fun s j hj => h s j (List.mem_cons_of_mem _ hj))
    simp only [forEach, hi]
    cases body1 s i with
    | error f => rfl
    | ok s1 => exact hrest s1

theorem getD_set (b : Buffer) (k : Nat) (v : Int) (i : Nat) :
    (b.set k v).getD i 0 = if k = i ∧ k < b.length then v else b.getD i 0 := by
  simp only [List.getD_eq_getElem?_getD, List.getElem?_set]
  by_cases hk : k = i
  · subst hk
    by_cases hl : k < b.length
    · simp [hl]
    · simp [hl, List.getElem?_eq_none (not_lt.mp hl)]
  · simp [hk]

theorem Inked.refl (b : Buffer) : Inked b b := ⟨rfl, fun _ => Or.inl rfl⟩

theorem Inked.trans {a b c : Buffer} (h1 : Inked a b) (h2 : Inked b c) : Inked a c := by
  refine ⟨h2.1.trans h1.1, fun i => ?_⟩
  rcases h2.2 i with h | h
  · rw [h]; exact h1.2 i
  · exact Or.inr h

theorem Inked.keeps {a b : Buffer} (h : Inked a b) {i : Nat} (hi : a.getD i 0 = 127) :
    b.getD i 0 = 127 := by
  rcases h.2 i with h1 | h1
  · rw [h1, hi]
  · exact h1

theorem writeCell_ok {b : Buffer} {idx : Int} (v : Int) (h0 : 0 ≤ idx) (h1 : idx < b.length) :
    writeCell b idx v = .ok (b.set idx.toNat v) := by
  simp [writeCell, h0, h1]

theorem inked_set (b : Buffer) (k : Nat) : Inked b (b.set k 127) := by
  refine ⟨by simp, fun i => ?_⟩
  rw [getD_set]
  split_ifs
  · exact Or.inr rfl
  · exact Or.inl rfl

/-- A value inside the 32-bit range is its own reduction. -/
theorem wrap32_eq (n : Int) (h1 : -2147483648 ≤ n) (h2 : n < 2147483648) : wrap32 n = n := by
  unfold wrap32
  omega

/-- A reduced value lies in the 32-bit range. -/
theorem wrap32_range (n : Int) : -2147483648 ≤ wrap32 n ∧ wrap32 n < 2147483648 := by
  unfold wrap32
  omega

/-- The guarded store succeeds on a 784-cell buffer, only writes 127, and inks its pixel. -/
theorem plot_spec (px py : Int) (b : Buffer) (hb : b.length = 784) :
    ∃ b1, plot px py b = .ok b1 ∧ Inked b b1 ∧
      (0 ≤ px ∧ px < 28 ∧ 0 ≤ py ∧ py < 28 → b1.getD (py * 28 + px).toNat 0 = 127) := by
  unfold plot
  by_cases h : px ≥ 0 ∧ px < IMG_WIDTH ∧ py ≥ 0 ∧ py < IMG_HEIGHT
  · rw [if_pos h]
    simp only [IMG_WIDTH_eq, IMG_HEIGHT_eq] at h ⊢
    have h0 : 0 ≤ py * 28 + px := by omega
    have h1 : py * 28 + px < (b.length : Int) := by rw [hb]; omega
    refine ⟨_, writeCell_ok 127 h0 h1, inked_set _ _, fun _ => ?_⟩
    rw [getD_set]
    have : (py * 28 + px).toNat < b.length := by omega
    simp [this]
  · rw [if_neg h]
    refine ⟨b, rfl, Inked.refl b, fun hc => ?_⟩
    simp only [IMG_WIDTH_eq, IMG_HEIGHT_eq] at h
    exact absurd ⟨hc.1, hc.2.1, hc.2.2.1, hc.2.2.2⟩ h

/-- The brush succeeds on a 784-cell buffer, only writes 127, and inks its own pixel. -/
theorem brush_spec (x0 y0 : Int) (b : Buffer) (hb : b.length = 784) :
    ∃ b1, brush x0 y0 b = .ok b1 ∧ Inked b b1 ∧
      (0 ≤ x0 ∧ x0 < 28 ∧ 0 ≤ y0 ∧ y0 < 28 → b1.getD (y0 * 28 + x0).toNat 0 = 127) := by
  obtain ⟨b1, e1, i1, k1⟩ := plot_spec (wrap32 (x0 + 0)) (wrap32 (y0 + 0)) b hb
  obtain ⟨b2, e2, i2, -⟩ := plot_spec (wrap32 (x0 + 0)) (wrap32 (y0 + 1)) b1 (i1.1.trans hb)
  obtain ⟨b3, e3, i3, -⟩ := plot_spec (wrap32 (x0 + 1)) (wrap32 (y0 + 0)) b2
    (i2.1.trans (i1.1.trans hb))
  obtain ⟨b4, e4, i4, -⟩ := plot_spec (wrap32 (x0 + 1)) (wrap32 (y0 + 1)) b3
    (i3.1.trans (i2.1.trans (i1.1.trans hb)))
  refine ⟨b4, ?_, (i1.trans i2).trans (i3.trans i4), fun hc => ?_⟩
  · unfold brush
    rw [forEach_cons_ok _ e1, forEach_cons_ok _ e2, forEach_cons_ok _ e3, forEach_cons_ok _ e4]
    rfl
  · have wx : wrap32 (x0 + 0) = x0 := by rw [add_zero]; exact wrap32_eq x0 (by omega) (by omega)
    have wy : wrap32 (y0 + 0) = y0 := by rw [add_zero]; exact wrap32_eq y0 (by omega) (by omega)
    rw [wx, wy] at k1
    exact (i2.trans (i3.trans i4)).keeps (k1 hc)

/-- The line loop never stores outside the buffer and only writes 127, whatever its fuel. -/
theorem drawLoop_inked (x1 y1 dx sx dy sy : Int) :
    ∀ (fuel : Nat) (x0 y0 err : Int) (b : Buffer), b.length = 784 →
      (∀ b1, drawLoop x1 y1 dx sx dy sy fuel x0 y0 err b = .ok b1 → Inked b b1) ∧
      drawLoop x1 y1 dx sx dy sy fuel x0 y0 err b ≠ .error .outOfBounds
  | 0, _, _, _, _, _ => by simp [drawLoop]
  | fuel + 1, x0, y0, err, b, hb => by
    obtain ⟨b1, e1, i1, -⟩ := brush_spec x0 y0 b hb
    have ih := fun x y e => drawLoop_inked x1 y1 dx sx dy sy fuel x y e b1 (i1.1.trans hb)
    simp only [drawLoop, e1]
    by_cases hend : x0 = x1 ∧ y0 = y1
    · rw [if_pos hend]
      refine ⟨fun b2 h => ?_, by simp⟩
      cases h
      exact i1
    · rw [if_neg hend]
      exact ⟨fun b2 h => i1.trans ((ih _ _ _).1 b2 h), (ih _ _ _).2⟩

/-- The first pixel of the line loop is inked in its result. -/
theorem drawLoop_start (x1 y1 dx sx dy sy : Int) (fuel : Nat) (x0 y0 err : Int) (b b2 : Buffer)
    (hb : b.length = 784) (h : drawLoop x1 y1 dx sx dy sy fuel x0 y0 err b = .ok b2)
    (hc : 0 ≤ x0 ∧ x0 < 28 ∧ 0 ≤ y0 ∧ y0 < 28) : b2.getD (y0 * 28 + x0).toNat 0 = 127 := by
  cases fuel with
  | zero => simp [drawLoop] at h
  | succ fuel =>
    obtain ⟨b1, e1, i1, k1⟩ := brush_spec x0 y0 b hb
    simp only [drawLoop, e1] at h
    by_cases hend : x0 = x1 ∧ y0 = y1
    · rw [if_pos hend] at h
      cases h
      exact k1 hc
    · rw [if_neg hend] at h
      exact ((drawLoop_inked x1 y1 dx sx dy sy fuel _ _ _ b1 (i1.1.trans hb)).1 b2 h).keeps (k1 hc)

/-! ## The pixels stepped by the rasteriser -/

/-- The line loop is the brush applied along its trace. -/
theorem drawLoop_eq_brushAlong (x1 y1 dx sx dy sy : Int) :
    ∀ (fuel : Nat) (x0 y0 err : Int) (b : Buffer) (path : List (Int × Int)),
      drawLoopTrace x1 y1 dx sx dy sy fuel x0 y0 err = some path →
      drawLoop x1 y1 dx sx dy sy fuel x0 y0 err b = brushAlong path b
  | 0, _, _, _, _, _, h => by simp [drawLoopTrace] at h
  | fuel + 1, x0, y0, err, b, path, h => by
    unfold drawLoopTrace at h
    unfold drawLoop
    by_cases hend : x0 = x1 ∧ y0 = y1
    · rw [if_pos hend] at h
      cases h
      unfold brushAlong
      simp only [forEach, if_pos hend]
      cases brush x0 y0 b with
      | error f => rfl
      | ok b1 => rfl
    · rw [if_neg hend] at h
      simp only [Option.map_eq_some'] at h
      obtain ⟨rest, hrest, rfl⟩ := h
      unfold brushAlong
      simp only [forEach, if_neg hend]
      cases brush x0 y0 b with
      | error f => rfl
      | ok b1 =>
        simp only
        exact drawLoop_eq_brushAlong x1 y1 dx sx dy sy fuel _ _ _ b1 rest hrest

/-- The rasteriser is the brush applied along its trace. -/
theorem drawLineOnBuffer_eq_brushAlong (fuel : Nat) (x0 y0 x1 y1 : Int) (b : Buffer)
    (path : List (Int × Int)) (h : drawLineTrace fuel x0 y0 x1 y1 = some path) :
    drawLineOnBuffer fuel x0 y0 x1 y1 b = brushAlong path b :=
  drawLoop_eq_brushAlong _ _ _ _ _ _ fuel x0 y0 _ b path h

/-- The brush along any list of pixels returns on a 784-cell buffer and only writes 127. -/
theorem brushAlong_returns :
    ∀ (path : List (Int × Int)) (b : Buffer), b.length = 784 →
      ∃ b1, brushAlong path b = .ok b1 ∧ Inked b b1
  | [], b, _ => ⟨b, rfl, Inked.refl b⟩
  | q :: rest, b, hb => by
    obtain ⟨b1, e1, i1, -⟩ := brush_spec q.1 q.2 b hb
    obtain ⟨b2, e2, i2⟩ := brushAlong_returns rest b1 (i1.1.trans hb)
    refine ⟨b2, ?_, i1.trans i2⟩
    unfold brushAlong at e2 ⊢
    rw [forEach_cons_ok rest e1]
    exact e2

theorem traceOk_end (x1 y1 sx sy : Int) (a b : Int) (ha : 0 ≤ a) (hb : 0 ≤ b) :
    TraceOk x1 y1 sx sy a b x1 y1 [] := by
  refine ⟨List.Chain.nil, rfl, by simp; omega, fun p hp => ?_⟩
  rw [List.mem_singleton] at hp
  subst hp
  exact ⟨0, 0, ⟨le_rfl, ha⟩, ⟨le_rfl, hb⟩, by simp, by simp⟩

theorem traceOk_cons (x1 y1 sx sy a b a1 b1 x0 y0 xn yn : Int) (tail : List (Int × Int))
    (h : TraceOk x1 y1 sx sy a1 b1 xn yn tail) (hadj : Adjacent (x0, y0) (xn, yn))
    (ha0 : 0 ≤ a1) (ha : a1 ≤ a) (hb0 : 0 ≤ b1) (hb : b1 ≤ b) (hab : a1 + b1 + 1 ≤ a + b)
    (hx : x0 = x1 - sx * a) (hy : y0 = y1 - sy * b) :
    TraceOk x1 y1 sx sy a b x0 y0 ((xn, yn) :: tail) := by
  obtain ⟨c, l, n, m⟩ := h
  refine ⟨List.Chain.cons hadj c, by rw [List.getLast?_cons_cons]; exact l, ?_, fun p hp => ?_⟩
  · simp only [List.length_cons]
    push_cast
    omega
  · rcases List.mem_cons.mp hp with rfl | hp1
    · exact ⟨a, b, ⟨by omega, le_rfl⟩, ⟨by omega, le_rfl⟩, hx, hy⟩
    · obtain ⟨a2, b2, ⟨h1, h2⟩, ⟨h3, h4⟩, h5, h6⟩ := m p hp1
      exact ⟨a2, b2, ⟨h1, by omega⟩, ⟨h3, by omega⟩, h5, h6⟩

/-- The trace of the Bresenham loop for spans DX and DY of at most M ≤ 715827882 and
coordinates that are int values: with a steps left in x and b in y, and the error term
DX - DY + g in step with them, where g = DY*a - DX*b and 2*g stays between -M and M, the value
e2 = 2*err stays between -3*M and 3*M, so no 32-bit operation of the loop wraps around, and the
loop reaches the end point within a + b steps along 8-neighbours. -/
theorem drawLoopTrace_spec (x1 y1 DX sx DY sy : Int) (hsx : sx = 1 ∨ sx = -1)
    (hsy : sy = 1 ∨ sy = -1) (M : Int) (hDX : DX ≤ M) (hDY : DY ≤ M) (hM : M ≤ 715827882)
    (hx1 : IsInt32 x1) (hy1 : IsInt32 y1) :
    ∀ (fuel : Nat) (a b g : Int) (x0 y0 err : Int),
      0 ≤ a → a ≤ DX → 0 ≤ b → b ≤ DY → a + b < fuel →
      x0 = x1 - sx * a → y0 = y1 - sy * b → IsInt32 x0 → IsInt32 y0 →
      g = DY * a - DX * b → -M ≤ 2 * g → 2 * g ≤ M → err = DX - DY + g →
      ∃ tail, drawLoopTrace x1 y1 DX sx (-DY) sy fuel x0 y0 err = some ((x0, y0) :: tail) ∧
        TraceOk x1 y1 sx sy a b x0 y0 tail
  | 0, a, b, _, _, _, _, ha, _, hb, _, hf, _, _, _, _, _, _, _, _ => by
    exfalso; simp at hf; omega
  | fuel + 1, a, b, g, x0, y0, err, ha, haD, hb, hbD, hf, hx, hy, rx, ry, hg, hg1, hg2, herr => by
    simp only [drawLoopTrace]
    by_cases hend : x0 = x1 ∧ y0 = y1
    · rw [if_pos hend]
      obtain ⟨rfl, rfl⟩ := hend
      exact ⟨[], rfl, traceOk_end x0 y0 sx sy a b ha hb⟩
    · rw [if_neg hend]
      unfold IsInt32 at hx1 hy1 rx ry
      have hab : 0 < a ∨ 0 < b := by
        by_contra hcon
        push_neg at hcon
        have ha0 : a = 0 := by omega
        have hb0 : b = 0 := by omega
        subst ha0 hb0
        exact hend ⟨by rw [hx]; ring, by rw [hy]; ring⟩
      have hfuel : a + b < (fuel : Int) + 1 := by exact_mod_cast hf
      have w2 : wrap32 (2 * err) = 2 * err := wrap32_eq _ (by omega) (by omega)
      have wx : 1 ≤ a → wrap32 (x0 + sx) = x0 + sx ∧ IsInt32 (x0 + sx) := by
        intro ha1
        unfold IsInt32
        have : -2147483648 ≤ x0 + sx ∧ x0 + sx ≤ 2147483647 := by
          rcases hsx with h1 | h1 <;> subst h1 <;> omega
        exact ⟨wrap32_eq _ (by omega) (by omega), this⟩
      have wy : 1 ≤ b → wrap32 (y0 + sy) = y0 + sy ∧ IsInt32 (y0 + sy) := by
        intro hb1
        unfold IsInt32
        have : -2147483648 ≤ y0 + sy ∧ y0 + sy ≤ 2147483647 := by
          rcases hsy with h1 | h1 <;> subst h1 <;> omega
        exact ⟨wrap32_eq _ (by omega) (by omega), this⟩
      rw [w2]
      by_cases c1 : 2 * err ≥ -DY
      · have ha1 : 1 ≤ a := by
          by_contra hcon
          have ha0 : a = 0 := by omega
          have hb1 : 1 ≤ b := by omega
          subst ha0
          nlinarith [mul_nonneg (by omega : (0:Int) ≤ DX) (by omega : (0:Int) ≤ b - 1)]
        have w1 : wrap32 (err + -DY) = err + -DY := wrap32_eq _ (by omega) (by omega)
        by_cases c2 : 2 * err ≤ DX
        · have hb1 : 1 ≤ b := by
            by_contra hcon
            have hb0 : b = 0 := by omega
            subst hb0
            nlinarith [mul_nonneg (by omega : (0:Int) ≤ DY) (by omega : (0:Int) ≤ a - 1)]
          have w3 : wrap32 (err + -DY + DX) = err + -DY + DX := wrap32_eq _ (by omega) (by omega)
          simp only [c1, c2, if_true, w1, w3, (wx ha1).1, (wy hb1).1]
          obtain ⟨tail, e, ok⟩ := drawLoopTrace_spec x1 y1 DX sx DY sy hsx hsy M hDX hDY hM hx1 hy1 fuel
            (a - 1) (b - 1) (g - DY + DX) (x0 + sx) (y0 + sy) (err + -DY + DX)
            (by omega) (by omega) (by omega) (by omega) (by omega)
            (by rw [hx]; ring) (by rw [hy]; ring) (wx ha1).2 (wy hb1).2
            (by rw [hg]; ring) (by omega) (by omega) (by omega)
          refine ⟨(x0 + sx, y0 + sy) :: tail, by rw [e]; rfl, ?_⟩
          refine traceOk_cons x1 y1 sx sy a b (a - 1) (b - 1) x0 y0 _ _ tail ok ?_
            (by omega) (by omega) (by omega) (by omega) (by omega) hx hy
          refine ⟨fun h => ?_, ?_, ?_⟩
          · have := congrArg Prod.fst h
            simp only at this
            rcases hsx with h1 | h1 <;> omega
          · simp only [add_sub_cancel_left]
            rcases hsx with h1 | h1 <;> rw [h1] <;> simp
          · simp only [add_sub_cancel_left]
            rcases hsy with h1 | h1 <;> rw [h1] <;> simp
        · simp only [c1, c2, if_true, if_false, w1, (wx ha1).1]
          obtain ⟨tail, e, ok⟩ := drawLoopTrace_spec x1 y1 DX sx DY sy hsx hsy M hDX hDY hM hx1 hy1 fuel
            (a - 1) b (g - DY) (x0 + sx) y0 (err + -DY)
            (by omega) (by omega) (by omega) (by omega) (by omega)
            (by rw [hx]; ring) hy (wx ha1).2 ry
            (by rw [hg]; ring) (by omega) (by omega) (by omega)
          refine ⟨(x0 + sx, y0) :: tail, by rw [e]; rfl, ?_⟩
          refine traceOk_cons x1 y1 sx sy a b (a - 1) b x0 y0 _ _ tail ok ?_
            (by omega) (by omega) (by omega) (by omega) (by omega) hx hy
          refine ⟨fun h => ?_, ?_, ?_⟩
          · have := congrArg Prod.fst h
            simp only at this
            rcases hsx with h1 | h1 <;> omega
          · simp only [add_sub_cancel_left]
            rcases hsx with h1 | h1 <;> rw [h1] <;> simp
          · simp
      · have c2 : 2 * err ≤ DX := by omega
        have hb1 : 1 ≤ b := by
          by_contra hcon
          have hb0 : b = 0 := by omega
          subst hb0
          nlinarith [mul_nonneg (by omega : (0:Int) ≤ DY) (by omega : (0:Int) ≤ a - 1)]
        have w3 : wrap32 (err + DX) = err + DX := wrap32_eq _ (by omega) (by omega)
        simp only [c1, c2, if_true, if_false, w3, (wy hb1).1]
        obtain ⟨tail, e, ok⟩ := drawLoopTrace_spec x1 y1 DX sx DY sy hsx hsy M hDX hDY hM hx1 hy1 fuel
          a (b - 1) (g + DX) x0 (y0 + sy) (err + DX)
          (by omega) (by omega) (by omega) (by omega) (by omega)
          hx (by rw [hy]; ring) rx (wy hb1).2
          (by rw [hg]; ring) (by omega) (by omega) (by omega)
        refine ⟨(x0, y0 + sy) :: tail, by rw [e]; rfl, ?_⟩
        refine traceOk_cons x1 y1 sx sy a b a (b - 1) x0 y0 _ _ tail ok ?_
          (by omega) (by omega) (by omega) (by omega) (by omega) hx hy
        refine ⟨fun h => ?_, ?_, ?_⟩
        · have := congrArg Prod.snd h
          simp only at this
          rcases hsy with h1 | h1 <;> omega
        · simp
        · simp only [add_sub_cancel_left]
          rcases hsy with h1 | h1 <;> rw [h1] <;> simp

/-- With end points whose spans are at most 715827882, the set-up of drawLineOnBuffer computes
dx = |x1-x0|, dy = -|y1-y0| and err = dx + dy without wrapping around. -/
theorem drawLine_setup (x0 y0 x1 y1 : Int) (hdx : |x1 - x0| ≤ 715827882)
    (hdy : |y1 - y0| ≤ 715827882) :
    wrap32 |wrap32 (x1 - x0)| = |x1 - x0| ∧
    wrap32 (-wrap32 |wrap32 (y1 - y0)|) = -|y1 - y0| ∧
    wrap32 (|x1 - x0| + -|y1 - y0|) = |x1 - x0| + -|y1 - y0| := by
  have ax := abs_nonneg (x1 - x0)
  have ay := abs_nonneg (y1 - y0)
  have bx := abs_le.mp hdx
  have by1 := abs_le.mp hdy
  rw [wrap32_eq (x1 - x0) (by omega) (by omega), wrap32_eq (y1 - y0) (by omega) (by omega),
    wrap32_eq |x1 - x0| (by omega) (by omega), wrap32_eq |y1 - y0| (by omega) (by omega),
    wrap32_eq (-|y1 - y0|) (by omega) (by omega)]
  exact ⟨rfl, rfl, wrap32_eq _ (by omega) (by omega)⟩

/-- The pixels stepped by the rasteriser for int end points whose spans are at most
715827882, a third of the largest int: with more fuel than |x1-x0| + |y1-y0| the trace exists, starts at (x0, y0), ends at (x1, y1), moves
between 8-neighbours, has at most |x1-x0| + |y1-y0| steps and stays between the two end
points. -/
theorem drawLineTrace_spec (fuel : Nat) (x0 y0 x1 y1 : Int)
    (hx0 : IsInt32 x0) (hy0 : IsInt32 y0) (hx1 : IsInt32 x1) (hy1 : IsInt32 y1)
    (hdx : |x1 - x0| ≤ 715827882) (hdy : |y1 - y0| ≤ 715827882)
    (hf : |x1 - x0| + |y1 - y0| < fuel) :
    ∃ tail, drawLineTrace fuel x0 y0 x1 y1 = some ((x0, y0) :: tail) ∧
      List.Chain Adjacent (x0, y0) tail ∧ ((x0, y0) :: tail).getLast? = some (x1, y1) ∧
      (tail.length : Int) ≤ |x1 - x0| + |y1 - y0| ∧
      ∀ p ∈ (x0, y0) :: tail, (min x0 x1 ≤ p.1 ∧ p.1 ≤ max x0 x1) ∧
        (min y0 y1 ≤ p.2 ∧ p.2 ≤ max y0 y1) := by
  have hsx : (if x0 < x1 then (1 : Int) else -1) = 1 ∨ (if x0 < x1 then (1 : Int) else -1) = -1 := by
    split_ifs <;> simp
  have hsy : (if y0 < y1 then (1 : Int) else -1) = 1 ∨ (if y0 < y1 then (1 : Int) else -1) = -1 := by
    split_ifs <;> simp
  obtain ⟨s1, s2, s3⟩ := drawLine_setup x0 y0 x1 y1 hdx hdy
  unfold drawLineTrace
  simp only [s1, s2, s3]
  obtain ⟨tail, e, c, l, n, m⟩ := drawLoopTrace_spec x1 y1 |x1 - x0| _ |y1 - y0| _ hsx hsy
    (max |x1 - x0| |y1 - y0|) (le_max_left _ _) (le_max_right _ _) (max_le hdx hdy)
    hx1 hy1 fuel
    |x1 - x0| |y1 - y0| 0 x0 y0 (|x1 - x0| + -|y1 - y0|) (abs_nonneg _) le_rfl (abs_nonneg _)
    le_rfl hf
    (by split_ifs with h
        · rw [abs_of_pos (by omega)]; ring
        · rw [abs_of_nonpos (by omega)]; ring)
    (by split_ifs with h
        · rw [abs_of_pos (by omega)]; ring
        · rw [abs_of_nonpos (by omega)]; ring)
    hx0 hy0 (by ring)
    (by have := (abs_nonneg (x1 - x0)).trans (le_max_left _ |y1 - y0|); omega)
    (by have := (abs_nonneg (x1 - x0)).trans (le_max_left _ |y1 - y0|); omega)
    (by ring)
  refine ⟨tail, e, c, l, n, fun p hp => ?_⟩
  obtain ⟨a1, b1, ⟨h1, h2⟩, ⟨h3, h4⟩, h5, h6⟩ := m p hp
  constructor
  · by_cases h : x0 < x1
    · rw [if_pos h] at h5
      rw [abs_of_pos (by omega)] at h2
      rw [min_eq_left h.le, max_eq_right h.le]
      omega
    · rw [if_neg h] at h5
      rw [abs_of_nonpos (by omega)] at h2
      rw [min_eq_right (by omega), max_eq_left (by omega)]
      omega
  · by_cases h : y0 < y1
    · rw [if_pos h] at h6
      rw [abs_of_pos (by omega)] at h4
      rw [min_eq_left h.le, max_eq_right h.le]
      omega
    · rw [if_neg h] at h6
      rw [abs_of_nonpos (by omega)] at h4
      rw [min_eq_right (by omega), max_eq_left (by omega)]
      omega

/-- The rasteriser for int end points whose spans are at most 715827882: with more fuel than
|x1-x0| + |y1-y0| it returns a buffer, in which every cell is unchanged or 127 and the first
pixel, when on the canvas, is inked. -/
theorem drawLineOnBuffer_spec (fuel : Nat) (x0 y0 x1 y1 : Int) (b : Buffer) (hb : b.length = 784)
    (hx0 : IsInt32 x0) (hy0 : IsInt32 y0) (hx1 : IsInt32 x1) (hy1 : IsInt32 y1)
    (hdx : |x1 - x0| ≤ 715827882) (hdy : |y1 - y0| ≤ 715827882)
    (hf : |x1 - x0| + |y1 - y0| < fuel) :
    ∃ b1, drawLineOnBuffer fuel x0 y0 x1 y1 b = .ok b1 ∧ Inked b b1 ∧
      (0 ≤ x0 ∧ x0 < 28 ∧ 0 ≤ y0 ∧ y0 < 28 → b1.getD (y0 * 28 + x0).toNat 0 = 127) := by
  obtain ⟨tail, e, -⟩ := drawLineTrace_spec fuel x0 y0 x1 y1 hx0 hy0 hx1 hy1 hdx hdy hf
  obtain ⟨b1, e1, -⟩ := brushAlong_returns ((x0, y0) :: tail) b hb
  have h1 : drawLineOnBuffer fuel x0 y0 x1 y1 b = .ok b1 := by
    rw [drawLineOnBuffer_eq_brushAlong fuel x0 y0 x1 y1 b _ e]
    exact e1
  exact ⟨b1, h1, (drawLoop_inked _ _ _ _ _ _ fuel x0 y0 _ b hb).1 b1 h1,
    drawLoop_start _ _ _ _ _ _ fuel x0 y0 _ b b1 hb h1⟩

/-- Coordinates in 0..20, as preprocessImage passes them, are int values with small spans. -/
theorem small_isInt32 (c : Int) (h0 : 0 ≤ c) (h1 : c ≤ 20) : IsInt32 c := by
  unfold IsInt32
  omega

theorem small_span (c d : Int) (h0 : 0 ≤ c) (h1 : c ≤ 20) (h2 : 0 ≤ d) (h3 : d ≤ 20) :
    |d - c| ≤ 715827882 := by
  rw [abs_le]
  omega

/-- The end points (-3, 30) and (5, 2) of the sample line are int values. -/
theorem sampleLine_isInt32 : IsInt32 (-3) ∧ IsInt32 30 ∧ IsInt32 5 ∧ IsInt32 2 := by
  unfold IsInt32
  decide

/-! ## Loops over stores -/

/-- A loop over stores of one value v: the cells hit by some iteration hold v, the others keep
their content. -/
theorem forEach_mark {ι : Type} {body : Buffer → ι → Except Fault Buffer} (v : Int) (n : Nat)
    (Q : ι → Nat → Prop) :
    ∀ (l : List ι) (s : Buffer),
      (∀ s i, i ∈ l → s.length = n → ∃ s1, body s i = .ok s1 ∧ s1.length = n ∧
        ∀ j, (Q i j → s1.getD j 0 = v) ∧ (¬ Q i j → s1.getD j 0 = s.getD j 0)) →
      s.length = n →
      ∃ s1, forEach body l s = .ok s1 ∧ s1.length = n ∧
        ∀ j, ((∃ i ∈ l, Q i j) → s1.getD j 0 = v) ∧ ((¬ ∃ i ∈ l, Q i j) → s1.getD j 0 = s.getD j 0)
  | [], s, _, hs => ⟨s, rfl, hs, fun j => ⟨fun ⟨_, hi, _⟩ => by simp at hi, fun _ => rfl⟩⟩
  | i :: rest, s, hbody, hs => by
    obtain ⟨s1, e1, l1, q1⟩ := hbody s i (List.mem_cons_self _ _) hs
    obtain ⟨s2, e2, l2, q2⟩ := forEach_mark v n Q rest s1
      (fun s j hj => hbody s j (List.mem_cons_of_mem _ hj)) l1
    refine ⟨s2, by rw [forEach_cons_ok rest e1]; exact e2, l2, fun j => ⟨?_, ?_⟩⟩
    · rintro ⟨k, hk, hq⟩
      by_cases hr : ∃ i ∈ rest, Q i j
      · exact (q2 j).1 hr
      · rw [(q2 j).2 hr]
        rcases List.mem_cons.mp hk with rfl | hk1
        · exact (q1 j).1 hq
        · exact absurd ⟨k, hk1, hq⟩ hr
    · intro hno
      have hr : ¬ ∃ i ∈ rest, Q i j := fun ⟨k, hk, hq⟩ => hno ⟨k, List.mem_cons_of_mem _ hk, hq⟩
      have hi : ¬ Q i j := fun hq => hno ⟨i, List.mem_cons_self _ _, hq⟩
      rw [(q2 j).2 hr, (q1 j).2 hi]

theorem eq_replicate_of_getD {l : Buffer} {n : Nat} {v : Int} (hl : l.length = n)
    (h : ∀ j, j < n → l.getD j 0 = v) : l = List.replicate n v := by
  rw [List.eq_replicate_iff]
  refine ⟨hl, fun b hb => ?_⟩
  obtain ⟨j, hj, rfl⟩ := List.getElem_of_mem hb
  have := h j (hl ▸ hj)
  rwa [List.getD_eq_getElem _ _ hj] at this

theorem cells_eq : (IMG_WIDTH * IMG_HEIGHT).toNat = 784 := by decide

/-- The fill loop of main.cpp 247-248 turns any 784-cell buffer into the all-background image. -/
theorem fillBackground_eq (b : Buffer) (hb : b.length = 784) : fillBackground b = .ok background := by
  unfold fillBackground background
  rw [cells_eq]
  obtain ⟨s1, e1, l1, q1⟩ := @forEach_mark Nat (fun b (i : Nat) => writeCell b i (-128)) (-128) 784
    (fun i j => i = j) (List.range 784) b
    (fun s i hi hs => by
      have hi : i < 784 := List.mem_range.mp hi
      refine ⟨_, writeCell_ok (-128) (by omega) (by rw [hs]; exact_mod_cast hi),
        by rw [List.length_set]; exact hs, fun j => ?_⟩
      simp only [Int.toNat_ofNat, getD_set, hs, hi, and_true]
      constructor
      · intro h; rw [if_pos h]
      · intro h; rw [if_neg h]) hb
  rw [e1]
  exact congrArg Except.ok
    (eq_replicate_of_getD l1 fun j hj => (q1 j).1 ⟨j, List.mem_range.mpr hj, rfl⟩)

theorem background_length : background.length = 784 := by
  unfold background
  rw [cells_eq, List.length_replicate]

theorem background_getD (j : Nat) (hj : j < 784) : background.getD j 0 = -128 := by
  unfold background
  rw [cells_eq, List.getD_eq_getElem?_getD, List.getElem?_replicate, if_pos hj]
  rfl

/-! ## Bounding box -/

theorem boundingBox_eq (st : State) :
    boundingBox st = (stroke st).foldl growBox ⟨32767, 32767, -1, -1⟩ := by
  simp only [boundingBox, stroke, List.foldl_map]

theorem foldl_growBox_bounds (l : List Point) :
    ∀ b : BBox, ((l.foldl growBox b).minX ≤ b.minX ∧ b.maxX ≤ (l.foldl growBox b).maxX ∧
      (l.foldl growBox b).minY ≤ b.minY ∧ b.maxY ≤ (l.foldl growBox b).maxY) ∧
      ∀ p ∈ l, (l.foldl growBox b).minX ≤ p.x ∧ p.x ≤ (l.foldl growBox b).maxX ∧
        (l.foldl growBox b).minY ≤ p.y ∧ p.y ≤ (l.foldl growBox b).maxY := by
  induction l with
  | nil => intro b; simp
  | cons q rest ih =>
    intro b
    obtain ⟨h1, h2⟩ := ih (growBox b q)
    simp only [List.foldl_cons]
    have e1 : (growBox b q).minX = min b.minX q.x := rfl
    have e2 : (growBox b q).maxX = max b.maxX q.x := rfl
    have e3 : (growBox b q).minY = min b.minY q.y := rfl
    have e4 : (growBox b q).maxY = max b.maxY q.y := rfl
    rw [e1, e2, e3, e4] at h1
    have m1 := min_le_left b.minX q.x
    have m2 := min_le_right b.minX q.x
    have m3 := le_max_left b.maxX q.x
    have m4 := le_max_right b.maxX q.x
    have m5 := min_le_left b.minY q.y
    have m6 := min_le_right b.minY q.y
    have m7 := le_max_left b.maxY q.y
    have m8 := le_max_right b.maxY q.y
    refine ⟨⟨by omega, by omega, by omega, by omega⟩, fun p hp => ?_⟩
    rcases List.mem_cons.mp hp with rfl | hp1
    · refine ⟨by omega, by omega, by omega, by omega⟩
    · exact h2 p hp1

theorem foldl_growBox_attained (l : List Point) :
    ∀ b : BBox, ((l.foldl growBox b).minX = b.minX ∨ ∃ p ∈ l, (l.foldl growBox b).minX = p.x) ∧
      ((l.foldl growBox b).maxX = b.maxX ∨ ∃ p ∈ l, (l.foldl growBox b).maxX = p.x) ∧
      ((l.foldl growBox b).minY = b.minY ∨ ∃ p ∈ l, (l.foldl growBox b).minY = p.y) ∧
      ((l.foldl growBox b).maxY = b.maxY ∨ ∃ p ∈ l, (l.foldl growBox b).maxY = p.y) := by
  induction l with
  | nil => intro b; simp
  | cons q rest ih =>
    intro b
    obtain ⟨h1, h2, h3, h4⟩ := ih (growBox b q)
    simp only [List.foldl_cons, List.mem_cons, exists_eq_or_imp]
    have e1 : (growBox b q).minX = min b.minX q.x := rfl
    have e2 : (growBox b q).maxX = max b.maxX q.x := rfl
    have e3 : (growBox b q).minY = min b.minY q.y := rfl
    have e4 : (growBox b q).maxY = max b.maxY q.y := rfl
    rw [e1] at h1
    rw [e2] at h2
    rw [e3] at h3
    rw [e4] at h4
    refine ⟨?_, ?_, ?_, ?_⟩
    · rcases h1 with h | ⟨p, hp, h⟩
      · rw [h]; rcases min_choice b.minX q.x with h' | h' <;> simp [h']
      · exact Or.inr (Or.inr ⟨p, hp, h⟩)
    · rcases h2 with h | ⟨p, hp, h⟩
      · rw [h]; rcases max_choice b.maxX q.x with h' | h' <;> simp [h']
      · exact Or.inr (Or.inr ⟨p, hp, h⟩)
    · rcases h3 with h | ⟨p, hp, h⟩
      · rw [h]; rcases min_choice b.minY q.y with h' | h' <;> simp [h']
      · exact Or.inr (Or.inr ⟨p, hp, h⟩)
    · rcases h4 with h | ⟨p, hp, h⟩
      · rw [h]; rcases max_choice b.maxY q.y with h' | h' <;> simp [h']
      · exact Or.inr (Or.inr ⟨p, hp, h⟩)

/-- Every point of the stroke lies inside the computed bounding box. -/
theorem boundingBox_contains (st : State) (p : Point) (hp : p ∈ stroke st) :
    (boundingBox st).minX ≤ p.x ∧ p.x ≤ (boundingBox st).maxX ∧
      (boundingBox st).minY ≤ p.y ∧ p.y ≤ (boundingBox st).maxY := by
  rw [boundingBox_eq]
  exact (foldl_growBox_bounds (stroke st) _).2 p hp

theorem pointAt_mem_stroke (st : State) (i : Nat) (hi : i < st.point_count.toNat) :
    pointAt st i ∈ stroke st := by
  simp only [stroke, List.mem_map, List.mem_range]
  exact ⟨i, hi, rfl⟩

/-- A stroke with two different x and two different y passes the degenerate-box test. -/
theorem boundingBox_positive (st : State) (h : PositiveBox st) :
    (boundingBox st).minX < (boundingBox st).maxX ∧ (boundingBox st).minY < (boundingBox st).maxY := by
  obtain ⟨⟨p, hp, q, hq, hx⟩, ⟨p1, hp1, q1, hq1, hy⟩⟩ := h
  have a := boundingBox_contains st p hp
  have b := boundingBox_contains st q hq
  have c := boundingBox_contains st p1 hp1
  have d := boundingBox_contains st q1 hq1
  constructor <;> omega

/-! ## The remapped coordinates -/

theorem f32_intCast_of_nonneg (n : Int) (h0 : 0 ≤ n) (hn : n < 2 ^ 24) : f32 (n : ℚ) = n := by
  obtain ⟨k, rfl⟩ := Int.eq_ofNat_of_zero_le h0
  have hk : k < 2 ^ 24 := by exact_mod_cast hn
  simpa using f32_natCast k hk

theorem floatToInt_bounds {q : ℚ} {k : Int} (h0 : 0 ≤ q) (h1 : q < (k : ℚ) + 1) :
    0 ≤ floatToInt q ∧ floatToInt q ≤ k := by
  unfold floatToInt
  rw [if_pos h0]
  refine ⟨Int.floor_nonneg.mpr h0, ?_⟩
  have : ⌊q⌋ < k + 1 := Int.floor_lt.mpr (by push_cast; exact h1)
  omega

/-- A coordinate at distance d from the box minimum, 0 ≤ d ≤ W, is remapped into 0..20 by any
scale that does not exceed the float quotient 20 / W. -/
theorem remap_bounds (s : ℚ) (W lo c : Int) (hW : 0 < W) (hs0 : 0 ≤ s)
    (hs : s ≤ f32 (f32 ((20 : Int) : ℚ) / f32 (W : ℚ))) (hd0 : 0 ≤ c - lo) (hd : c - lo ≤ W) :
    0 ≤ remap s lo c ∧ remap s lo c ≤ 20 := by
  have hWq : (0 : ℚ) < (W : ℚ) := by exact_mod_cast hW
  have hdq0 : (0 : ℚ) ≤ ((c - lo : Int) : ℚ) := by exact_mod_cast hd0
  have hdq : ((c - lo : Int) : ℚ) ≤ (W : ℚ) := by exact_mod_cast hd
  have h20 : f32 ((20 : Int) : ℚ) = 20 := by
    have := f32_intCast_of_nonneg 20 (by norm_num) (by norm_num)
    simpa using this
  rw [h20] at hs
  -- the float value of W
  have hA1 := mul_le_f32 hWq.le
  have hApos : (0 : ℚ) < f32 (W : ℚ) := by
    have : (0 : ℚ) < (W : ℚ) * (1 - 1 / 2 ^ 24) := mul_pos hWq (by norm_num)
    linarith
  -- the quotient
  have hq0 : (0 : ℚ) ≤ 20 / f32 (W : ℚ) := div_nonneg (by norm_num) hApos.le
  have hq1 := f32_le_mul hq0
  have hsA : s * f32 (W : ℚ) ≤ 20 * (1 + 1 / 2 ^ 24) := by
    have h1 : s * f32 (W : ℚ) ≤ 20 / f32 (W : ℚ) * (1 + 1 / 2 ^ 24) * f32 (W : ℚ) :=
      mul_le_mul_of_nonneg_right (le_trans hs hq1) hApos.le
    have h2 : 20 / f32 (W : ℚ) * (1 + 1 / 2 ^ 24) * f32 (W : ℚ) = 20 * (1 + 1 / 2 ^ 24) := by
      field_simp
      ring
    linarith
  have hWs : (W : ℚ) * s ≤ 20001 / 1000 := by
    have h1 : (W : ℚ) * (1 - 1 / 2 ^ 24) * s ≤ f32 (W : ℚ) * s := mul_le_mul_of_nonneg_right hA1 hs0
    have h2 : (0 : ℚ) ≤ (W : ℚ) * s := mul_nonneg hWq.le hs0
    nlinarith
  -- the float value of the distance
  have hfd0 := f32_nonneg hdq0
  have hfd1 := f32_le_mul hdq0
  -- the product
  have hp0 : (0 : ℚ) ≤ f32 ((c - lo : Int) : ℚ) * s := mul_nonneg hfd0 hs0
  have hp1 : f32 ((c - lo : Int) : ℚ) * s ≤ 20002 / 1000 := by
    have h1 : f32 ((c - lo : Int) : ℚ) * s ≤ ((c - lo : Int) : ℚ) * (1 + 1 / 2 ^ 24) * s :=
      mul_le_mul_of_nonneg_right hfd1 hs0
    have h2 : ((c - lo : Int) : ℚ) * s ≤ (W : ℚ) * s := mul_le_mul_of_nonneg_right hdq hs0
    have h3 : (0 : ℚ) ≤ ((c - lo : Int) : ℚ) * s := mul_nonneg hdq0 hs0
    nlinarith
  have hr0 := f32_nonneg hp0
  have hr1 := f32_le_mul hp0
  have hr2 : f32 (f32 ((c - lo : Int) : ℚ) * s) < ((20 : Int) : ℚ) + 1 := by
    have h21 : ((20 : Int) : ℚ) + 1 = 21 := by norm_num
    rw [h21]
    nlinarith
  exact floatToInt_bounds hr0 hr2

theorem scaleOf_nonneg (b : BBox) (hx : b.minX < b.maxX) (hy : b.minY < b.maxY) :
    0 ≤ scaleOf b := by
  unfold scaleOf
  have hW : (0 : ℚ) ≤ ((b.maxX - b.minX : Int) : ℚ) := by exact_mod_cast (by omega : 0 ≤ b.maxX - b.minX)
  have hH : (0 : ℚ) ≤ ((b.maxY - b.minY : Int) : ℚ) := by exact_mod_cast (by omega : 0 ≤ b.maxY - b.minY)
  have h20 : (0 : ℚ) ≤ ((IMG_WIDTH - 8 : Int) : ℚ) := by simp
  have h20' : (0 : ℚ) ≤ ((IMG_HEIGHT - 8 : Int) : ℚ) := by simp
  exact le_min (f32_nonneg (div_nonneg (f32_nonneg h20) (f32_nonneg hW)))
    (f32_nonneg (div_nonneg (f32_nonneg h20') (f32_nonneg hH)))

/-- Inside a box of positive width and height every coordinate is remapped into 0..20. -/
theorem remap_in_canvas (b : BBox) (p : Point) (hx : b.minX < b.maxX) (hy : b.minY < b.maxY)
    (hp : b.minX ≤ p.x ∧ p.x ≤ b.maxX ∧ b.minY ≤ p.y ∧ p.y ≤ b.maxY) :
    (0 ≤ remap (scaleOf b) b.minX p.x ∧ remap (scaleOf b) b.minX p.x ≤ 20) ∧
      (0 ≤ remap (scaleOf b) b.minY p.y ∧ remap (scaleOf b) b.minY p.y ≤ 20) := by
  have h0 := scaleOf_nonneg b hx hy
  constructor
  · exact remap_bounds _ (b.maxX - b.minX) _ _ (by omega) h0 (min_le_left _ _) (by omega) (by omega)
  · exact remap_bounds _ (b.maxY - b.minY) _ _ (by omega) h0 (min_le_right _ _) (by omega) (by omega)

/-! ## The scratch buffer -/

theorem mem_range_one {n i : Nat} (hi : i ∈ List.range' 1 (n - 1)) : 1 ≤ i ∧ i < n := by
  rw [List.mem_range'_1] at hi
  omega

theorem TwoValued.of_inked {a b : Buffer} (ha : TwoValued a) (h : Inked a b) : TwoValued b := by
  refine ⟨h.1.trans ha.1, fun j hj => ?_⟩
  rcases h.2 j with h1 | h1
  · rw [h1]; exact ha.2 j hj
  · exact Or.inr h1

theorem twoValued_background : TwoValued background :=
  ⟨background_length, fun j hj => Or.inl (background_getD j hj)⟩

/-- One segment of a stroke with a positive box: the rasteriser call returns with fuel 41. -/
theorem drawSegment_spec (fuel : Nat) (hf : 41 ≤ fuel) (st : State)
    (hx : (boundingBox st).minX < (boundingBox st).maxX)
    (hy : (boundingBox st).minY < (boundingBox st).maxY)
    (i : Nat) (hi : 1 ≤ i ∧ i < st.point_count.toNat) (t : Buffer) (ht : t.length = 784) :
    ∃ t1, drawSegment fuel st (boundingBox st) (scaleOf (boundingBox st)) t i = .ok t1 ∧
      Inked t t1 ∧
      t1.getD (remap (scaleOf (boundingBox st)) (boundingBox st).minY (pointAt st (i - 1)).y * 28 +
        remap (scaleOf (boundingBox st)) (boundingBox st).minX (pointAt st (i - 1)).x).toNat 0 = 127 := by
  have m0 := boundingBox_contains st _ (pointAt_mem_stroke st (i - 1) (by omega))
  have m1 := boundingBox_contains st _ (pointAt_mem_stroke st i hi.2)
  obtain ⟨⟨a0, a1⟩, ⟨a2, a3⟩⟩ := remap_in_canvas (boundingBox st) _ hx hy m0
  obtain ⟨⟨c0, c1⟩, ⟨c2, c3⟩⟩ := remap_in_canvas (boundingBox st) _ hx hy m1
  unfold drawSegment
  obtain ⟨t1, e1, i1, k1⟩ := drawLineOnBuffer_spec fuel
    (remap (scaleOf (boundingBox st)) (boundingBox st).minX (pointAt st (i - 1)).x)
    (remap (scaleOf (boundingBox st)) (boundingBox st).minY (pointAt st (i - 1)).y)
    (remap (scaleOf (boundingBox st)) (boundingBox st).minX (pointAt st i).x)
    (remap (scaleOf (boundingBox st)) (boundingBox st).minY (pointAt st i).y) t ht
    (small_isInt32 _ a0 a1) (small_isInt32 _ a2 a3)
    (small_isInt32 _ c0 c1) (small_isInt32 _ c2 c3) (small_span _ _ a0 a1 c0 c1)
    (small_span _ _ a2 a3 c2 c3) (by
    have h1 : |remap (scaleOf (boundingBox st)) (boundingBox st).minX (pointAt st i).x -
        remap (scaleOf (boundingBox st)) (boundingBox st).minX (pointAt st (i - 1)).x| ≤ 20 := by
      rw [abs_le]; constructor <;> omega
    have h2 : |remap (scaleOf (boundingBox st)) (boundingBox st).minY (pointAt st i).y -
        remap (scaleOf (boundingBox st)) (boundingBox st).minY (pointAt st (i - 1)).y| ≤ 20 := by
      rw [abs_le]; constructor <;> omega
    have : (41 : Int) ≤ fuel := by exact_mod_cast hf
    linarith)
  exact ⟨t1, e1, i1, k1 ⟨a0, by omega, a2, by omega⟩⟩

/-- The scratch buffer of a stroke of at least two points with a positive box: the segment loop
returns with fuel 41, the buffer is two-valued and holds ink. -/
theorem rasterize_spec (fuel : Nat) (hf : 41 ≤ fuel) (st : State) (hn : 2 ≤ st.point_count)
    (hx : (boundingBox st).minX < (boundingBox st).maxX)
    (hy : (boundingBox st).minY < (boundingBox st).maxY) :
    ∃ t, rasterize fuel st = .ok t ∧ TwoValued t ∧ HasInk t := by
  unfold rasterize
  have hlist : List.range' 1 (st.point_count.toNat - 1) = 1 :: List.range' 2 (st.point_count.toNat - 2) := by
    have : st.point_count.toNat - 1 = (st.point_count.toNat - 2) + 1 := by omega
    rw [this, List.range'_succ]
  have hmem : ∀ i, i ∈ List.range' 2 (st.point_count.toNat - 2) → 1 ≤ i ∧ i < st.point_count.toNat := by
    intro i hi
    rw [List.mem_range'_1] at hi
    omega
  rw [hlist]
  obtain ⟨t1, e1, i1, k1⟩ := drawSegment_spec fuel hf st hx hy 1 (by omega) background background_length
  rw [forEach_cons_ok _ e1]
  obtain ⟨t2, e2, i2⟩ := forEach_total (fun t => Inked t1 t) (List.range' 2 (st.point_count.toNat - 2)) t1
    (fun s i hi hs => by
      obtain ⟨s1, e, h, -⟩ := drawSegment_spec fuel hf st hx hy i (hmem i hi) s
        (hs.1.trans (i1.1.trans background_length))
      exact ⟨s1, e, hs.trans h⟩) (Inked.refl t1)
  refine ⟨t2, e2, twoValued_background.of_inked (i1.trans i2), ?_⟩
  have m0 := boundingBox_contains st _ (pointAt_mem_stroke st (1 - 1) (by omega))
  obtain ⟨⟨a0, a1⟩, ⟨a2, a3⟩⟩ := remap_in_canvas (boundingBox st) _ hx hy m0
  refine ⟨(remap (scaleOf (boundingBox st)) (boundingBox st).minX (pointAt st (1 - 1)).x).toNat,
    (remap (scaleOf (boundingBox st)) (boundingBox st).minY (pointAt st (1 - 1)).y).toNat,
    by omega, by omega, ?_⟩
  have := i2.keeps k1
  convert this using 2
  omega

/-! ## The centering pass -/

theorem shiftCell_spec (temp image : Buffer) (shX shY : Int) (y x : Nat) (hI : image.length = 784) :
    ∃ s1, shiftCell temp shX shY y image x = .ok s1 ∧ s1.length = 784 ∧
      ∀ j, (ShiftSource temp shX shY y x j → s1.getD j 0 = 127) ∧
        (¬ ShiftSource temp shX shY y x j → s1.getD j 0 = image.getD j 0) := by
  unfold shiftCell ShiftSource
  by_cases h1 : readCell temp (y * IMG_WIDTH + x) > -128
  · by_cases h2 : x + shX ≥ 0 ∧ x + shX < IMG_WIDTH ∧ y + shY ≥ 0 ∧ y + shY < IMG_HEIGHT
    · simp only [h1, h2, if_true, true_and, and_self]
      simp only [IMG_WIDTH_eq, IMG_HEIGHT_eq] at h2 ⊢
      have h0 : 0 ≤ (y + shY) * 28 + (x + shX) := by omega
      have h3 : (y + shY) * 28 + (x + shX) < (image.length : Int) := by rw [hI]; omega
      refine ⟨_, writeCell_ok 127 h0 h3, by rw [List.length_set]; exact hI, fun j => ?_⟩
      rw [getD_set]
      have h4 : ((y + shY) * 28 + (x + shX)).toNat < image.length := by omega
      constructor
      · intro h; rw [if_pos ⟨h, h4⟩]
      · intro h; rw [if_neg (fun hc => h hc.1)]
    · simp only [h1, h2, if_true, if_false, true_and, false_and]
      exact ⟨image, rfl, hI, fun j => ⟨fun h => absurd h (by simp), fun _ => rfl⟩⟩
  · simp only [h1, if_false, false_and]
    exact ⟨image, rfl, hI, fun j => ⟨fun h => absurd h (by simp), fun _ => rfl⟩⟩

/-- The copy loop: it returns, an output cell holds 127 when some scratch ink cell is shifted
onto it, and keeps its content otherwise. -/
theorem shiftInk_spec (temp image : Buffer) (shX shY : Int) (hI : image.length = 784) :
    ∃ out, shiftInk temp shX shY image = .ok out ∧ out.length = 784 ∧
      ∀ j, ((∃ y ∈ List.range 28, ∃ x ∈ List.range 28, ShiftSource temp shX shY y x j) →
          out.getD j 0 = 127) ∧
        ((¬ ∃ y ∈ List.range 28, ∃ x ∈ List.range 28, ShiftSource temp shX shY y x j) →
          out.getD j 0 = image.getD j 0) := by
  unfold shiftInk
  have h28 : IMG_WIDTH.toNat = 28 := by decide
  have h28' : IMG_HEIGHT.toNat = 28 := by decide
  rw [h28, h28']
  exact forEach_mark 127 784 (fun y j => ∃ x ∈ List.range 28, ShiftSource temp shX shY y x j)
    (List.range 28) image
    (fun s y _ hs => forEach_mark 127 784 (fun x j => ShiftSource temp shX shY y x j)
      (List.range 28) s (fun s1 x _ hs1 => shiftCell_spec temp s1 shX shY y x hs1) hs) hI

theorem shiftInk_inked (temp image : Buffer) (shX shY : Int) (hI : image.length = 784) :
    ∃ out, shiftInk temp shX shY image = .ok out ∧ Inked image out := by
  obtain ⟨out, e, l, q⟩ := shiftInk_spec temp image shX shY hI
  refine ⟨out, e, l.trans hI.symm, fun j => ?_⟩
  by_cases h : ∃ y ∈ List.range 28, ∃ x ∈ List.range 28, ShiftSource temp shX shY y x j
  · exact Or.inr ((q j).1 h)
  · exact Or.inl ((q j).2 h)

theorem centerImage_inked (temp image : Buffer) (hI : image.length = 784) :
    ∃ out, centerImage temp image = .ok out ∧ Inked image out := by
  unfold centerImage
  split_ifs
  · exact ⟨image, rfl, Inked.refl image⟩
  · exact shiftInk_inked temp image _ _ hI

/-! ## preprocessImage -/

theorem stroke_length (st : State) : (stroke st).length = st.point_count.toNat := by
  simp [stroke]

theorem stroke_ne_nil (st : State) (hn : 2 ≤ st.point_count) : ∃ p, p ∈ stroke st :=
  ⟨pointAt st 0, pointAt_mem_stroke st 0 (by omega)⟩

/-- Past the two early returns the box has positive width and height. -/
theorem boundingBox_lt_of_ne (st : State) (hn : 2 ≤ st.point_count)
    (h : ¬ ((boundingBox st).maxX = (boundingBox st).minX ∨
      (boundingBox st).maxY = (boundingBox st).minY)) :
    (boundingBox st).minX < (boundingBox st).maxX ∧ (boundingBox st).minY < (boundingBox st).maxY := by
  obtain ⟨p, hp⟩ := stroke_ne_nil st hn
  have := boundingBox_contains st p hp
  push_neg at h
  constructor <;> omega

/-- The function preprocessImage returns with fuel 41, and its image is two-valued. -/
theorem preprocessImage_spec (fuel : Nat) (hf : 41 ≤ fuel) (st : State)
    (hlen : st.image_buffer.length = 784) :
    ∃ image, preprocessImage fuel st = .ok { st with image_buffer := image } ∧ TwoValued image := by
  unfold preprocessImage
  rw [fillBackground_eq _ hlen]
  simp only
  by_cases h2 : st.point_count < 2
  · rw [if_pos h2]; exact ⟨background, rfl, twoValued_background⟩
  · rw [if_neg h2]
    by_cases hd : (boundingBox st).maxX = (boundingBox st).minX ∨
        (boundingBox st).maxY = (boundingBox st).minY
    · rw [if_pos hd]; exact ⟨background, rfl, twoValued_background⟩
    · rw [if_neg hd]
      obtain ⟨hx, hy⟩ := boundingBox_lt_of_ne st (by omega) hd
      obtain ⟨t, e, -, -⟩ := rasterize_spec fuel hf st (by omega) hx hy
      obtain ⟨out, e1, i1⟩ := centerImage_inked t background background_length
      simp only [e, e1]
      exact ⟨out, rfl, twoValued_background.of_inked i1⟩

theorem preprocessImage_of_few (fuel : Nat) (st : State) (hlen : st.image_buffer.length = 784)
    (h : st.point_count < 2) :
    preprocessImage fuel st = .ok { st with image_buffer := background } := by
  unfold preprocessImage
  rw [fillBackground_eq _ hlen]
  simp only [h, if_true]

theorem preprocessImage_of_degenerate (fuel : Nat) (st : State) (hlen : st.image_buffer.length = 784)
    (h : (boundingBox st).maxX = (boundingBox st).minX ∨
      (boundingBox st).maxY = (boundingBox st).minY) :
    preprocessImage fuel st = .ok { st with image_buffer := background } := by
  unfold preprocessImage
  rw [fillBackground_eq _ hlen]
  simp only [h, if_true, ite_self]

theorem drawLineOnBuffer_zero (x0 y0 x1 y1 : Int) (b : Buffer) :
    drawLineOnBuffer 0 x0 y0 x1 y1 b = .error .outOfFuel := rfl

/-- All x equal to one value of -1..32767: the computed box has zero width (maxX starts at -1,
minX at 32767, so the value is attained by both). -/
theorem boundingBox_minX_eq_maxX (st : State) (hn : 2 ≤ st.point_count) (c : Int)
    (hc : -1 ≤ c ∧ c ≤ 32767) (h : ∀ p ∈ stroke st, p.x = c) :
    (boundingBox st).maxX = (boundingBox st).minX := by
  obtain ⟨p, hp⟩ := stroke_ne_nil st hn
  have hb := boundingBox_contains st p hp
  rw [h p hp] at hb
  have ha := foldl_growBox_attained (stroke st) ⟨32767, 32767, -1, -1⟩
  rw [← boundingBox_eq] at ha
  obtain ⟨a1, a2, -, -⟩ := ha
  have e1 : (boundingBox st).minX = c := by
    rcases a1 with h1 | ⟨q, hq, h1⟩
    · simp only at h1; omega
    · rw [h1, h q hq]
  have e2 : (boundingBox st).maxX = c := by
    rcases a2 with h1 | ⟨q, hq, h1⟩
    · simp only at h1; omega
    · rw [h1, h q hq]
  rw [e1, e2]

/-- All y equal to one value of -1..32767: the computed box has zero height. -/
theorem boundingBox_minY_eq_maxY (st : State) (hn : 2 ≤ st.point_count) (c : Int)
    (hc : -1 ≤ c ∧ c ≤ 32767) (h : ∀ p ∈ stroke st, p.y = c) :
    (boundingBox st).maxY = (boundingBox st).minY := by
  obtain ⟨p, hp⟩ := stroke_ne_nil st hn
  have hb := boundingBox_contains st p hp
  rw [h p hp] at hb
  have ha := foldl_growBox_attained (stroke st) ⟨32767, 32767, -1, -1⟩
  rw [← boundingBox_eq] at ha
  obtain ⟨-, -, a1, a2⟩ := ha
  have e1 : (boundingBox st).minY = c := by
    rcases a1 with h1 | ⟨q, hq, h1⟩
    · simp only at h1; omega
    · rw [h1, h q hq]
  have e2 : (boundingBox st).maxY = c := by
    rcases a2 with h1 | ⟨q, hq, h1⟩
    · simp only at h1; omega
    · rw [h1, h q hq]
  rw [e1, e2]

/-! ## Claims on preprocessImage and drawLineOnBuffer -/

/-- C2: for every state whose image_buffer has its 784 cells, whatever the point count, the
captured points and the previous image, preprocessImage returns (fuel 41 is enough for every
rasteriser call) and afterwards image_buffer has 784 cells, each equal to -128 or to 127. -/
theorem preprocessImage_two_valued (fuel : Nat) (st : State) (hf : 41 ≤ fuel)
    (hlen : st.image_buffer.length = 784) :
    ∃ image, preprocessImage fuel st = .ok { st with image_buffer := image } ∧
      image.length = 784 ∧ ∀ j, j < 784 → image.getD j 0 = -128 ∨ image.getD j 0 = 127 :=
  preprocessImage_spec fuel hf st hlen

theorem preprocessImage_two_valued_witness :
    (41 ≤ 41 ∧ strokeL.image_buffer.length = 784) ∧
    ∃ image, preprocessImage 41 strokeL = .ok { strokeL with image_buffer := image } ∧
      image.length = 784 ∧ ∀ j, j < 784 → image.getD j 0 = -128 ∨ image.getD j 0 = 127 :=
  ⟨⟨by decide, List.length_replicate 784 (0 : Int)⟩,
    preprocessImage_two_valued 41 strokeL (by decide) (List.length_replicate 784 (0 : Int))⟩

/-- C3: with fewer than 2 captured points preprocessImage leaves all 784 cells of image_buffer
at -128, whatever the previous image; it does so for every fuel, also with fuel 0, with which
any call of drawLineOnBuffer faults, so the rasteriser is not invoked. -/
theorem preprocessImage_few_points (st : State) (hlen : st.image_buffer.length = 784)
    (h : st.point_count < 2) :
    (∀ fuel, preprocessImage fuel st = .ok { st with image_buffer := background }) ∧
      (background.length = 784 ∧ ∀ j, j < 784 → background.getD j 0 = -128) ∧
      ∀ x0 y0 x1 y1 b, drawLineOnBuffer 0 x0 y0 x1 y1 b = .error .outOfFuel :=
  ⟨fun fuel => preprocessImage_of_few fuel st hlen h, ⟨background_length, background_getD⟩,
    drawLineOnBuffer_zero⟩

theorem preprocessImage_few_points_witness :
    (strokeDot.image_buffer.length = 784 ∧ strokeDot.point_count < 2) ∧
    ((∀ fuel, preprocessImage fuel strokeDot = .ok { strokeDot with image_buffer := background }) ∧
      (background.length = 784 ∧ ∀ j, j < 784 → background.getD j 0 = -128) ∧
      ∀ x0 y0 x1 y1 b, drawLineOnBuffer 0 x0 y0 x1 y1 b = .error .outOfFuel) :=
  ⟨⟨List.length_replicate 784 (0 : Int), by decide⟩,
    preprocessImage_few_points strokeDot (List.length_replicate 784 (0 : Int)) (by decide)⟩

/-- C4: for a stroke of at least 2 captured points, when the bounding box that preprocessImage
computes has zero width or zero height (maxX == minX or maxY == minY), all 784 cells of
image_buffer are left at -128; and the computed box has zero width when all points share one x,
zero height when all points share one y, for a shared value in -1..32767 (touch coordinates
are not negative; the capture loop stores 11..229 only). -/
theorem preprocessImage_degenerate_box (fuel : Nat) (st : State)
    (hlen : st.image_buffer.length = 784) (hn : 2 ≤ st.point_count) :
    (((boundingBox st).maxX = (boundingBox st).minX ∨
        (boundingBox st).maxY = (boundingBox st).minY) →
      preprocessImage fuel st = .ok { st with image_buffer := background }) ∧
    (((∃ c, (-1 ≤ c ∧ c ≤ 32767) ∧ ∀ p ∈ stroke st, p.x = c) ∨
        (∃ c, (-1 ≤ c ∧ c ≤ 32767) ∧ ∀ p ∈ stroke st, p.y = c)) →
      ((boundingBox st).maxX = (boundingBox st).minX ∨
        (boundingBox st).maxY = (boundingBox st).minY)) ∧
    (background.length = 784 ∧ ∀ j, j < 784 → background.getD j 0 = -128) := by
  refine ⟨preprocessImage_of_degenerate fuel st hlen, ?_, background_length, background_getD⟩
  rintro (⟨c, hc, h⟩ | ⟨c, hc, h⟩)
  · exact Or.inl (boundingBox_minX_eq_maxX st hn c hc h)
  · exact Or.inr (boundingBox_minY_eq_maxY st hn c hc h)

theorem preprocessImage_degenerate_box_witness :
    (strokeVertical.image_buffer.length = 784 ∧ 2 ≤ strokeVertical.point_count ∧
      ∀ p ∈ stroke strokeVertical, p.x = 10) ∧
    preprocessImage 41 strokeVertical = .ok { strokeVertical with image_buffer := background } :=
  ⟨⟨List.length_replicate 784 (0 : Int), by decide, by decide⟩,
    (preprocessImage_degenerate_box 41 strokeVertical (List.length_replicate 784 (0 : Int))
      (by decide)).1
      ((preprocessImage_degenerate_box 41 strokeVertical (List.length_replicate 784 (0 : Int))
        (by decide)).2.1 (Or.inl ⟨10, by decide, by decide⟩))⟩

/-- C9: for all integer end points and every 784-cell buffer, drawLineOnBuffer never stores
outside the buffer, however many iterations it is given; whenever it returns, the result is a
784-cell buffer in which every cell is unchanged or holds 127, a changed cell having an index
py*28+px with 0 ≤ px < 28 and 0 ≤ py < 28.  For int end points whose spans |x1-x0| and |y1-y0|
are at most 715827882, a third of the largest int, it does return, given room for more than
|x1-x0| + |y1-y0| iterations. -/
theorem drawLineOnBuffer_safe (x0 y0 x1 y1 : Int) (buffer : Buffer) (hlen : buffer.length = 784) :
    (∀ fuel, drawLineOnBuffer fuel x0 y0 x1 y1 buffer ≠ .error .outOfBounds) ∧
    (∀ fuel b1, drawLineOnBuffer fuel x0 y0 x1 y1 buffer = .ok b1 →
      b1.length = 784 ∧
        ∀ i : Nat, b1.getD i 0 = buffer.getD i 0 ∨
          (b1.getD i 0 = 127 ∧
            ∃ px py : Int, (0 ≤ px ∧ px < 28) ∧ (0 ≤ py ∧ py < 28) ∧ (i : Int) = py * 28 + px)) ∧
    (IsInt32 x0 ∧ IsInt32 y0 ∧ IsInt32 x1 ∧ IsInt32 y1 →
      |x1 - x0| ≤ 715827882 ∧ |y1 - y0| ≤ 715827882 →
      ∀ fuel : Nat, |x1 - x0| + |y1 - y0| < fuel →
        ∃ b1, drawLineOnBuffer fuel x0 y0 x1 y1 buffer = .ok b1) := by
  refine ⟨fun fuel => ?_, fun fuel b1 e => ?_, fun hr hs fuel hf => ?_⟩
  · exact (drawLoop_inked _ _ _ _ _ _ fuel x0 y0 _ buffer hlen).2
  · have i1 : Inked buffer b1 := (drawLoop_inked _ _ _ _ _ _ fuel x0 y0 _ buffer hlen).1 b1 e
    refine ⟨i1.1.trans hlen, fun i => ?_⟩
    by_cases hi : i < 784
    · rcases i1.2 i with h | h
      · exact Or.inl h
      · exact Or.inr ⟨h, (i % 28 : Nat), (i / 28 : Nat), by omega, by omega, by omega⟩
    · left
      rw [List.getD_eq_default _ _ (by rw [i1.1, hlen]; omega),
        List.getD_eq_default _ _ (by rw [hlen]; omega)]
  · obtain ⟨b1, e, -⟩ := drawLineOnBuffer_spec fuel x0 y0 x1 y1 buffer hlen hr.1 hr.2.1 hr.2.2.1
      hr.2.2.2 hs.1 hs.2 hf
    exact ⟨b1, e⟩

theorem drawLineOnBuffer_safe_witness :
    background.length = 784 ∧
    (∀ fuel, drawLineOnBuffer fuel (-3) 30 5 2 background ≠ .error .outOfBounds) ∧
    (∀ fuel b1, drawLineOnBuffer fuel (-3) 30 5 2 background = .ok b1 →
      b1.length = 784 ∧
        ∀ i : Nat, b1.getD i 0 = background.getD i 0 ∨
          (b1.getD i 0 = 127 ∧
            ∃ px py : Int, (0 ≤ px ∧ px < 28) ∧ (0 ≤ py ∧ py < 28) ∧ (i : Int) = py * 28 + px)) ∧
    ∃ b1, drawLineOnBuffer 37 (-3) 30 5 2 background = .ok b1 :=
  ⟨background_length, (drawLineOnBuffer_safe (-3) 30 5 2 background background_length).1,
    (drawLineOnBuffer_safe (-3) 30 5 2 background background_length).2.1,
    (drawLineOnBuffer_safe (-3) 30 5 2 background background_length).2.2
      sampleLine_isInt32 ⟨by decide, by decide⟩ 37 (by decide)⟩

/-- C10: for every stroke whose bounding box has positive width and height (so it has at least
2 points), with scale = min(20/(maxX-minX), 20/(maxY-minY)) computed in float, the remapped
coordinates of every captured point, the values passed to drawLineOnBuffer, lie in 0..20. -/
theorem remap_within_margin (st : State) (hbox : PositiveBox st) :
    ∀ p ∈ stroke st,
      (0 ≤ remap (scaleOf (boundingBox st)) (boundingBox st).minX p.x ∧
        remap (scaleOf (boundingBox st)) (boundingBox st).minX p.x ≤ 20) ∧
      (0 ≤ remap (scaleOf (boundingBox st)) (boundingBox st).minY p.y ∧
        remap (scaleOf (boundingBox st)) (boundingBox st).minY p.y ≤ 20) := by
  intro p hp
  obtain ⟨hx, hy⟩ := boundingBox_positive st hbox
  exact remap_in_canvas (boundingBox st) p hx hy (boundingBox_contains st p hp)

theorem remap_within_margin_witness :
    PositiveBox strokeL ∧
    ∀ p ∈ stroke strokeL,
      (0 ≤ remap (scaleOf (boundingBox strokeL)) (boundingBox strokeL).minX p.x ∧
        remap (scaleOf (boundingBox strokeL)) (boundingBox strokeL).minX p.x ≤ 20) ∧
      (0 ≤ remap (scaleOf (boundingBox strokeL)) (boundingBox strokeL).minY p.y ∧
        remap (scaleOf (boundingBox strokeL)) (boundingBox strokeL).minY p.y ≤ 20) :=
  ⟨⟨⟨⟨10, 10⟩, by decide, ⟨50, 50⟩, by decide, by decide⟩,
      ⟨⟨10, 10⟩, by decide, ⟨50, 50⟩, by decide, by decide⟩⟩,
    remap_within_margin strokeL
      ⟨⟨⟨10, 10⟩, by decide, ⟨50, 50⟩, by decide, by decide⟩,
        ⟨⟨10, 10⟩, by decide, ⟨50, 50⟩, by decide, by decide⟩⟩⟩

/-! ## The float sums of the centering pass are exact -/

/-- A counting invariant carried through a loop: k iterations done before, k + length after. -/
theorem foldl_count_rel {α β ι : Type} (R : Nat → α → β → Prop) (f : α → ι → α) (g : β → ι → β) :
    ∀ (l : List ι) (k : Nat) (a : α) (b : β),
      (∀ k a b i, i ∈ l → R k a b → R (k + 1) (f a i) (g b i)) → R k a b →
      R (k + l.length) (l.foldl f a) (l.foldl g b)
  | [], k, a, b, _, h => by simpa using h
  | i :: rest, k, a, b, hstep, h => by
    have h1 := hstep k a b i (List.mem_cons_self _ _) h
    have h2 := foldl_count_rel R f g rest (k + 1) (f a i) (g b i)
      (fun k a b j hj => hstep k a b j (List.mem_cons_of_mem _ hj)) h1
    simp only [List.foldl_cons, List.length_cons]
    have e : k + (rest.length + 1) = k + 1 + rest.length := by omega
    rw [e]
    exact h2

theorem accumulate_agree (t : Buffer) (y x : Nat) (hy : y < 28) (hx : x < 28) (k : Nat)
    (a : ℚ × ℚ × ℚ) (z : Int × Int × Int) (h : SumsAgree k a z) :
    SumsAgree (k + 1) (accumulate t y a x) (accumulateZ t y z x) := by
  intro hk
  obtain ⟨ha, ⟨h1, h2⟩, ⟨h3, h4⟩, ⟨h5, h6⟩⟩ := h (by omega)
  unfold accumulate accumulateZ
  by_cases hc : readCell t (y * IMG_WIDTH + x) > -128
  · rw [if_pos hc, if_pos hc]
    have ex : f32 (x : ℚ) = x := f32_natCast x (by omega)
    have ey : f32 (y : ℚ) = y := f32_natCast y (by omega)
    have e1 : f32 (a.1 + f32 (x : ℚ)) = ((z.1 + x : Int) : ℚ) := by
      rw [ex, ha]
      have := f32_intCast_of_nonneg (z.1 + x) (by omega) (by norm_num; omega)
      push_cast at this ⊢
      exact this
    have e2 : f32 (a.2.1 + f32 (y : ℚ)) = ((z.2.1 + y : Int) : ℚ) := by
      rw [ey, ha]
      have := f32_intCast_of_nonneg (z.2.1 + y) (by omega) (by norm_num; omega)
      push_cast at this ⊢
      exact this
    have e3 : f32 (a.2.2 + 1) = ((z.2.2 + 1 : Int) : ℚ) := by
      rw [ha]
      have := f32_intCast_of_nonneg (z.2.2 + 1) (by omega) (by norm_num; omega)
      push_cast at this ⊢
      exact this
    rw [e1, e2, e3]
    refine ⟨rfl, ⟨by simp only; omega, by simp only; omega⟩, ⟨by simp only; omega, by simp only; omega⟩,
      ⟨by simp only; omega, by simp only; omega⟩⟩
  · rw [if_neg hc, if_neg hc]
    exact ⟨ha, ⟨h1, by omega⟩, ⟨h3, by omega⟩, ⟨h5, by omega⟩⟩

/-- The float sums of the scan are the integer sums. -/
theorem massSums_eq (t : Buffer) :
    massSums t = (((massSumsZ t).1 : ℚ), ((massSumsZ t).2.1 : ℚ), ((massSumsZ t).2.2 : ℚ)) ∧
      (0 ≤ (massSumsZ t).1 ∧ (massSumsZ t).1 ≤ 27 * 784) ∧
      (0 ≤ (massSumsZ t).2.1 ∧ (massSumsZ t).2.1 ≤ 27 * 784) ∧
      (0 ≤ (massSumsZ t).2.2 ∧ (massSumsZ t).2.2 ≤ 784) := by
  have h28 : IMG_WIDTH.toNat = 28 := by decide
  have h28' : IMG_HEIGHT.toNat = 28 := by decide
  have hrow : ∀ (j : Nat) (a : ℚ × ℚ × ℚ) (z : Int × Int × Int) (y : Nat), y ∈ List.range 28 →
      SumsAgree (28 * j) a z →
      SumsAgree (28 * (j + 1)) ((List.range 28).foldl (accumulate t y) a)
        ((List.range 28).foldl (accumulateZ t y) z) := by
    intro j a z y hy h
    have := foldl_count_rel SumsAgree (accumulate t y) (accumulateZ t y) (List.range 28) (28 * j) a z
      (fun k a b x hx hR => accumulate_agree t y x (List.mem_range.mp hy) (List.mem_range.mp hx) k a b hR) h
    rw [List.length_range] at this
    have e : 28 * (j + 1) = 28 * j + 28 := by ring
    rw [e]
    exact this
  have hall := foldl_count_rel (fun j a z => SumsAgree (28 * j) a z)
    (fun a y => (List.range 28).foldl (accumulate t y) a)
    (fun z y => (List.range 28).foldl (accumulateZ t y) z) (List.range 28) 0 (0, 0, 0) (0, 0, 0)
    (fun j a z y hy hR => hrow j a z y hy hR)
    (by intro _; simp)
  rw [List.length_range] at hall
  have := hall (by norm_num)
  unfold massSums massSumsZ
  rw [h28, h28']
  obtain ⟨e, b1, b2, b3⟩ := this
  refine ⟨e, ⟨b1.1, by have := b1.2; omega⟩, ⟨b2.1, by have := b2.2; omega⟩,
    ⟨b3.1, by have := b3.2; omega⟩⟩

theorem floatToInt_f32_div_int (a b : Int) (ha : 0 ≤ a) (ha1 : a < 2 ^ 24) (hb : 0 < b) :
    floatToInt (f32 ((a : ℚ) / b)) = a / b := by
  obtain ⟨n, rfl⟩ := Int.eq_ofNat_of_zero_le ha
  obtain ⟨m, rfl⟩ := Int.eq_ofNat_of_zero_le hb.le
  have := floatToInt_f32_div n m (by exact_mod_cast hb) (by exact_mod_cast ha1)
  simpa using this

/-- The variable comX is the integer quotient of the sum of x by the mass. -/
theorem comX_eq (t : Buffer) (hm : (massSumsZ t).2.2 ≠ 0) :
    comX t = (massSumsZ t).1 / (massSumsZ t).2.2 := by
  obtain ⟨e, b1, -, b3⟩ := massSums_eq t
  unfold comX
  rw [e]
  exact floatToInt_f32_div_int _ _ b1.1 (by have := b1.2; norm_num; omega) (by omega)

/-- The variable comY is the integer quotient of the sum of y by the mass. -/
theorem comY_eq (t : Buffer) (hm : (massSumsZ t).2.2 ≠ 0) :
    comY t = (massSumsZ t).2.1 / (massSumsZ t).2.2 := by
  obtain ⟨e, -, b2, b3⟩ := massSums_eq t
  unfold comY
  rw [e]
  exact floatToInt_f32_div_int _ _ b2.1 (by have := b2.2; norm_num; omega) (by omega)

/-- The centering pass computes what its integer counterpart computes. -/
theorem centerImage_eq (t image : Buffer) : centerImage t image = centerImageZ t image := by
  obtain ⟨e, -, -, -⟩ := massSums_eq t
  unfold centerImage centerImageZ
  by_cases hm : (massSumsZ t).2.2 = 0
  · have : (massSums t).2.2 = 0 := by rw [e]; simp [hm]
    rw [if_pos this, if_pos hm]
  · have : (massSums t).2.2 ≠ 0 := by rw [e]; simpa using hm
    rw [if_neg this, if_neg hm, comX_eq t hm, comY_eq t hm]

/-! ## Evaluating the scale and the remapping -/

theorem log_eq_of_bounds {q : ℚ} {z : Int} (h1 : (2 : ℚ) ^ z ≤ q) (h2 : q < (2 : ℚ) ^ (z + 1)) :
    Int.log 2 q = z := by
  have hq : 0 < q := lt_of_lt_of_le (two_zpow_pos z) h1
  have c : ((2 : ℕ) : ℚ) = 2 := by norm_num
  have a1 := (Int.zpow_le_iff_le_log (b := 2) (x := z) (r := q) (by norm_num) hq).mp (by rw [c]; exact h1)
  have a2 := (Int.lt_zpow_iff_log_lt (b := 2) (x := z + 1) (r := q) (by norm_num) hq).mp
    (by rw [c]; exact h2)
  omega

theorem roundHalfEven_intCast (n : Int) : roundHalfEven (n : ℚ) = n := by
  unfold roundHalfEven
  simp

/-- Halving commutes with rounding: binary32 scaling by a power of two is exact. -/
theorem f32_half (q : ℚ) : f32 (q / 2) = f32 q / 2 := by
  by_cases hq : q = 0
  · subst hq; simp [f32_zero]
  · have hpos : 0 < |q| := abs_pos.mpr hq
    have hq2 : q / 2 ≠ 0 := div_ne_zero hq (by norm_num)
    have habs : |q / 2| = |q| / 2 := by rw [abs_div]; norm_num
    have hl1 := two_zpow_log_le hpos
    have hl2 : |q| < (2 : ℚ) ^ (Int.log 2 |q| + 1) := by
      have := Int.lt_zpow_succ_log_self (b := 2) (by norm_num) |q|
      simpa using this
    have e1 : (2 : ℚ) ^ (Int.log 2 |q| + 1) = (2 : ℚ) ^ (Int.log 2 |q|) * 2 := by
      rw [zpow_add₀ (by norm_num : (2 : ℚ) ≠ 0)]; norm_num
    have e2 : (2 : ℚ) ^ (Int.log 2 |q| - 1) = (2 : ℚ) ^ (Int.log 2 |q|) / 2 := by
      rw [zpow_sub₀ (by norm_num : (2 : ℚ) ≠ 0)]; norm_num
    have hlog : Int.log 2 |q / 2| = Int.log 2 |q| - 1 := by
      rw [habs]
      apply log_eq_of_bounds
      · rw [e2]; linarith
      · rw [sub_add_cancel]; rw [e1] at hl2; linarith
    have e3 : (2 : ℚ) ^ (Int.log 2 |q| - 1 - 23) = (2 : ℚ) ^ (Int.log 2 |q| - 23) / 2 := by
      have : Int.log 2 |q| - 1 - 23 = Int.log 2 |q| - 23 - 1 := by ring
      rw [this, zpow_sub₀ (by norm_num : (2 : ℚ) ≠ 0)]; norm_num
    unfold f32
    rw [if_neg hq, if_neg hq2, hlog, e3]
    have hu := two_zpow_pos (Int.log 2 |q| - 23)
    have e4 : q / 2 / ((2 : ℚ) ^ (Int.log 2 |q| - 23) / 2) = q / (2 : ℚ) ^ (Int.log 2 |q| - 23) := by
      field_simp
    rw [e4]
    ring

theorem f32_one : f32 1 = 1 := by
  have := f32_natCast 1 (by norm_num)
  simpa using this

theorem scaleOf_eq_one (b : BBox) (hx : b.maxX - b.minX = 20) (hy : b.maxY - b.minY = 20) :
    scaleOf b = 1 := by
  unfold scaleOf
  rw [hx, hy]
  have h20 : f32 ((20 : Int) : ℚ) = 20 := by
    have := f32_natCast 20 (by norm_num)
    simpa using this
  have e1 : ((IMG_WIDTH - 8 : Int) : ℚ) = ((20 : Int) : ℚ) := by norm_num
  have e2 : ((IMG_HEIGHT - 8 : Int) : ℚ) = ((20 : Int) : ℚ) := by norm_num
  rw [e1, e2, h20]
  norm_num [f32_one]

theorem scaleOf_eq_half (b : BBox) (hx : b.maxX - b.minX = 40) (hy : b.maxY - b.minY = 40) :
    scaleOf b = 1 / 2 := by
  unfold scaleOf
  rw [hx, hy]
  have h20 : f32 ((20 : Int) : ℚ) = 20 := by
    have := f32_natCast 20 (by norm_num)
    simpa using this
  have h40 : f32 ((40 : Int) : ℚ) = 40 := by
    have := f32_natCast 40 (by norm_num)
    simpa using this
  have e1 : ((IMG_WIDTH - 8 : Int) : ℚ) = ((20 : Int) : ℚ) := by norm_num
  have e2 : ((IMG_HEIGHT - 8 : Int) : ℚ) = ((20 : Int) : ℚ) := by norm_num
  rw [e1, e2, h20, h40]
  have : (20 : ℚ) / 40 = 1 / 2 := by norm_num
  rw [this, f32_half, f32_one]
  norm_num

/-- With scale 1 the remapped coordinate is the distance to the box minimum. -/
theorem remap_one (lo c : Int) (h0 : 0 ≤ c - lo) (h1 : c - lo < 2 ^ 24) :
    remap 1 lo c = remapZ 1 1 lo c := by
  unfold remap remapZ
  rw [f32_intCast_of_nonneg _ h0 h1, mul_one, f32_intCast_of_nonneg _ h0 h1]
  unfold floatToInt
  rw [if_pos (by exact_mod_cast h0)]
  simp

/-- With scale 1/2 the remapped coordinate is half the distance to the box minimum. -/
theorem remap_half (lo c : Int) (h0 : 0 ≤ c - lo) (h1 : c - lo < 2 ^ 24) :
    remap (1 / 2) lo c = remapZ 1 2 lo c := by
  unfold remap remapZ
  rw [f32_intCast_of_nonneg _ h0 h1]
  have e : ((c - lo : Int) : ℚ) * (1 / 2) = ((c - lo : Int) : ℚ) / 2 := by ring
  rw [e, f32_half, f32_intCast_of_nonneg _ h0 h1]
  unfold floatToInt
  have hn : (0 : ℚ) ≤ ((c - lo : Int) : ℚ) / 2 := div_nonneg (by exact_mod_cast h0) (by norm_num)
  rw [if_pos hn, mul_one]
  have := Rat.floor_intCast_div_natCast (c - lo) 2
  simpa using this

/-- When remap agrees with remapZ on the stroke, the two scratch buffers agree. -/
theorem rasterize_eq_Z (fuel : Nat) (num den : Int) (st : State)
    (h : ∀ p ∈ stroke st,
      remap (scaleOf (boundingBox st)) (boundingBox st).minX p.x = remapZ num den (boundingBox st).minX p.x ∧
      remap (scaleOf (boundingBox st)) (boundingBox st).minY p.y = remapZ num den (boundingBox st).minY p.y) :
    rasterize fuel st = rasterizeZ fuel num den st := by
  unfold rasterize rasterizeZ
  apply forEach_congr
  intro s i hi
  have hi1 := mem_range_one hi
  have a := h _ (pointAt_mem_stroke st (i - 1) (by omega))
  have b := h _ (pointAt_mem_stroke st i hi1.2)
  unfold drawSegment drawSegmentZ
  rw [a.1, a.2, b.1, b.2]

/-- The function preprocessImage computes what its integer counterpart computes. -/
theorem preprocessImage_eq_Z (fuel : Nat) (num den : Int) (st : State)
    (h : rasterize fuel st = rasterizeZ fuel num den st) :
    preprocessImage fuel st = preprocessImageZ fuel num den st := by
  unfold preprocessImage preprocessImageZ
  simp only [h, centerImage_eq]

/-! ## Masks mirror buffers -/

theorem decodeMask_length (m : Nat) : (decodeMask m).length = 784 := by
  simp [decodeMask]

theorem decodeMask_getD (m : Nat) (i : Nat) (hi : i < 784) :
    (decodeMask m).getD i 0 = if m.testBit i then 127 else -128 := by
  unfold decodeMask
  rw [List.getD_eq_getElem?_getD, List.getElem?_map, List.getElem?_range hi]
  rfl

theorem buffer_ext {a b : Buffer} (ha : a.length = 784) (hb : b.length = 784)
    (h : ∀ j, j < 784 → a.getD j 0 = b.getD j 0) : a = b := by
  apply List.ext_getElem (ha.trans hb.symm)
  intro j h1 h2
  have := h j (ha ▸ h1)
  rwa [List.getD_eq_getElem _ _ h1, List.getD_eq_getElem _ _ h2] at this

theorem background_eq_decodeMask : background = decodeMask 0 := by
  apply buffer_ext background_length (decodeMask_length 0)
  intro j hj
  rw [background_getD j hj, decodeMask_getD 0 j hj]
  simp

theorem set_decodeMask (m : Nat) (k : Nat) :
    (decodeMask m).set k 127 = decodeMask (m ||| 2 ^ k) := by
  apply buffer_ext (by rw [List.length_set]; exact decodeMask_length m) (decodeMask_length _)
  intro j hj
  rw [getD_set, decodeMask_getD _ j hj, decodeMask_getD _ j hj, decodeMask_length,
    Nat.testBit_or, Nat.testBit_two_pow]
  by_cases h : k = j
  · simp [h, hj]
  · simp [h]

theorem writeCell_decodeMask (m : Nat) (idx : Int) (h0 : 0 ≤ idx) (h1 : idx < 784) :
    writeCell (decodeMask m) idx 127 = .ok (decodeMask (m ||| 2 ^ idx.toNat)) := by
  rw [writeCell_ok 127 h0 (by rw [decodeMask_length]; exact_mod_cast h1),
    set_decodeMask m idx.toNat]

theorem readCell_decodeMask (m : Nat) (y x : Nat) (hy : y < 28) (hx : x < 28) :
    (readCell (decodeMask m) (y * IMG_WIDTH + x) > -128) ↔ m.testBit (y * 28 + x) = true := by
  unfold readCell
  have e : ((y : Int) * IMG_WIDTH + x).toNat = y * 28 + x := by
    simp only [IMG_WIDTH_eq]; omega
  rw [e, decodeMask_getD m _ (by omega)]
  by_cases h : m.testBit (y * 28 + x) = true <;> simp [h]

theorem readCell_decodeMask_ink (m : Nat) (y x : Nat) (hy : y < 28) (hx : x < 28) :
    (readCell (decodeMask m) (y * IMG_WIDTH + x) = 127) ↔ m.testBit (y * 28 + x) = true := by
  unfold readCell
  have e : ((y : Int) * IMG_WIDTH + x).toNat = y * 28 + x := by
    simp only [IMG_WIDTH_eq]; omega
  rw [e, decodeMask_getD m _ (by omega)]
  by_cases h : m.testBit (y * 28 + x) = true <;> simp [h]

theorem plot_decodeMask (px py : Int) (m : Nat) :
    plot px py (decodeMask m) = .ok (decodeMask (plotMask px py m)) := by
  unfold plot plotMask
  by_cases h : px ≥ 0 ∧ px < IMG_WIDTH ∧ py ≥ 0 ∧ py < IMG_HEIGHT
  · rw [if_pos h, if_pos h]
    simp only [IMG_WIDTH_eq, IMG_HEIGHT_eq] at h ⊢
    exact writeCell_decodeMask m _ (by omega) (by omega)
  · rw [if_neg h, if_neg h]

theorem brush_decodeMask (x0 y0 : Int) (m : Nat) :
    brush x0 y0 (decodeMask m) = .ok (decodeMask (brushMask x0 y0 m)) := by
  unfold brush brushMask
  rw [forEach_cons_ok _ (plot_decodeMask _ _ _), forEach_cons_ok _ (plot_decodeMask _ _ _),
    forEach_cons_ok _ (plot_decodeMask _ _ _), forEach_cons_ok _ (plot_decodeMask _ _ _)]
  rfl

theorem drawLoop_decodeMask (x1 y1 dx sx dy sy : Int) :
    ∀ (fuel : Nat) (x0 y0 err : Int) (m : Nat),
      drawLoop x1 y1 dx sx dy sy fuel x0 y0 err (decodeMask m) =
        (drawLoopMask x1 y1 dx sx dy sy fuel x0 y0 err m).map decodeMask
  | 0, _, _, _, _ => rfl
  | fuel + 1, x0, y0, err, m => by
    simp only [drawLoop, drawLoopMask, brush_decodeMask]
    by_cases hend : x0 = x1 ∧ y0 = y1
    · rw [if_pos hend, if_pos hend]; rfl
    · rw [if_neg hend, if_neg hend]
      exact drawLoop_decodeMask x1 y1 dx sx dy sy fuel _ _ _ _

theorem drawLine_decodeMask (fuel : Nat) (x0 y0 x1 y1 : Int) (m : Nat) :
    drawLineOnBuffer fuel x0 y0 x1 y1 (decodeMask m) =
      (drawLineMask fuel x0 y0 x1 y1 m).map decodeMask := by
  unfold drawLineOnBuffer drawLineMask
  exact drawLoop_decodeMask _ _ _ _ _ _ fuel x0 y0 _ m

/-- A faulting loop on buffers that mirrors a loop on masks step by step mirrors it as a whole. -/
theorem forEach_decodeMask {ι : Type} {body : Buffer → ι → Except Fault Buffer}
    {bodyM : Nat → ι → Except Fault Nat} :
    ∀ (l : List ι) (m : Nat), (∀ m i, i ∈ l → body (decodeMask m) i = (bodyM m i).map decodeMask) →
      forEach body l (decodeMask m) = (forEach bodyM l m).map decodeMask
  | [], _, _ => rfl
  | i :: rest, m, h => by
    have hi := h m i (List.mem_cons_self _ _)
    have hrest := fun m1 => forEach_decodeMask rest m1
      (fun m j hj => h m j (List.mem_cons_of_mem _ hj))
    simp only [forEach, hi]
    cases bodyM m i with
    | error f => rfl
    | ok m1 => exact hrest m1

/-- A loop of stores on buffers that mirrors a fold on masks step by step mirrors it as a whole. -/
theorem forEach_foldl_decodeMask {ι : Type} {body : Buffer → ι → Except Fault Buffer}
    {bodyM : Nat → ι → Nat} :
    ∀ (l : List ι) (m : Nat), (∀ m i, i ∈ l → body (decodeMask m) i = .ok (decodeMask (bodyM m i))) →
      forEach body l (decodeMask m) = .ok (decodeMask (l.foldl bodyM m))
  | [], _, _ => rfl
  | i :: rest, m, h => by
    rw [forEach_cons_ok _ (h m i (List.mem_cons_self _ _))]
    exact forEach_foldl_decodeMask rest _ (fun m j hj => h m j (List.mem_cons_of_mem _ hj))

theorem rasterizeZ_decodeMask (fuel : Nat) (num den : Int) (st : State) :
    rasterizeZ fuel num den st = (rasterizeMask fuel num den st).map decodeMask := by
  unfold rasterizeZ rasterizeMask
  rw [background_eq_decodeMask]
  apply forEach_decodeMask
  intro m i _
  exact drawLine_decodeMask fuel _ _ _ _ m

theorem massSumsZ_decodeMask (t : Nat) : massSumsZ (decodeMask t) = massSumsMask t := by
  unfold massSumsZ massSumsMask
  have h28 : IMG_WIDTH.toNat = 28 := by decide
  have h28' : IMG_HEIGHT.toNat = 28 := by decide
  rw [h28, h28']
  apply List.foldl_ext
  intro acc y hy
  apply List.foldl_ext
  intro acc1 x hx
  unfold accumulateZ accumulateMask
  have := readCell_decodeMask t y x (List.mem_range.mp hy) (List.mem_range.mp hx)
  by_cases h : t.testBit (y * 28 + x) = true
  · rw [if_pos (this.mpr h), if_pos h]
  · rw [if_neg (fun hc => h (this.mp hc)), if_neg h]

theorem shiftCell_decodeMask (t : Nat) (shX shY : Int) (y x : Nat) (hy : y < 28) (hx : x < 28)
    (image : Nat) :
    shiftCell (decodeMask t) shX shY y (decodeMask image) x =
      .ok (decodeMask (shiftCellMask t shX shY y image x)) := by
  unfold shiftCell shiftCellMask
  have := readCell_decodeMask t y x hy hx
  by_cases h : t.testBit (y * 28 + x) = true
  · rw [if_pos (this.mpr h), if_pos h]
    by_cases h2 : x + shX ≥ 0 ∧ x + shX < IMG_WIDTH ∧ y + shY ≥ 0 ∧ y + shY < IMG_HEIGHT
    · simp only [h2, and_self, if_true]
      simp only [IMG_WIDTH_eq, IMG_HEIGHT_eq] at h2 ⊢
      exact writeCell_decodeMask image _ (by omega) (by omega)
    · simp only [h2, if_false]
  · rw [if_neg (fun hc => h (this.mp hc)), if_neg h]

theorem shiftInk_decodeMask (t : Nat) (shX shY : Int) (image : Nat) :
    shiftInk (decodeMask t) shX shY (decodeMask image) =
      .ok (decodeMask (shiftMask t shX shY image)) := by
  unfold shiftInk shiftMask
  have h28 : IMG_WIDTH.toNat = 28 := by decide
  have h28' : IMG_HEIGHT.toNat = 28 := by decide
  rw [h28, h28']
  apply forEach_foldl_decodeMask
  intro m y hy
  apply forEach_foldl_decodeMask
  intro m1 x hx
  exact shiftCell_decodeMask t shX shY y x (List.mem_range.mp hy) (List.mem_range.mp hx) m1

theorem centerImageZ_decodeMask (t image : Nat) :
    centerImageZ (decodeMask t) (decodeMask image) = .ok (decodeMask (centerMask t image)) := by
  unfold centerImageZ centerMask
  rw [massSumsZ_decodeMask]
  split_ifs
  · rfl
  · exact shiftInk_decodeMask t _ _ image

/-- The integer pipeline on a state is the mask pipeline, decoded. -/
theorem preprocessImageZ_decodeMask (fuel : Nat) (num den : Int) (st : State)
    (hlen : st.image_buffer.length = 784) :
    preprocessImageZ fuel num den st =
      (preprocessMask fuel num den st).map fun m => { st with image_buffer := decodeMask m } := by
  unfold preprocessImageZ preprocessMask
  rw [fillBackground_eq _ hlen, rasterizeZ_decodeMask, background_eq_decodeMask]
  simp only
  split_ifs
  · rfl
  · rfl
  · cases rasterizeMask fuel num den st with
    | error f => rfl
    | ok t =>
      simp only [Except.map, centerImageZ_decodeMask]

theorem inkSum_decodeMask (f : Int → Int → Int) (m : Nat) :
    inkSum f (decodeMask m) = inkSumMask f m := by
  unfold inkSum inkSumMask
  have h28 : IMG_WIDTH.toNat = 28 := by decide
  have h28' : IMG_HEIGHT.toNat = 28 := by decide
  rw [h28, h28']
  refine congrArg List.sum (List.map_congr_left fun y hy =>
    congrArg List.sum (List.map_congr_left fun x hx => ?_))
  have := readCell_decodeMask_ink m y x (List.mem_range.mp hy) (List.mem_range.mp hx)
  by_cases h : m.testBit (y * 28 + x) = true
  · rw [if_pos (this.mpr h), if_pos h]
  · rw [if_neg (fun hc => h (this.mp hc)), if_neg h]

/-! ## Concrete runs -/

theorem eq_ok_maskOf {r : Except Fault Nat} (h : succeeded r = true) : r = .ok (maskOf r) := by
  cases r with
  | error f => simp [succeeded] at h
  | ok m => rfl

/-- A box of 20 by 20: the scale is 1 and the scratch buffer is the integer one. -/
theorem rasterize_eq_Z_one (fuel : Nat) (st : State)
    (hx : (boundingBox st).maxX - (boundingBox st).minX = 20)
    (hy : (boundingBox st).maxY - (boundingBox st).minY = 20) :
    rasterize fuel st = rasterizeZ fuel 1 1 st := by
  apply rasterize_eq_Z
  intro p hp
  have hb := boundingBox_contains st p hp
  rw [scaleOf_eq_one _ hx hy]
  exact ⟨remap_one _ _ (by omega) (by norm_num; omega), remap_one _ _ (by omega) (by norm_num; omega)⟩

/-- A box of 40 by 40: the scale is 1/2 and the scratch buffer is the integer one. -/
theorem rasterize_eq_Z_half (fuel : Nat) (st : State)
    (hx : (boundingBox st).maxX - (boundingBox st).minX = 40)
    (hy : (boundingBox st).maxY - (boundingBox st).minY = 40) :
    rasterize fuel st = rasterizeZ fuel 1 2 st := by
  apply rasterize_eq_Z
  intro p hp
  have hb := boundingBox_contains st p hp
  rw [scaleOf_eq_half _ hx hy]
  exact ⟨remap_half _ _ (by omega) (by norm_num; omega), remap_half _ _ (by omega) (by norm_num; omega)⟩

/-- A run of preprocessImage, from a run of the mask pipeline that returned. -/
theorem preprocessImage_run (fuel : Nat) (num den : Int) (st : State)
    (hlen : st.image_buffer.length = 784)
    (hr : rasterize fuel st = rasterizeZ fuel num den st)
    (h : succeeded (preprocessMask fuel num den st) = true) :
    preprocessImage fuel st =
      .ok { st with image_buffer := decodeMask (maskOf (preprocessMask fuel num den st)) } := by
  rw [preprocessImage_eq_Z fuel num den st hr, preprocessImageZ_decodeMask fuel num den st hlen]
  conv_lhs => rw [eq_ok_maskOf h]
  rfl

/-- A run of rasterize, from a run of the mask rasteriser that returned. -/
theorem rasterize_run (fuel : Nat) (num den : Int) (st : State)
    (hr : rasterize fuel st = rasterizeZ fuel num den st)
    (h : succeeded (rasterizeMask fuel num den st) = true) :
    rasterize fuel st = .ok (decodeMask (maskOf (rasterizeMask fuel num den st))) := by
  rw [hr, rasterizeZ_decodeMask]
  conv_lhs => rw [eq_ok_maskOf h]
  rfl

theorem positiveBox_of (st : State) (p q p1 q1 : Point) (hp : p ∈ stroke st) (hq : q ∈ stroke st)
    (hx : p.x ≠ q.x) (hp1 : p1 ∈ stroke st) (hq1 : q1 ∈ stroke st) (hy : p1.y ≠ q1.y) :
    PositiveBox st :=
  ⟨⟨p, hp, q, hq, hx⟩, ⟨p1, hp1, q1, hq1, hy⟩⟩

theorem strokeBlock_box : boundingBox strokeBlock = ⟨11, 11, 31, 31⟩ := by decide!

theorem strokeBlock_run :
    preprocessImage 41 strokeBlock =
      .ok { strokeBlock with
        image_buffer := decodeMask (maskOf (preprocessMask 41 1 1 strokeBlock)) } :=
  preprocessImage_run 41 1 1 strokeBlock (List.length_replicate 784 (0 : Int))
    (rasterize_eq_Z_one 41 strokeBlock (by rw [strokeBlock_box]; decide)
      (by rw [strokeBlock_box]; decide))
    (by decide!)

/-- C1 fails: the 11-point stroke strokeBlock has a bounding box of positive width and height,
and after preprocessImage its 180 ink cells have x-sum 2240 and y-sum 2710: the mean x is
below 13 and the mean y above 15. -/
theorem centroid_off_centre :
    (2 ≤ strokeBlock.point_count ∧ PositiveBox strokeBlock) ∧
    ∃ image, preprocessImage 41 strokeBlock = .ok { strokeBlock with image_buffer := image } ∧
      (inkCount image = 180 ∧ inkSumX image = 2240 ∧ inkSumY image = 2710) ∧
      ¬ CentroidNearCentre image := by
  refine ⟨⟨by decide, positiveBox_of strokeBlock ⟨11, 11⟩ ⟨31, 23⟩ ⟨11, 11⟩ ⟨31, 23⟩
    (by decide) (by decide) (by decide) (by decide) (by decide) (by decide)⟩, ?_⟩
  have h1 : inkCount (decodeMask (maskOf (preprocessMask 41 1 1 strokeBlock))) = 180 := by
    unfold inkCount
    rw [inkSum_decodeMask]
    decide!
  have h2 : inkSumX (decodeMask (maskOf (preprocessMask 41 1 1 strokeBlock))) = 2240 := by
    unfold inkSumX
    rw [inkSum_decodeMask]
    decide!
  have h3 : inkSumY (decodeMask (maskOf (preprocessMask 41 1 1 strokeBlock))) = 2710 := by
    unfold inkSumY
    rw [inkSum_decodeMask]
    decide!
  refine ⟨_, strokeBlock_run, ⟨h1, h2, h3⟩, ?_⟩
  unfold CentroidNearCentre
  rw [h1, h2, h3]
  decide

/-! ## The centroid after centering -/

theorem list_sum_range (g : ℕ → ℤ) (n : ℕ) :
    ((List.range n).map g).sum = ∑ i ∈ Finset.range n, g i := by
  induction n with
  | zero => simp
  | succ n ih => rw [List.range_succ, List.map_append, List.sum_append, ih, Finset.sum_range_succ]; simp

theorem mem_inkCells (b : Buffer) (p : ℕ × ℕ) :
    p ∈ inkCells b ↔ (p.1 < 28 ∧ p.2 < 28) ∧ readCell b (p.1 * IMG_WIDTH + p.2) = 127 := by
  simp [inkCells, Finset.mem_filter, Finset.mem_product]

/-- The ink sums are sums over the set of ink cells. -/
theorem inkSum_eq_sum (f : Int → Int → Int) (b : Buffer) :
    inkSum f b = ∑ p ∈ inkCells b, f p.2 p.1 := by
  have h28 : IMG_WIDTH.toNat = 28 := by decide
  have h28' : IMG_HEIGHT.toNat = 28 := by decide
  unfold inkSum inkCells
  rw [h28, h28', list_sum_range, Finset.sum_filter, Finset.sum_product]
  apply Finset.sum_congr rfl
  intro y _
  rw [list_sum_range]

theorem readCell_cast (b : Buffer) (y x : Nat) :
    readCell b (y * IMG_WIDTH + x) = b.getD (y * 28 + x) 0 := by
  unfold readCell
  have e : ((y : Int) * IMG_WIDTH + x).toNat = y * 28 + x := by
    simp only [IMG_WIDTH_eq]; omega
  rw [e]

theorem twoValued_gt_iff {t : Buffer} (ht : TwoValued t) (y x : Nat) (hy : y < 28) (hx : x < 28) :
    readCell t (y * IMG_WIDTH + x) > -128 ↔ readCell t (y * IMG_WIDTH + x) = 127 := by
  rw [readCell_cast]
  rcases ht.2 (y * 28 + x) (by omega) with h | h <;> rw [h] <;> simp

theorem foldl_accumulateZ (t : Buffer) (ht : TwoValued t) (y : Nat) (hy : y < 28) :
    ∀ (l : List ℕ), (∀ x ∈ l, x < 28) → ∀ acc : Int × Int × Int,
      l.foldl (accumulateZ t y) acc =
        (acc.1 + (l.map fun (x : ℕ) => if readCell t (y * IMG_WIDTH + x) = 127 then (x : ℤ) else 0).sum,
          acc.2.1 + (l.map fun (x : ℕ) => if readCell t (y * IMG_WIDTH + x) = 127 then (y : ℤ) else 0).sum,
          acc.2.2 + (l.map fun (x : ℕ) => if readCell t (y * IMG_WIDTH + x) = 127 then (1 : ℤ) else 0).sum)
  | [], _, acc => by simp
  | x :: rest, hl, acc => by
    have ih := foldl_accumulateZ t ht y hy rest (fun x hx => hl x (List.mem_cons_of_mem _ hx))
    have hx := hl x (List.mem_cons_self _ _)
    rw [List.foldl_cons, ih]
    unfold accumulateZ
    by_cases h : readCell t (y * IMG_WIDTH + x) = 127
    · rw [if_pos ((twoValued_gt_iff ht y x hy hx).mpr h)]
      simp only [List.map_cons, List.sum_cons, h, if_true]
      refine Prod.ext ?_ (Prod.ext ?_ ?_) <;> simp only <;> ring
    · rw [if_neg (fun hc => h ((twoValued_gt_iff ht y x hy hx).mp hc))]
      simp only [List.map_cons, List.sum_cons, h, if_false, zero_add]

theorem foldl_rows (t : Buffer) (ht : TwoValued t) :
    ∀ (l : List ℕ), (∀ y ∈ l, y < 28) → ∀ acc : Int × Int × Int,
      l.foldl (fun acc y => (List.range 28).foldl (accumulateZ t y) acc) acc =
        (acc.1 + (l.map fun (y : ℕ) => ((List.range 28).map fun (x : ℕ) =>
            if readCell t (y * IMG_WIDTH + x) = 127 then (x : ℤ) else 0).sum).sum,
          acc.2.1 + (l.map fun (y : ℕ) => ((List.range 28).map fun (x : ℕ) =>
            if readCell t (y * IMG_WIDTH + x) = 127 then (y : ℤ) else 0).sum).sum,
          acc.2.2 + (l.map fun (y : ℕ) => ((List.range 28).map fun (x : ℕ) =>
            if readCell t (y * IMG_WIDTH + x) = 127 then (1 : ℤ) else 0).sum).sum)
  | [], _, acc => by simp
  | y :: rest, hl, acc => by
    have ih := foldl_rows t ht rest (fun x hx => hl x (List.mem_cons_of_mem _ hx))
    have hy := hl y (List.mem_cons_self _ _)
    rw [List.foldl_cons, ih, foldl_accumulateZ t ht y hy _ (fun x hx => List.mem_range.mp hx)]
    simp only [List.map_cons, List.sum_cons]
    refine Prod.ext ?_ (Prod.ext ?_ ?_) <;> simp only <;> ring

/-- On a two-valued buffer the scan computes the ink sums. -/
theorem massSumsZ_eq (t : Buffer) (ht : TwoValued t) :
    massSumsZ t = (inkSumX t, inkSumY t, inkCount t) := by
  have h28 : IMG_WIDTH.toNat = 28 := by decide
  have h28' : IMG_HEIGHT.toNat = 28 := by decide
  unfold massSumsZ inkSumX inkSumY inkCount inkSum
  rw [h28, h28', foldl_rows t ht _ (fun y hy => List.mem_range.mp hy)]
  simp only [zero_add]

theorem inkCount_eq_card (b : Buffer) : inkCount b = (inkCells b).card := by
  unfold inkCount
  rw [inkSum_eq_sum]
  simp

theorem inkCount_pos_of_hasInk {b : Buffer} (h : HasInk b) : 0 < inkCount b := by
  obtain ⟨x, y, hx, hy, hb⟩ := h
  rw [inkCount_eq_card]
  have : (y, x) ∈ inkCells b := by
    rw [mem_inkCells]
    exact ⟨⟨hy, hx⟩, by rw [readCell_cast]; exact hb⟩
  exact_mod_cast Finset.card_pos.mpr ⟨_, this⟩

/-- The source of an ink cell of the shifted image. -/
theorem source_of_ink (t out : Buffer) (shX shY : Int)
    (hspec : ∀ j, ((∃ y ∈ List.range 28, ∃ x ∈ List.range 28, ShiftSource t shX shY y x j) →
        out.getD j 0 = 127) ∧
      ((¬ ∃ y ∈ List.range 28, ∃ x ∈ List.range 28, ShiftSource t shX shY y x j) →
        out.getD j 0 = background.getD j 0))
    (q : ℕ × ℕ) (hq : q ∈ inkCells out) :
    ∃ y x : Nat, (y < 28 ∧ x < 28) ∧ readCell t (y * IMG_WIDTH + x) > -128 ∧
      (q.1 : Int) = y + shY ∧ (q.2 : Int) = x + shX := by
  rw [mem_inkCells, readCell_cast] at hq
  obtain ⟨⟨h1, h2⟩, h3⟩ := hq
  by_cases hs : ∃ y ∈ List.range 28, ∃ x ∈ List.range 28, ShiftSource t shX shY y x (q.1 * 28 + q.2)
  · obtain ⟨y, hy, x, hx, hr, hb, hj⟩ := hs
    simp only [IMG_WIDTH_eq, IMG_HEIGHT_eq] at hb hj
    exact ⟨y, x, ⟨List.mem_range.mp hy, List.mem_range.mp hx⟩, hr, by omega, by omega⟩
  · have := (hspec (q.1 * 28 + q.2)).2 hs
    rw [h3, background_getD _ (by omega)] at this
    exact absurd this (by decide)

/-- Without clipping, a sum over the ink cells of the shifted image is the sum over the ink
cells of the scratch buffer, taken at the shifted positions. -/
theorem inkSum_shifted (t out : Buffer) (shX shY : Int) (ht : TwoValued t)
    (hspec : ∀ j, ((∃ y ∈ List.range 28, ∃ x ∈ List.range 28, ShiftSource t shX shY y x j) →
        out.getD j 0 = 127) ∧
      ((¬ ∃ y ∈ List.range 28, ∃ x ∈ List.range 28, ShiftSource t shX shY y x j) →
        out.getD j 0 = background.getD j 0))
    (hclip : ∀ y x : Nat, y < 28 → x < 28 → readCell t (y * IMG_WIDTH + x) > -128 →
      (x + shX ≥ 0 ∧ x + shX < IMG_WIDTH ∧ y + shY ≥ 0 ∧ y + shY < IMG_HEIGHT))
    (f : Int → Int → Int) :
    inkSum f out = ∑ p ∈ inkCells t, f (p.2 + shX) (p.1 + shY) := by
  rw [inkSum_eq_sum]
  symm
  apply Finset.sum_nbij' (fun p : ℕ × ℕ => ((p.1 + shY).toNat, (p.2 + shX).toNat))
    (fun q : ℕ × ℕ => ((q.1 - shY).toNat, (q.2 - shX).toNat))
  · intro p hp
    rw [mem_inkCells] at hp
    obtain ⟨⟨h1, h2⟩, h3⟩ := hp
    have hb := hclip p.1 p.2 h1 h2 ((twoValued_gt_iff ht _ _ h1 h2).mpr h3)
    simp only [IMG_WIDTH_eq, IMG_HEIGHT_eq] at hb
    rw [mem_inkCells, readCell_cast]
    refine ⟨⟨by omega, by omega⟩, ?_⟩
    apply (hspec _).1
    refine ⟨p.1, List.mem_range.mpr h1, p.2, List.mem_range.mpr h2,
      (twoValued_gt_iff ht _ _ h1 h2).mpr h3, ?_, ?_⟩
    · simp only [IMG_WIDTH_eq, IMG_HEIGHT_eq]; omega
    · simp only [IMG_WIDTH_eq]; omega
  · intro q hq
    obtain ⟨y, x, ⟨hy, hx⟩, hr, e1, e2⟩ := source_of_ink t out shX shY hspec q hq
    rw [mem_inkCells]
    have a1 : ((q.1 : Int) - shY).toNat = y := by omega
    have a2 : ((q.2 : Int) - shX).toNat = x := by omega
    simp only [a1, a2]
    exact ⟨⟨hy, hx⟩, (twoValued_gt_iff ht _ _ hy hx).mp hr⟩
  · intro p hp
    rw [mem_inkCells] at hp
    obtain ⟨⟨h1, h2⟩, h3⟩ := hp
    have hb := hclip p.1 p.2 h1 h2 ((twoValued_gt_iff ht _ _ h1 h2).mpr h3)
    simp only [IMG_WIDTH_eq, IMG_HEIGHT_eq] at hb
    refine Prod.ext ?_ ?_ <;> simp only <;> omega
  · intro q hq
    obtain ⟨y, x, ⟨hy, hx⟩, hr, e1, e2⟩ := source_of_ink t out shX shY hspec q hq
    refine Prod.ext ?_ ?_ <;> simp only <;> omega
  · intro p hp
    rw [mem_inkCells] at hp
    obtain ⟨⟨h1, h2⟩, h3⟩ := hp
    have hb := hclip p.1 p.2 h1 h2 ((twoValued_gt_iff ht _ _ h1 h2).mpr h3)
    simp only [IMG_WIDTH_eq, IMG_HEIGHT_eq] at hb
    simp only
    rw [Int.toNat_of_nonneg (by omega), Int.toNat_of_nonneg (by omega)]

theorem sum_shiftX (t : Buffer) (a : Int) :
    ∑ p ∈ inkCells t, ((p.2 : ℤ) + a) = inkSumX t + a * inkCount t := by
  rw [Finset.sum_add_distrib, Finset.sum_const, inkCount_eq_card]
  unfold inkSumX
  rw [inkSum_eq_sum]
  simp [mul_comm]

theorem sum_shiftY (t : Buffer) (a : Int) :
    ∑ p ∈ inkCells t, ((p.1 : ℤ) + a) = inkSumY t + a * inkCount t := by
  rw [Finset.sum_add_distrib, Finset.sum_const, inkCount_eq_card]
  unfold inkSumY
  rw [inkSum_eq_sum]
  simp [mul_comm]

/-- Without clipping, centering moves the centroid into [14, 15) on both axes. -/
theorem centerImage_centroid (t : Buffer) (ht : TwoValued t) (hink : HasInk t) (hclip : NoClip t) :
    ∃ out, centerImage t background = .ok out ∧
      0 < inkCount out ∧
      (14 * inkCount out ≤ inkSumX out ∧ inkSumX out < 15 * inkCount out) ∧
      (14 * inkCount out ≤ inkSumY out ∧ inkSumY out < 15 * inkCount out) := by
  have hm := massSumsZ_eq t ht
  have hpos := inkCount_pos_of_hasInk hink
  have hm0 : (massSumsZ t).2.2 ≠ 0 := by rw [hm]; simp only; omega
  have hcx := comX_eq t hm0
  have hcy := comY_eq t hm0
  rw [hm] at hcx hcy
  simp only at hcx hcy
  unfold NoClip at hclip
  rw [hcx, hcy] at hclip
  rw [centerImage_eq]
  unfold centerImageZ
  rw [if_neg hm0, hm]
  simp only
  obtain ⟨out, e, -, hspec⟩ := shiftInk_spec t background
    (IMG_WIDTH / 2 - inkSumX t / inkCount t) (IMG_HEIGHT / 2 - inkSumY t / inkCount t)
    background_length
  have hsum := inkSum_shifted t out _ _ ht hspec hclip
  have c0 : inkCount out = inkCount t := by
    have h1 : inkCount out = inkSum (fun _ _ => 1) out := rfl
    have h2 : inkCount t = inkSum (fun _ _ => 1) t := rfl
    rw [h1, h2, hsum, inkSum_eq_sum]
  have c1 : inkSumX out = inkSumX t + (IMG_WIDTH / 2 - inkSumX t / inkCount t) * inkCount t := by
    have h1 : inkSumX out = inkSum (fun x _ => x) out := rfl
    rw [h1, hsum]
    exact sum_shiftX t _
  have c2 : inkSumY out = inkSumY t + (IMG_HEIGHT / 2 - inkSumY t / inkCount t) * inkCount t := by
    have h1 : inkSumY out = inkSum (fun _ y => y) out := rfl
    rw [h1, hsum]
    exact sum_shiftY t _
  refine ⟨out, e, by rw [c0]; exact hpos, ?_, ?_⟩
  · rw [c0, c1]
    have d1 := Int.emod_add_ediv (inkSumX t) (inkCount t)
    have d2 := Int.emod_nonneg (inkSumX t) (by omega : inkCount t ≠ 0)
    have d3 := Int.emod_lt_of_pos (inkSumX t) hpos
    have e14 : IMG_WIDTH / 2 = 14 := by decide
    rw [e14]
    constructor <;> nlinarith
  · rw [c0, c2]
    have d1 := Int.emod_add_ediv (inkSumY t) (inkCount t)
    have d2 := Int.emod_nonneg (inkSumY t) (by omega : inkCount t ≠ 0)
    have d3 := Int.emod_lt_of_pos (inkSumY t) hpos
    have e14 : IMG_HEIGHT / 2 = 14 := by decide
    rw [e14]
    constructor <;> nlinarith

theorem noClip_decodeMask (t : Nat) (hm : (massSumsMask t).2.2 ≠ 0) (h : noClipMask t = true) :
    NoClip (decodeMask t) := by
  intro y x hy hx hr
  have hm0 : (massSumsZ (decodeMask t)).2.2 ≠ 0 := by rw [massSumsZ_decodeMask]; exact hm
  rw [comX_eq _ hm0, comY_eq _ hm0, massSumsZ_decodeMask]
  unfold noClipMask at h
  rw [List.all_eq_true] at h
  have h1 := h y (List.mem_range.mpr hy)
  rw [List.all_eq_true] at h1
  have h2 := h1 x (List.mem_range.mpr hx)
  have hb := (readCell_decodeMask t y x hy hx).mp hr
  rw [hb] at h2
  simpa using h2

theorem strokeL_box : boundingBox strokeL = ⟨10, 10, 50, 50⟩ := by decide!

theorem strokeL_run :
    preprocessImage 41 strokeL =
      .ok { strokeL with image_buffer := decodeMask (maskOf (preprocessMask 41 1 2 strokeL)) } :=
  preprocessImage_run 41 1 2 strokeL (List.length_replicate 784 (0 : Int))
    (rasterize_eq_Z_half 41 strokeL (by rw [strokeL_box]; decide) (by rw [strokeL_box]; decide))
    (by decide!)

theorem strokeDiagonal_box : boundingBox strokeDiagonal = ⟨11, 11, 51, 51⟩ := by decide!

theorem strokeDiagonal_scratch :
    rasterize 41 strokeDiagonal = .ok (decodeMask (maskOf (rasterizeMask 41 1 2 strokeDiagonal))) :=
  rasterize_run 41 1 2 strokeDiagonal
    (rasterize_eq_Z_half 41 strokeDiagonal (by rw [strokeDiagonal_box]; decide)
      (by rw [strokeDiagonal_box]; decide))
    (by decide!)

theorem strokeDiagonal_noClip :
    NoClip (decodeMask (maskOf (rasterizeMask 41 1 2 strokeDiagonal))) :=
  noClip_decodeMask _ (by decide!) (by decide!)

/-- The run of preprocessImage on a stroke of at least two points with a positive box, given
its scratch buffer: without clipping the centroid of the image lies in [14, 15) on both axes. -/
theorem preprocessImage_centroid (fuel : Nat) (st : State) (temp : Buffer) (hf : 41 ≤ fuel)
    (hlen : st.image_buffer.length = 784) (hn : 2 ≤ st.point_count) (hbox : PositiveBox st)
    (hr : rasterize fuel st = .ok temp) (hclip : NoClip temp) :
    ∃ image, preprocessImage fuel st = .ok { st with image_buffer := image } ∧
      CentroidNearCentre image ∧
      (14 * inkCount image ≤ inkSumX image ∧ inkSumX image < 15 * inkCount image) ∧
      (14 * inkCount image ≤ inkSumY image ∧ inkSumY image < 15 * inkCount image) := by
  obtain ⟨hx, hy⟩ := boundingBox_positive st hbox
  obtain ⟨t, e, ht, hink⟩ := rasterize_spec fuel hf st hn hx hy
  rw [hr] at e
  cases e
  obtain ⟨out, eo, c0, cx, cy⟩ := centerImage_centroid temp ht hink hclip
  refine ⟨out, ?_, ⟨c0, by omega, by omega, by omega, by omega⟩, cx, cy⟩
  unfold preprocessImage
  rw [fillBackground_eq _ hlen]
  simp only
  rw [if_neg (by omega), if_neg (by omega), hr]
  simp only [eo]

/-- C1 (amended): for every stroke of at least 2 captured points whose bounding box has
positive width and height, when the centering shift moves no ink cell of the scratch buffer
off the canvas, after preprocessImage the mean x and the mean y of the ink cells of
image_buffer lie in [14, 15), so each differs from the centre 14 by less than 1.  For the
L-shaped stroke (10,10), (10,50), (50,50), where the shift clips 8 ink cells, the 76 ink cells
have x-sum 1045 and y-sum 1083, so the means still differ from 14 by less than 1. -/
theorem centroid_near_centre_unclipped :
    (∀ (fuel : Nat) (st : State) (temp : Buffer), 41 ≤ fuel → st.image_buffer.length = 784 →
      2 ≤ st.point_count → PositiveBox st → rasterize fuel st = .ok temp → NoClip temp →
      ∃ image, preprocessImage fuel st = .ok { st with image_buffer := image } ∧
        CentroidNearCentre image ∧
        (14 * inkCount image ≤ inkSumX image ∧ inkSumX image < 15 * inkCount image) ∧
        (14 * inkCount image ≤ inkSumY image ∧ inkSumY image < 15 * inkCount image)) ∧
    ∃ image, preprocessImage 41 strokeL = .ok { strokeL with image_buffer := image } ∧
      (inkCount image = 76 ∧ inkSumX image = 1045 ∧ inkSumY image = 1083) ∧
      CentroidNearCentre image := by
  refine ⟨fun fuel st temp hf hlen hn hbox hr hclip =>
    preprocessImage_centroid fuel st temp hf hlen hn hbox hr hclip, ?_⟩
  have h1 : inkCount (decodeMask (maskOf (preprocessMask 41 1 2 strokeL))) = 76 := by
    unfold inkCount
    rw [inkSum_decodeMask]
    decide!
  have h2 : inkSumX (decodeMask (maskOf (preprocessMask 41 1 2 strokeL))) = 1045 := by
    unfold inkSumX
    rw [inkSum_decodeMask]
    decide!
  have h3 : inkSumY (decodeMask (maskOf (preprocessMask 41 1 2 strokeL))) = 1083 := by
    unfold inkSumY
    rw [inkSum_decodeMask]
    decide!
  refine ⟨_, strokeL_run, ⟨h1, h2, h3⟩, ?_⟩
  unfold CentroidNearCentre
  rw [h1, h2, h3]
  decide

theorem centroid_near_centre_unclipped_witness :
    (41 ≤ 41 ∧ strokeDiagonal.image_buffer.length = 784 ∧ 2 ≤ strokeDiagonal.point_count ∧
      PositiveBox strokeDiagonal ∧
      rasterize 41 strokeDiagonal =
        .ok (decodeMask (maskOf (rasterizeMask 41 1 2 strokeDiagonal))) ∧
      NoClip (decodeMask (maskOf (rasterizeMask 41 1 2 strokeDiagonal)))) ∧
    ∃ image, preprocessImage 41 strokeDiagonal = .ok { strokeDiagonal with image_buffer := image } ∧
      CentroidNearCentre image ∧
      (14 * inkCount image ≤ inkSumX image ∧ inkSumX image < 15 * inkCount image) ∧
      (14 * inkCount image ≤ inkSumY image ∧ inkSumY image < 15 * inkCount image) :=
  ⟨⟨by decide, List.length_replicate 784 (0 : Int), by decide,
      positiveBox_of strokeDiagonal ⟨11, 11⟩ ⟨51, 51⟩ ⟨11, 11⟩ ⟨51, 51⟩
        (by decide) (by decide) (by decide) (by decide) (by decide) (by decide),
      strokeDiagonal_scratch, strokeDiagonal_noClip⟩,
    centroid_near_centre_unclipped.1 41 strokeDiagonal _ (by decide)
      (List.length_replicate 784 (0 : Int)) (by decide)
      (positiveBox_of strokeDiagonal ⟨11, 11⟩ ⟨51, 51⟩ ⟨11, 11⟩ ⟨51, 51⟩
        (by decide) (by decide) (by decide) (by decide) (by decide) (by decide))
      strokeDiagonal_scratch strokeDiagonal_noClip⟩

/-! ## Inference -/

theorem argmax_inv (output : List Int) :
    ∀ n : Nat, ArgmaxInv output n ((List.range n).foldl (argmaxStep output) (-128, -1)) := by
  intro n
  induction n with
  | zero =>
    refine ⟨fun j hj => absurd hj (Nat.not_lt_zero j), Or.inl ⟨rfl, rfl⟩⟩
  | succ n ih =>
    rw [List.range_succ, List.foldl_append]
    simp only [List.foldl_cons, List.foldl_nil]
    generalize (List.range n).foldl (argmaxStep output) (-128, -1) = acc at ih
    obtain ⟨hle, hcase⟩ := ih
    unfold argmaxStep
    by_cases hgt : output.getD n 0 > acc.1
    · rw [if_pos hgt]
      refine ⟨fun j hj => ?_, Or.inr ⟨n, rfl, Nat.lt_succ_self n, rfl, ?_, fun j hj => ?_⟩⟩
      · rcases Nat.lt_succ_iff_lt_or_eq.mp hj with h | h
        · have := hle j h
          simp only
          omega
        · subst h; exact le_refl _
      · simp only
        rcases hcase with ⟨-, h⟩ | ⟨p, -, -, -, h, -⟩ <;> omega
      · have := hle j hj
        simp only
        omega
    · rw [if_neg hgt]
      refine ⟨fun j hj => ?_, ?_⟩
      · rcases Nat.lt_succ_iff_lt_or_eq.mp hj with h | h
        · exact hle j h
        · subst h; omega
      · rcases hcase with h | ⟨p, h1, h2, h3, h4, h5⟩
        · exact Or.inl h
        · exact Or.inr ⟨p, h1, Nat.lt_succ_of_lt h2, h3, h4, h5⟩

theorem perform_real_inference_ok (invoke : Buffer → Invocation) (image : Buffer)
    (hok : (invoke (inputTensor image)).ok = true) :
    perform_real_inference invoke image =
      ((List.range 10).foldl (argmaxStep (invoke (inputTensor image)).scores) (-128, -1)).2 := by
  unfold perform_real_inference
  simp only [hok]
  rfl

/-- C6: when the invocation succeeds and, among the 10 signed 8-bit scores, the entry at k is
strictly greater than every other entry, perform_real_inference returns k. -/
theorem perform_real_inference_strict_max (invoke : Buffer → Invocation) (image : Buffer)
    (k : Nat) (hk : k < 10)
    (hok : (invoke (inputTensor image)).ok = true)
    (hrange : ∀ j, j < 10 → -128 ≤ (invoke (inputTensor image)).scores.getD j 0 ∧
      (invoke (inputTensor image)).scores.getD j 0 ≤ 127)
    (hmax : ∀ j, j < 10 → j ≠ k →
      (invoke (inputTensor image)).scores.getD j 0 <
      (invoke (inputTensor image)).scores.getD k 0) :
    perform_real_inference invoke image = k := by
  rw [perform_real_inference_ok invoke image hok]
  generalize (invoke (inputTensor image)).scores = out at hrange hmax
  obtain ⟨hle, hcase⟩ := argmax_inv out 10
  generalize (List.range 10).foldl (argmaxStep out) (-128, -1) = acc at hle hcase
  have hk1 := hle k hk
  rcases hcase with ⟨-, h⟩ | ⟨p, h1, h2, h3, -, -⟩
  · exfalso
    by_cases h0 : k = 0
    · have := hmax 1 (by omega) (by omega)
      have := (hrange 1 (by omega)).1
      omega
    · have := hmax 0 (by omega) (by omega)
      have := (hrange 0 (by omega)).1
      omega
  · rw [h1]
    by_cases hpk : p = k
    · rw [hpk]
    · exfalso
      have := hmax p h2 hpk
      omega

theorem perform_real_inference_strict_max_witness :
    ((7 : Nat) < 10 ∧
      (fixedScores [-128, -90, 3, -128, 0, 12, -7, 101, 100, -128]
        (inputTensor background)).ok
        = true) ∧
    perform_real_inference (fixedScores [-128, -90, 3, -128, 0, 12, -7, 101, 100, -128]) background
      = (7 : Nat) :=
  ⟨⟨by decide, rfl⟩,
    perform_real_inference_strict_max (fixedScores [-128, -90, 3, -128, 0, 12, -7, 101, 100, -128])
      background 7 (by decide) rfl
      (by
        intro j hj
        have : j = 0 ∨ j = 1 ∨ j = 2 ∨ j = 3 ∨ j = 4 ∨ j = 5 ∨ j = 6 ∨ j = 7 ∨ j = 8 ∨ j = 9 := by
          omega
        rcases this with h | h | h | h | h | h | h | h | h | h <;> subst h <;> decide)
      (by
        intro j hj hne
        have : j = 0 ∨ j = 1 ∨ j = 2 ∨ j = 3 ∨ j = 4 ∨ j = 5 ∨ j = 6 ∨ j = 8 ∨ j = 9 := by
          omega
        rcases this with h | h | h | h | h | h | h | h | h <;> subst h <;> decide)⟩

/-- C5, the failing input: the invocation succeeds with ten scores equal to -128.  The maximum
-128 is first reached at index 0, and perform_real_inference returns -1. -/
theorem perform_real_inference_all_minimal (image : Buffer) :
    (fixedScores (List.replicate 10 (-128))
      (inputTensor image)).ok = true ∧
    (∀ j, j < 10 → (List.replicate 10 (-128 : Int)).getD j 0 ≤ (List.replicate 10 (-128 : Int)).getD 0 0) ∧
    perform_real_inference (fixedScores (List.replicate 10 (-128))) image = -1 := by
  refine ⟨rfl, ?_, ?_⟩
  · intro j hj
    have : j = 0 ∨ j = 1 ∨ j = 2 ∨ j = 3 ∨ j = 4 ∨ j = 5 ∨ j = 6 ∨ j = 7 ∨ j = 8 ∨ j = 9 := by
      omega
    rcases this with h | h | h | h | h | h | h | h | h | h <;> subst h <;> decide
  · rw [perform_real_inference_ok _ _ rfl]
    rfl

/-- C7, the failing input: a failed invocation gives -1 whatever the image and the scores, and
so does the successful invocation whose ten scores all equal -128: there the result is the
sentinel and not a class index in 0..9. -/
theorem perform_real_inference_sentinel (image : Buffer) (scores : List Int) :
    perform_real_inference (failing scores) image = -1 ∧
    ((∀ s ∈ List.replicate 10 (-128 : Int), -128 ≤ s ∧ s ≤ 127) ∧
      (List.replicate 10 (-128 : Int)).length = 10 ∧
      (fixedScores (List.replicate 10 (-128))
        (inputTensor image)).ok = true ∧
      ¬ (0 ≤ perform_real_inference (fixedScores (List.replicate 10 (-128))) image ∧
        perform_real_inference (fixedScores (List.replicate 10 (-128))) image ≤ 9)) := by
  have h : perform_real_inference (fixedScores (List.replicate 10 (-128))) image = -1 := by
    rw [perform_real_inference_ok _ _ rfl]
    rfl
  refine ⟨rfl, ?_, rfl, rfl, ?_⟩
  · intro s hs
    rw [List.eq_of_mem_replicate hs]
    decide
  · rw [h]
    decide

/-- Apart from the all-minimal case the arg-max is as specified: when the invocation succeeds
and some score exceeds -128, the result is the first index holding the maximal score. -/
theorem perform_real_inference_first_max (invoke : Buffer → Invocation) (image : Buffer)
    (hok : (invoke (inputTensor image)).ok = true)
    (hsome : ∃ j, j < 10 ∧ -128 < (invoke (inputTensor image)).scores.getD j 0) :
    ∃ p : Nat, perform_real_inference invoke image = p ∧ p < 10 ∧
      (∀ j, j < 10 → (invoke (inputTensor image)).scores.getD j 0 ≤
        (invoke (inputTensor image)).scores.getD p 0) ∧
      ∀ j, j < p → (invoke (inputTensor image)).scores.getD j 0 <
        (invoke (inputTensor image)).scores.getD p 0 := by
  rw [perform_real_inference_ok invoke image hok]
  generalize (invoke (inputTensor image)).scores = out at hsome
  obtain ⟨hle, hcase⟩ := argmax_inv out 10
  generalize (List.range 10).foldl (argmaxStep out) (-128, -1) = acc at hle hcase
  obtain ⟨j, hj, hjs⟩ := hsome
  rcases hcase with ⟨-, h⟩ | ⟨p, h1, h2, h3, -, h5⟩
  · have := hle j hj
    omega
  · exact ⟨p, h1, h2, fun i hi => by rw [h3]; exact hle i hi, fun i hi => by rw [h3]; exact h5 i hi⟩

/-! ## The capture loop -/

/-- The function preprocessImage only changes image_buffer, which keeps its 784 cells. -/
theorem preprocessImage_frame (fuel : Nat) (st st1 : State) (hlen : st.image_buffer.length = 784)
    (h : preprocessImage fuel st = .ok st1) :
    st1.captured_points = st.captured_points ∧ st1.point_count = st.point_count ∧
      st1.is_drawing = st.is_drawing ∧ st1.image_buffer.length = 784 := by
  unfold preprocessImage at h
  rw [fillBackground_eq _ hlen] at h
  simp only at h
  split_ifs at h with h1 h2
  · cases h; exact ⟨rfl, rfl, rfl, background_length⟩
  · cases h; exact ⟨rfl, rfl, rfl, background_length⟩
  · cases hr : rasterize fuel st with
    | error f => rw [hr] at h; simp at h
    | ok t =>
      rw [hr] at h
      obtain ⟨out, e, i1⟩ := centerImage_inked t background background_length
      simp only [e] at h
      cases h
      exact ⟨rfl, rfl, rfl, i1.1.trans background_length⟩

theorem initialState_ok : StateOk initialState := by
  refine ⟨⟨by decide, by decide⟩, ?_, ?_⟩
  · show (List.replicate MAX_POINTS.toNat (⟨0, 0⟩ : Point)).length = 250
    rw [List.length_replicate]; decide
  · show (List.replicate (IMG_WIDTH * IMG_HEIGHT).toNat (0 : Int)).length = 784
    rw [List.length_replicate, cells_eq]

theorem beginStroke_ok (st : State) (hok : StateOk st) : StateOk (beginStroke st) := by
  unfold beginStroke
  split_ifs
  · refine ⟨⟨le_refl _, ?_⟩, by rw [List.length_map]; exact hok.2.1, hok.2.2⟩
    show (0 : Int) ≤ MAX_POINTS
    decide
  · exact hok

theorem beginStroke_drawing (st : State) (hd : st.is_drawing = true) : beginStroke st = st := by
  unfold beginStroke
  rw [if_neg (by rw [hd]; decide)]

theorem appendSample_ok (s : Sample) (st st1 : State) (hok : StateOk st)
    (h : appendSample s st = .ok st1) : StateOk st1 := by
  obtain ⟨⟨h0, h250⟩, hp, hi⟩ := hok
  unfold appendSample at h
  split_ifs at h with hg
  · unfold writePoint at h
    rw [if_pos ⟨h0, by rw [hp]; have := hg.2.2.2.2; simp only [MAX_POINTS_eq] at this; omega⟩] at h
    cases h
    refine ⟨⟨by show 0 ≤ st.point_count + 1; omega, ?_⟩, by rw [List.length_set]; exact hp, hi⟩
    show st.point_count + 1 ≤ MAX_POINTS
    have := hg.2.2.2.2
    omega
  · cases h
    exact ⟨⟨h0, h250⟩, hp, hi⟩

theorem appendSample_total (s : Sample) (st : State) (hok : StateOk st) :
    ∃ st1, appendSample s st = .ok st1 := by
  obtain ⟨⟨h0, h250⟩, hp, hi⟩ := hok
  unfold appendSample
  split_ifs with hg
  · unfold writePoint
    rw [if_pos ⟨h0, by rw [hp]; have := hg.2.2.2.2; simp only [MAX_POINTS_eq] at this; omega⟩]
    exact ⟨_, rfl⟩
  · exact ⟨_, rfl⟩

theorem appendSample_full (s : Sample) (st : State) (hfull : st.point_count = MAX_POINTS) :
    appendSample s st = .ok st := by
  unfold appendSample
  rw [if_neg (fun hg => by have := hg.2.2.2.2; rw [hfull] at this; exact lt_irrefl _ this)]

theorem endStroke_frame (fuel : Nat) (invoke : Buffer → Invocation) (st st1 : State)
    (hi : st.image_buffer.length = 784) (h : endStroke fuel invoke st = .ok st1) :
    st1.captured_points = st.captured_points ∧ st1.point_count = st.point_count ∧
      st1.image_buffer.length = 784 := by
  unfold endStroke at h
  split_ifs at h with hc
  · unfold processDrawing at h
    cases hpre : preprocessImage fuel { st with is_drawing := false } with
    | error f => rw [hpre] at h; simp at h
    | ok st2 =>
      rw [hpre] at h
      cases h
      have hi2 : ({ st with is_drawing := false } : State).image_buffer.length = 784 := hi
      obtain ⟨f1, f2, -, f4⟩ :=
        preprocessImage_frame fuel ({ st with is_drawing := false } : State) st2 hi2 hpre
      exact ⟨f1, f2, f4⟩
  · cases h
    exact ⟨rfl, rfl, hi⟩

theorem endStroke_total (fuel : Nat) (invoke : Buffer → Invocation) (st : State) (hf : 41 ≤ fuel)
    (hi : st.image_buffer.length = 784) : ∃ st1, endStroke fuel invoke st = .ok st1 := by
  unfold endStroke
  split_ifs with hc
  · unfold processDrawing
    have hi2 : ({ st with is_drawing := false } : State).image_buffer.length = 784 := hi
    obtain ⟨image, e, -⟩ :=
      preprocessImage_spec fuel hf ({ st with is_drawing := false } : State) hi2
    rw [e]
    exact ⟨_, rfl⟩
  · exact ⟨_, rfl⟩

/-- One iteration of loop() keeps the arrays and the bound on point_count. -/
theorem loop_preserves (fuel : Nat) (invoke : Buffer → Invocation) (s : Sample) (st st1 : State)
    (hok : StateOk st) (h : loop fuel invoke s st = .ok st1) : StateOk st1 := by
  unfold loop at h
  split_ifs at h with ht hd
  · exact appendSample_ok s _ st1 (beginStroke_ok st hok) h
  · obtain ⟨f1, f2, f3⟩ := endStroke_frame fuel invoke st st1 hok.2.2 h
    exact ⟨by rw [f2]; exact hok.1, by rw [f1]; exact hok.2.1, f3⟩
  · cases h; exact hok

theorem reachable_ok (fuel : Nat) (invoke : Buffer → Invocation) (st : State)
    (h : Reachable fuel invoke st) : StateOk st := by
  induction h with
  | init => exact initialState_ok
  | step s st st1 _ hstep ih => exact loop_preserves fuel invoke s st st1 ih hstep

/-- From a well-formed state an iteration of loop() returns: no store leaves the arrays and,
with fuel 41, the rasteriser calls return. -/
theorem loop_total (fuel : Nat) (invoke : Buffer → Invocation) (s : Sample) (st : State)
    (hf : 41 ≤ fuel) (hok : StateOk st) : ∃ st1, loop fuel invoke s st = .ok st1 := by
  unfold loop
  split_ifs with ht hd
  · exact appendSample_total s _ (beginStroke_ok st hok)
  · exact endStroke_total fuel invoke st hf hok.2.2
  · exact ⟨_, rfl⟩

/-- With the point array full and a stroke in progress, an iteration of loop() leaves
point_count and captured_points as they are, whatever the sample. -/
theorem loop_full (fuel : Nat) (invoke : Buffer → Invocation) (s : Sample) (st st1 : State)
    (hok : StateOk st) (hd : st.is_drawing = true) (hfull : st.point_count = MAX_POINTS)
    (h : loop fuel invoke s st = .ok st1) :
    st1.point_count = st.point_count ∧ st1.captured_points = st.captured_points := by
  unfold loop at h
  split_ifs at h with ht
  · rw [beginStroke_drawing st hd, appendSample_full s st hfull] at h
    cases h
    exact ⟨rfl, rfl⟩
  · obtain ⟨f1, f2, -⟩ := endStroke_frame fuel invoke st st1 hok.2.2 h
    exact ⟨f2, f1⟩

theorem set_replicate_append (a b : Point) :
    ∀ n m : Nat, (List.replicate n a ++ List.replicate (m + 1) b).set n a =
      List.replicate (n + 1) a ++ List.replicate m b
  | 0, m => by simp [List.replicate_succ]
  | n + 1, m => by
    have ih := set_replicate_append a b n m
    simp only [List.replicate_succ, List.cons_append, List.set_cons_succ] at ih ⊢
    rw [ih]

theorem appendSample_fed (n : Nat) (hn : n < 250) (image : Buffer) (d : Bool) :
    appendSample ⟨true, 100, 100⟩
      { captured_points := List.replicate n ⟨100, 100⟩ ++ List.replicate (250 - n) ⟨0, 0⟩
        point_count := n
        image_buffer := image
        is_drawing := d } =
    .ok { captured_points := List.replicate (n + 1) ⟨100, 100⟩ ++ List.replicate (250 - (n + 1)) ⟨0, 0⟩
          point_count := (n + 1 : Nat)
          image_buffer := image
          is_drawing := d } := by
  have hlen : (List.replicate n (⟨100, 100⟩ : Point) ++ List.replicate (250 - n) (⟨0, 0⟩ : Point)).length = 250 := by
    rw [List.length_append, List.length_replicate, List.length_replicate]; omega
  have e : 250 - n = (250 - (n + 1)) + 1 := by omega
  unfold appendSample writePoint
  dsimp only
  have hg : (100 : Int) > 10 ∧ (100 : Int) < 230 ∧ (100 : Int) > 10 ∧ (100 : Int) < 230 ∧
      (n : Int) < MAX_POINTS := ⟨by decide, by decide, by decide, by decide, by
        rw [MAX_POINTS_eq]; omega⟩
  have hw : (0 : Int) ≤ (n : Int) ∧ (n : Int) <
      ((List.replicate n (⟨100, 100⟩ : Point) ++ List.replicate (250 - n) (⟨0, 0⟩ : Point)).length : Int) :=
    ⟨by omega, by rw [hlen]; omega⟩
  rw [if_pos hg, if_pos hw]
  simp only [Int.toNat_ofNat]
  have hset : (List.replicate n (⟨100, 100⟩ : Point) ++ List.replicate (250 - n) (⟨0, 0⟩ : Point)).set n
      ⟨100, 100⟩ = List.replicate (n + 1) ⟨100, 100⟩ ++ List.replicate (250 - (n + 1)) ⟨0, 0⟩ := by
    conv_lhs => rw [e]
    exact set_replicate_append _ _ n _
  rw [hset]
  have hc : (n : Int) + 1 = ((n + 1 : Nat) : Int) := by push_cast; ring
  rw [hc]

theorem loop_fed (fuel : Nat) (invoke : Buffer → Invocation) (n : Nat) (hn : n < 250) :
    loop fuel invoke ⟨true, 100, 100⟩ (fedState n) = .ok (fedState (n + 1)) := by
  unfold loop
  dsimp only
  rw [if_pos rfl, beginStroke_drawing _ rfl]
  exact appendSample_fed n hn _ true

theorem loop_initial (fuel : Nat) (invoke : Buffer → Invocation) :
    loop fuel invoke ⟨true, 100, 100⟩ initialState = .ok (fedState 1) := by
  unfold loop
  dsimp only
  rw [if_pos rfl]
  have hb : beginStroke initialState =
      { captured_points := List.replicate 0 ⟨100, 100⟩ ++ List.replicate (250 - 0) ⟨0, 0⟩
        point_count := (0 : Nat)
        image_buffer := initialState.image_buffer
        is_drawing := true } := by
    unfold beginStroke
    have hinit : initialState.is_drawing = false := rfl
    rw [if_pos hinit]
    have hpts : initialState.captured_points.map (fun _ => (⟨0, 0⟩ : Point)) =
        List.replicate 0 ⟨100, 100⟩ ++ List.replicate (250 - 0) ⟨0, 0⟩ := by
      show (List.replicate MAX_POINTS.toNat (⟨0, 0⟩ : Point)).map (fun _ => (⟨0, 0⟩ : Point)) = _
      rw [List.map_replicate]
      rfl
    rw [hpts]
    rfl
  rw [hb]
  exact appendSample_fed 0 (by decide) _ true

/-- A stroke in progress with n accepted samples is reachable, for every n in 1..250. -/
theorem reachable_fed (fuel : Nat) (invoke : Buffer → Invocation) :
    ∀ n : Nat, n < 250 → Reachable fuel invoke (fedState (n + 1))
  | 0, _ => Reachable.step _ _ _ Reachable.init (loop_initial fuel invoke)
  | n + 1, h => Reachable.step _ _ _ (reachable_fed fuel invoke n (by omega))
      (loop_fed fuel invoke (n + 1) (by omega))

/-- C8: in every state reachable from the initial state by iterations of loop(),
0 ≤ point_count ≤ MAX_POINTS = 250; an iteration taken while drawing with point_count = 250
leaves point_count and captured_points unchanged, whatever the sample; and with fuel 41 every
iteration returns, so no store leaves the point array. -/
theorem loop_point_count_bounded (fuel : Nat) (invoke : Buffer → Invocation) (st : State)
    (hreach : Reachable fuel invoke st) :
    (0 ≤ st.point_count ∧ st.point_count ≤ MAX_POINTS) ∧
    (∀ (s : Sample) (st1 : State), st.is_drawing = true → st.point_count = MAX_POINTS →
      loop fuel invoke s st = .ok st1 →
      st1.point_count = st.point_count ∧ st1.captured_points = st.captured_points) ∧
    (41 ≤ fuel → ∀ s : Sample, ∃ st1, loop fuel invoke s st = .ok st1) :=
  ⟨(reachable_ok fuel invoke st hreach).1,
    fun s st1 hd hfull h => loop_full fuel invoke s st st1 (reachable_ok fuel invoke st hreach) hd hfull h,
    fun hf s => loop_total fuel invoke s st hf (reachable_ok fuel invoke st hreach)⟩

theorem loop_point_count_bounded_witness :
    Reachable 41 (fixedScores []) (fedState 250) ∧
    ((0 ≤ (fedState 250).point_count ∧ (fedState 250).point_count ≤ MAX_POINTS) ∧
    (∀ (s : Sample) (st1 : State), (fedState 250).is_drawing = true →
      (fedState 250).point_count = MAX_POINTS →
      loop 41 (fixedScores []) s (fedState 250) = .ok st1 →
      st1.point_count = (fedState 250).point_count ∧
        st1.captured_points = (fedState 250).captured_points) ∧
    (41 ≤ 41 → ∀ s : Sample, ∃ st1, loop 41 (fixedScores []) s (fedState 250) = .ok st1)) :=
  ⟨reachable_fed 41 (fixedScores []) 249 (by decide),
    loop_point_count_bounded 41 (fixedScores []) (fedState 250)
      (reachable_fed 41 (fixedScores []) 249 (by decide))⟩

/-! ## The pipeline for a given scale factor -/

theorem rasterize_eq_with (fuel : Nat) (st : State) :
    rasterize fuel st = rasterizeWith (scaleOf (boundingBox st)) fuel st := by
  unfold rasterize rasterizeWith
  rfl

/-- The function preprocessImage is the pipeline for the binary32 scale factor. -/
theorem preprocessImage_eq_with (fuel : Nat) (st : State) :
    preprocessImage fuel st = preprocessImageWith scaleOf fuel st := by
  unfold preprocessImage preprocessImageWith
  rw [rasterize_eq_with]

/-- Two strokes with the same number of points, the same degenerate-box test and the same
remapped coordinates give the same image. -/
theorem preprocessImageWith_congr (scale scale1 : BBox → ℚ) (fuel : Nat) (st st1 : State)
    (hlen : st.image_buffer.length = 784) (hlen1 : st1.image_buffer.length = 784)
    (hn : st1.point_count = st.point_count)
    (hdeg : ((boundingBox st1).maxX = (boundingBox st1).minX ∨
        (boundingBox st1).maxY = (boundingBox st1).minY) ↔
      ((boundingBox st).maxX = (boundingBox st).minX ∨
        (boundingBox st).maxY = (boundingBox st).minY))
    (hre : ∀ i, i < st.point_count.toNat →
      remap (scale1 (boundingBox st1)) (boundingBox st1).minX (pointAt st1 i).x =
        remap (scale (boundingBox st)) (boundingBox st).minX (pointAt st i).x ∧
      remap (scale1 (boundingBox st1)) (boundingBox st1).minY (pointAt st1 i).y =
        remap (scale (boundingBox st)) (boundingBox st).minY (pointAt st i).y)
    (image : Buffer)
    (h : preprocessImageWith scale fuel st = .ok { st with image_buffer := image }) :
    preprocessImageWith scale1 fuel st1 = .ok { st1 with image_buffer := image } := by
  have hr : rasterizeWith (scale1 (boundingBox st1)) fuel st1 =
      rasterizeWith (scale (boundingBox st)) fuel st := by
    unfold rasterizeWith
    rw [hn]
    apply forEach_congr
    intro s i hi
    obtain ⟨h1, h2⟩ := mem_range_one hi
    unfold drawSegment
    rw [(hre i h2).1, (hre i h2).2, (hre (i - 1) (by omega)).1, (hre (i - 1) (by omega)).2]
  unfold preprocessImageWith at h ⊢
  rw [fillBackground_eq _ hlen] at h
  rw [fillBackground_eq _ hlen1, hn, hr]
  simp only at h ⊢
  by_cases h2 : st.point_count < 2
  · rw [if_pos h2] at h ⊢
    cases h
    rfl
  · rw [if_neg h2] at h ⊢
    by_cases hd : (boundingBox st).maxX = (boundingBox st).minX ∨
        (boundingBox st).maxY = (boundingBox st).minY
    · rw [if_pos hd] at h
      rw [if_pos (hdeg.mpr hd)]
      cases h
      rfl
    · rw [if_neg hd] at h
      rw [if_neg (fun hc => hd (hdeg.mp hc))]
      cases hras : rasterizeWith (scale (boundingBox st)) fuel st with
      | error f => rw [hras] at h; simp at h
      | ok t =>
        rw [hras] at h
        simp only at h ⊢
        cases hc : centerImage t background with
        | error f => rw [hc] at h; simp at h
        | ok im =>
          rw [hc] at h
          simp only at h ⊢
          cases h
          rfl

/-! ## The bounding box of a transformed stroke -/

/-- For a non-empty stroke with coordinates in -1..32767 the box is attained: each of its four
sides is a coordinate of some point. -/
theorem foldl_growBox_tight (l : List Point) (hne : ∃ p, p ∈ l)
    (hr : ∀ p ∈ l, (-1 ≤ p.x ∧ p.x ≤ 32767) ∧ (-1 ≤ p.y ∧ p.y ≤ 32767)) :
    (∃ p ∈ l, (l.foldl growBox ⟨32767, 32767, -1, -1⟩).minX = p.x) ∧
    (∃ p ∈ l, (l.foldl growBox ⟨32767, 32767, -1, -1⟩).maxX = p.x) ∧
    (∃ p ∈ l, (l.foldl growBox ⟨32767, 32767, -1, -1⟩).minY = p.y) ∧
    (∃ p ∈ l, (l.foldl growBox ⟨32767, 32767, -1, -1⟩).maxY = p.y) := by
  obtain ⟨p0, hp0⟩ := hne
  have hb := (foldl_growBox_bounds l ⟨32767, 32767, -1, -1⟩).2 p0 hp0
  have hr0 := hr p0 hp0
  obtain ⟨a1, a2, a3, a4⟩ := foldl_growBox_attained l ⟨32767, 32767, -1, -1⟩
  refine ⟨?_, ?_, ?_, ?_⟩
  · rcases a1 with h | h
    · exact ⟨p0, hp0, by simp only at h; omega⟩
    · exact h
  · rcases a2 with h | h
    · exact ⟨p0, hp0, by simp only at h; omega⟩
    · exact h
  · rcases a3 with h | h
    · exact ⟨p0, hp0, by simp only at h; omega⟩
    · exact h
  · rcases a4 with h | h
    · exact ⟨p0, hp0, by simp only at h; omega⟩
    · exact h

/-- The box of a stroke whose coordinates go through monotone maps fx and fy is the image of
the box, as long as both strokes stay in -1..32767. -/
theorem foldl_growBox_map (l : List Point) (fx fy : Int → Int) (hfx : Monotone fx)
    (hfy : Monotone fy) (hne : ∃ p, p ∈ l)
    (hr : ∀ p ∈ l, (-1 ≤ p.x ∧ p.x ≤ 32767) ∧ (-1 ≤ p.y ∧ p.y ≤ 32767))
    (hr1 : ∀ p ∈ l, (-1 ≤ fx p.x ∧ fx p.x ≤ 32767) ∧ (-1 ≤ fy p.y ∧ fy p.y ≤ 32767)) :
    ((l.map fun p => (⟨fx p.x, fy p.y⟩ : Point)).foldl growBox ⟨32767, 32767, -1, -1⟩).minX =
      fx (l.foldl growBox ⟨32767, 32767, -1, -1⟩).minX ∧
    ((l.map fun p => (⟨fx p.x, fy p.y⟩ : Point)).foldl growBox ⟨32767, 32767, -1, -1⟩).maxX =
      fx (l.foldl growBox ⟨32767, 32767, -1, -1⟩).maxX ∧
    ((l.map fun p => (⟨fx p.x, fy p.y⟩ : Point)).foldl growBox ⟨32767, 32767, -1, -1⟩).minY =
      fy (l.foldl growBox ⟨32767, 32767, -1, -1⟩).minY ∧
    ((l.map fun p => (⟨fx p.x, fy p.y⟩ : Point)).foldl growBox ⟨32767, 32767, -1, -1⟩).maxY =
      fy (l.foldl growBox ⟨32767, 32767, -1, -1⟩).maxY := by
  have hne1 : ∃ p, p ∈ l.map fun p => (⟨fx p.x, fy p.y⟩ : Point) := by
    obtain ⟨p, hp⟩ := hne
    exact ⟨_, List.mem_map_of_mem _ hp⟩
  have hrm : ∀ p ∈ l.map fun p => (⟨fx p.x, fy p.y⟩ : Point),
      (-1 ≤ p.x ∧ p.x ≤ 32767) ∧ (-1 ≤ p.y ∧ p.y ≤ 32767) := by
    intro p hp
    obtain ⟨q, hq, rfl⟩ := List.mem_map.mp hp
    exact hr1 q hq
  obtain ⟨⟨p1, m1, e1⟩, ⟨p2, m2, e2⟩, ⟨p3, m3, e3⟩, ⟨p4, m4, e4⟩⟩ := foldl_growBox_tight l hne hr
  obtain ⟨⟨q1, n1, f1⟩, ⟨q2, n2, f2⟩, ⟨q3, n3, f3⟩, ⟨q4, n4, f4⟩⟩ :=
    foldl_growBox_tight _ hne1 hrm
  have hb := (foldl_growBox_bounds l ⟨32767, 32767, -1, -1⟩).2
  have hb1 := (foldl_growBox_bounds (l.map fun p => (⟨fx p.x, fy p.y⟩ : Point))
    ⟨32767, 32767, -1, -1⟩).2
  obtain ⟨r1, hr1m, rfl⟩ := List.mem_map.mp n1
  obtain ⟨r2, hr2m, rfl⟩ := List.mem_map.mp n2
  obtain ⟨r3, hr3m, rfl⟩ := List.mem_map.mp n3
  obtain ⟨r4, hr4m, rfl⟩ := List.mem_map.mp n4
  have i1 := hb1 _ (List.mem_map_of_mem (fun p => (⟨fx p.x, fy p.y⟩ : Point)) m1)
  have i2 := hb1 _ (List.mem_map_of_mem (fun p => (⟨fx p.x, fy p.y⟩ : Point)) m2)
  have i3 := hb1 _ (List.mem_map_of_mem (fun p => (⟨fx p.x, fy p.y⟩ : Point)) m3)
  have i4 := hb1 _ (List.mem_map_of_mem (fun p => (⟨fx p.x, fy p.y⟩ : Point)) m4)
  simp only at i1 i2 i3 i4 f1 f2 f3 f4
  refine ⟨?_, ?_, ?_, ?_⟩
  · apply le_antisymm
    · rw [e1]; exact i1.1
    · rw [f1]; exact hfx (hb r1 hr1m).1
  · apply le_antisymm
    · rw [f2]; exact hfx (hb r2 hr2m).2.1
    · rw [e2]; exact i2.2.1
  · apply le_antisymm
    · rw [e3]; exact i3.2.2.1
    · rw [f3]; exact hfy (hb r3 hr3m).2.2.1
  · apply le_antisymm
    · rw [f4]; exact hfy (hb r4 hr4m).2.2.2
    · rw [e4]; exact i4.2.2.2

theorem pointAt_scaleStroke (k : Int) (st : State) (i : Nat) :
    pointAt (scaleStroke k st) i = ⟨k * (pointAt st i).x, k * (pointAt st i).y⟩ := by
  unfold pointAt scaleStroke
  simp only [List.getD_eq_getElem?_getD, List.getElem?_map]
  cases st.captured_points[i]? with
  | none => simp
  | some p => simp

theorem pointAt_translateStroke (a b : Int) (st : State) (i : Nat)
    (hi : i < st.captured_points.length) :
    pointAt (translateStroke a b st) i = ⟨(pointAt st i).x + a, (pointAt st i).y + b⟩ := by
  unfold pointAt translateStroke
  simp only [List.getD_eq_getElem?_getD, List.getElem?_map, List.getElem?_eq_getElem hi]
  simp

theorem stroke_scaleStroke (k : Int) (st : State) :
    stroke (scaleStroke k st) = (stroke st).map fun p => (⟨k * p.x, k * p.y⟩ : Point) := by
  unfold stroke
  rw [List.map_map]
  apply List.map_congr_left
  intro i _
  exact pointAt_scaleStroke k st i

theorem stroke_translateStroke (a b : Int) (st : State)
    (hcap : st.point_count ≤ st.captured_points.length) :
    stroke (translateStroke a b st) =
      (stroke st).map fun p => (⟨p.x + a, p.y + b⟩ : Point) := by
  unfold stroke
  rw [List.map_map]
  apply List.map_congr_left
  intro i hi
  have hi1 : i < st.point_count.toNat := List.mem_range.mp hi
  exact pointAt_translateStroke a b st i (by omega)

/-! ## Translation of the stroke -/

/-- The box of a translated stroke is the translated box. -/
theorem boundingBox_translateStroke (a b : Int) (st : State) (hn : 2 ≤ st.point_count)
    (hcap : st.point_count ≤ st.captured_points.length)
    (hr : ∀ p ∈ stroke st, (-1 ≤ p.x ∧ p.x ≤ 32767) ∧ (-1 ≤ p.y ∧ p.y ≤ 32767))
    (hr1 : ∀ p ∈ stroke st, (-1 ≤ p.x + a ∧ p.x + a ≤ 32767) ∧ (-1 ≤ p.y + b ∧ p.y + b ≤ 32767)) :
    (boundingBox (translateStroke a b st)).minX = (boundingBox st).minX + a ∧
    (boundingBox (translateStroke a b st)).maxX = (boundingBox st).maxX + a ∧
    (boundingBox (translateStroke a b st)).minY = (boundingBox st).minY + b ∧
    (boundingBox (translateStroke a b st)).maxY = (boundingBox st).maxY + b := by
  rw [boundingBox_eq, boundingBox_eq, stroke_translateStroke a b st hcap]
  exact foldl_growBox_map (stroke st) (fun x => x + a) (fun y => y + b)
    (fun x y h => by simp only; omega) (fun x y h => by simp only; omega)
    (stroke_ne_nil st hn) hr hr1

/-- The scale factor only depends on the width and the height of the box. -/
theorem scaleOf_congr (b b1 : BBox) (hx : b1.maxX - b1.minX = b.maxX - b.minX)
    (hy : b1.maxY - b1.minY = b.maxY - b.minY) : scaleOf b1 = scaleOf b := by
  unfold scaleOf
  rw [hx, hy]

/-- The remapped coordinate only depends on the distance to the box minimum. -/
theorem remap_congr (s : ℚ) (lo c lo1 c1 : Int) (h : c1 - lo1 = c - lo) :
    remap s lo1 c1 = remap s lo c := by
  unfold remap
  rw [h]

/-- C18: for a stroke of at least 2 captured points (held in the point array: point_count does
not exceed its size) and an offset (a, b) such that the points and the translated points all
have coordinates in the capture range 11..229, preprocessImage returns on both strokes, with
the same image_buffer. -/
theorem preprocessImage_translation_invariant (fuel : Nat) (st : State) (a b : Int)
    (hf : 41 ≤ fuel) (hlen : st.image_buffer.length = 784) (hn : 2 ≤ st.point_count)
    (hcap : st.point_count ≤ st.captured_points.length)
    (hr : ∀ p ∈ stroke st, (11 ≤ p.x ∧ p.x ≤ 229) ∧ (11 ≤ p.y ∧ p.y ≤ 229))
    (hr1 : ∀ p ∈ stroke st, (11 ≤ p.x + a ∧ p.x + a ≤ 229) ∧ (11 ≤ p.y + b ∧ p.y + b ≤ 229)) :
    ∃ image, preprocessImage fuel st = .ok { st with image_buffer := image } ∧
      preprocessImage fuel (translateStroke a b st) =
        .ok { translateStroke a b st with image_buffer := image } := by
  obtain ⟨image, e, -⟩ := preprocessImage_spec fuel hf st hlen
  refine ⟨image, e, ?_⟩
  obtain ⟨b1, b2, b3, b4⟩ := boundingBox_translateStroke a b st hn hcap
    (fun p hp => by have := hr p hp; omega) (fun p hp => by have := hr1 p hp; omega)
  have hs : scaleOf (boundingBox (translateStroke a b st)) = scaleOf (boundingBox st) :=
    scaleOf_congr _ _ (by rw [b1, b2]; ring) (by rw [b3, b4]; ring)
  rw [preprocessImage_eq_with] at e ⊢
  refine preprocessImageWith_congr scaleOf scaleOf fuel st (translateStroke a b st) hlen hlen rfl
    ?_ ?_ image e
  · rw [b1, b2, b3, b4]
    constructor
    · rintro (h | h)
      · exact Or.inl (by omega)
      · exact Or.inr (by omega)
    · rintro (h | h)
      · exact Or.inl (by omega)
      · exact Or.inr (by omega)
  · intro i hi
    have hi1 : i < st.captured_points.length := by omega
    rw [hs, pointAt_translateStroke a b st i hi1, b1, b3]
    exact ⟨remap_congr _ _ _ _ _ (by ring), remap_congr _ _ _ _ _ (by ring)⟩

theorem strokeState_capacity (pts : List Point) (image : Buffer) :
    (strokeState pts image).point_count ≤ (strokeState pts image).captured_points.length := by
  unfold strokeState
  simp only [List.length_append, List.length_replicate]
  have : MAX_POINTS.toNat = 250 := by decide
  rw [this]
  omega

theorem preprocessImage_translation_invariant_witness :
    (41 ≤ 41 ∧ strokeDiagonal.image_buffer.length = 784 ∧ 2 ≤ strokeDiagonal.point_count ∧
      strokeDiagonal.point_count ≤ strokeDiagonal.captured_points.length ∧
      (∀ p ∈ stroke strokeDiagonal, (11 ≤ p.x ∧ p.x ≤ 229) ∧ (11 ≤ p.y ∧ p.y ≤ 229)) ∧
      (∀ p ∈ stroke strokeDiagonal,
        (11 ≤ p.x + 5 ∧ p.x + 5 ≤ 229) ∧ (11 ≤ p.y + 7 ∧ p.y + 7 ≤ 229))) ∧
    ∃ image, preprocessImage 41 strokeDiagonal = .ok { strokeDiagonal with image_buffer := image } ∧
      preprocessImage 41 (translateStroke 5 7 strokeDiagonal) =
        .ok { translateStroke 5 7 strokeDiagonal with image_buffer := image } :=
  ⟨⟨by decide, List.length_replicate 784 (0 : Int), by decide,
      strokeState_capacity _ _, by decide, by decide⟩,
    preprocessImage_translation_invariant 41 strokeDiagonal 5 7 (by decide)
      (List.length_replicate 784 (0 : Int)) (by decide) (strokeState_capacity _ _)
      (by decide) (by decide)⟩

/-! ## Scale factors that remap the stroke into 0..20 -/

/-- Multiplying the coordinates by k and dividing the scale factor by k leaves the remapped
coordinate unchanged: the int difference and its k-fold are binary32 values. -/
theorem remap_scaled (s : ℚ) (k lo c : Int) (hk : 0 < k) (h0 : 0 ≤ c - lo)
    (h1 : k * (c - lo) < 2 ^ 24) : remap (s / k) (k * lo) (k * c) = remap s lo c := by
  have hkq : (0 : ℚ) < (k : ℚ) := by exact_mod_cast hk
  have e : k * c - k * lo = k * (c - lo) := by ring
  have hd : c - lo < 2 ^ 24 := by nlinarith
  unfold remap
  rw [e, f32_intCast_of_nonneg _ (mul_nonneg hk.le h0) h1, f32_intCast_of_nonneg _ h0 hd]
  congr 2
  push_cast
  field_simp
  ring

/-- One segment under a scale that remaps the stroke into 0..20: the rasteriser call returns
with fuel 41 and inks the remapped first point. -/
theorem drawSegment_with_spec (scale : ℚ) (fuel : Nat) (hf : 41 ≤ fuel) (st : State)
    (hb : ∀ i, i < st.point_count.toNat →
      (0 ≤ remap scale (boundingBox st).minX (pointAt st i).x ∧
        remap scale (boundingBox st).minX (pointAt st i).x ≤ 20) ∧
      (0 ≤ remap scale (boundingBox st).minY (pointAt st i).y ∧
        remap scale (boundingBox st).minY (pointAt st i).y ≤ 20))
    (i : Nat) (hi : 1 ≤ i ∧ i < st.point_count.toNat) (t : Buffer) (ht : t.length = 784) :
    ∃ t1, drawSegment fuel st (boundingBox st) scale t i = .ok t1 ∧ Inked t t1 ∧
      t1.getD (remap scale (boundingBox st).minY (pointAt st (i - 1)).y * 28 +
        remap scale (boundingBox st).minX (pointAt st (i - 1)).x).toNat 0 = 127 := by
  obtain ⟨⟨a0, a1⟩, ⟨a2, a3⟩⟩ := hb (i - 1) (by omega)
  obtain ⟨⟨c0, c1⟩, ⟨c2, c3⟩⟩ := hb i hi.2
  unfold drawSegment
  obtain ⟨t1, e1, i1, k1⟩ := drawLineOnBuffer_spec fuel
    (remap scale (boundingBox st).minX (pointAt st (i - 1)).x)
    (remap scale (boundingBox st).minY (pointAt st (i - 1)).y)
    (remap scale (boundingBox st).minX (pointAt st i).x)
    (remap scale (boundingBox st).minY (pointAt st i).y) t ht
    (small_isInt32 _ a0 a1) (small_isInt32 _ a2 a3)
    (small_isInt32 _ c0 c1) (small_isInt32 _ c2 c3) (small_span _ _ a0 a1 c0 c1)
    (small_span _ _ a2 a3 c2 c3) (by
    have h1 : |remap scale (boundingBox st).minX (pointAt st i).x -
        remap scale (boundingBox st).minX (pointAt st (i - 1)).x| ≤ 20 := by
      rw [abs_le]; constructor <;> omega
    have h2 : |remap scale (boundingBox st).minY (pointAt st i).y -
        remap scale (boundingBox st).minY (pointAt st (i - 1)).y| ≤ 20 := by
      rw [abs_le]; constructor <;> omega
    have : (41 : Int) ≤ fuel := by exact_mod_cast hf
    linarith)
  exact ⟨t1, e1, i1, k1 ⟨a0, by omega, a2, by omega⟩⟩

/-- The scratch buffer under a scale that remaps the stroke into 0..20: the segment loop
returns with fuel 41, the buffer is two-valued and holds ink. -/
theorem rasterizeWith_spec (scale : ℚ) (fuel : Nat) (hf : 41 ≤ fuel) (st : State)
    (hn : 2 ≤ st.point_count)
    (hb : ∀ i, i < st.point_count.toNat →
      (0 ≤ remap scale (boundingBox st).minX (pointAt st i).x ∧
        remap scale (boundingBox st).minX (pointAt st i).x ≤ 20) ∧
      (0 ≤ remap scale (boundingBox st).minY (pointAt st i).y ∧
        remap scale (boundingBox st).minY (pointAt st i).y ≤ 20)) :
    ∃ t, rasterizeWith scale fuel st = .ok t ∧ TwoValued t ∧ HasInk t := by
  unfold rasterizeWith
  have hlist : List.range' 1 (st.point_count.toNat - 1) =
      1 :: List.range' 2 (st.point_count.toNat - 2) := by
    have : st.point_count.toNat - 1 = (st.point_count.toNat - 2) + 1 := by omega
    rw [this, List.range'_succ]
  have hmem : ∀ i, i ∈ List.range' 2 (st.point_count.toNat - 2) →
      1 ≤ i ∧ i < st.point_count.toNat := by
    intro i hi
    rw [List.mem_range'_1] at hi
    omega
  rw [hlist]
  obtain ⟨t1, e1, i1, k1⟩ := drawSegment_with_spec scale fuel hf st hb 1 (by omega) background
    background_length
  rw [forEach_cons_ok _ e1]
  obtain ⟨t2, e2, i2⟩ := forEach_total (fun t => Inked t1 t)
    (List.range' 2 (st.point_count.toNat - 2)) t1
    (fun s i hi hs => by
      obtain ⟨s1, e, h, -⟩ := drawSegment_with_spec scale fuel hf st hb i (hmem i hi) s
        (hs.1.trans (i1.1.trans background_length))
      exact ⟨s1, e, hs.trans h⟩) (Inked.refl t1)
  refine ⟨t2, e2, twoValued_background.of_inked (i1.trans i2), ?_⟩
  obtain ⟨⟨a0, a1⟩, ⟨a2, a3⟩⟩ := hb (1 - 1) (by omega)
  refine ⟨(remap scale (boundingBox st).minX (pointAt st (1 - 1)).x).toNat,
    (remap scale (boundingBox st).minY (pointAt st (1 - 1)).y).toNat,
    by omega, by omega, ?_⟩
  have := i2.keeps k1
  convert this using 2
  omega

/-- The pipeline returns with fuel 41 when, past the early returns, the scale factor remaps the
stroke into 0..20; its image is two-valued. -/
theorem preprocessImageWith_spec (scale : BBox → ℚ) (fuel : Nat) (hf : 41 ≤ fuel) (st : State)
    (hlen : st.image_buffer.length = 784)
    (hb : (boundingBox st).minX < (boundingBox st).maxX →
      (boundingBox st).minY < (boundingBox st).maxY → ∀ i, i < st.point_count.toNat →
      (0 ≤ remap (scale (boundingBox st)) (boundingBox st).minX (pointAt st i).x ∧
        remap (scale (boundingBox st)) (boundingBox st).minX (pointAt st i).x ≤ 20) ∧
      (0 ≤ remap (scale (boundingBox st)) (boundingBox st).minY (pointAt st i).y ∧
        remap (scale (boundingBox st)) (boundingBox st).minY (pointAt st i).y ≤ 20)) :
    ∃ image, preprocessImageWith scale fuel st = .ok { st with image_buffer := image } ∧
      TwoValued image := by
  unfold preprocessImageWith
  rw [fillBackground_eq _ hlen]
  simp only
  by_cases h2 : st.point_count < 2
  · rw [if_pos h2]; exact ⟨background, rfl, twoValued_background⟩
  · rw [if_neg h2]
    by_cases hd : (boundingBox st).maxX = (boundingBox st).minX ∨
        (boundingBox st).maxY = (boundingBox st).minY
    · rw [if_pos hd]; exact ⟨background, rfl, twoValued_background⟩
    · rw [if_neg hd]
      obtain ⟨hx, hy⟩ := boundingBox_lt_of_ne st (by omega) hd
      obtain ⟨t, e, -, -⟩ := rasterizeWith_spec (scale (boundingBox st)) fuel hf st (by omega)
        (hb hx hy)
      obtain ⟨out, e1, i1⟩ := centerImage_inked t background background_length
      simp only [e, e1]
      exact ⟨out, rfl, twoValued_background.of_inked i1⟩

/-! ## Scaling of the stroke -/

/-- The box of a stroke scaled by k > 0 is the scaled box, for coordinates from 0 on whose
k-fold is representable. -/
theorem boundingBox_scaleStroke (k : Int) (st : State) (hk : 0 < k) (hn : 2 ≤ st.point_count)
    (hr : ∀ p ∈ stroke st, (0 ≤ p.x ∧ k * p.x ≤ 32767) ∧ (0 ≤ p.y ∧ k * p.y ≤ 32767)) :
    (boundingBox (scaleStroke k st)).minX = k * (boundingBox st).minX ∧
    (boundingBox (scaleStroke k st)).maxX = k * (boundingBox st).maxX ∧
    (boundingBox (scaleStroke k st)).minY = k * (boundingBox st).minY ∧
    (boundingBox (scaleStroke k st)).maxY = k * (boundingBox st).maxY := by
  rw [boundingBox_eq, boundingBox_eq, stroke_scaleStroke k st]
  refine foldl_growBox_map (stroke st) (fun x => k * x) (fun y => k * y)
    (fun x y h => mul_le_mul_of_nonneg_left h hk.le)
    (fun x y h => mul_le_mul_of_nonneg_left h hk.le)
    (stroke_ne_nil st hn) (fun p hp => ?_) (fun p hp => ?_)
  · obtain ⟨⟨h1, h2⟩, ⟨h3, h4⟩⟩ := hr p hp
    have hx : p.x ≤ k * p.x := by nlinarith
    have hy : p.y ≤ k * p.y := by nlinarith
    omega
  · obtain ⟨⟨h1, h2⟩, ⟨h3, h4⟩⟩ := hr p hp
    have hx : 0 ≤ k * p.x := mul_nonneg hk.le h1
    have hy : 0 ≤ k * p.y := mul_nonneg hk.le h3
    simp only
    omega

/-- Scaling the stroke by k > 0 leaves the image unchanged for every scale factor that becomes
k times smaller on the scaled box. -/
theorem scaled_image_eq (scale : BBox → ℚ) (fuel : Nat) (st : State) (k : Int)
    (hlen : st.image_buffer.length = 784) (hn : 2 ≤ st.point_count) (hk : 0 < k)
    (hr : ∀ p ∈ stroke st, (0 ≤ p.x ∧ k * p.x ≤ 32767) ∧ (0 ≤ p.y ∧ k * p.y ≤ 32767))
    (hs : scale (boundingBox (scaleStroke k st)) = scale (boundingBox st) / k)
    (image : Buffer)
    (e : preprocessImageWith scale fuel st = .ok { st with image_buffer := image }) :
    preprocessImageWith scale fuel (scaleStroke k st) =
      .ok { scaleStroke k st with image_buffer := image } := by
  obtain ⟨b1, b2, b3, b4⟩ := boundingBox_scaleStroke k st hk hn hr
  refine preprocessImageWith_congr scale scale fuel st (scaleStroke k st) hlen hlen rfl
    ?_ ?_ image e
  · rw [b1, b2, b3, b4]
    constructor
    · rintro (h | h)
      · exact Or.inl (Int.eq_of_mul_eq_mul_left hk.ne' h)
      · exact Or.inr (Int.eq_of_mul_eq_mul_left hk.ne' h)
    · rintro (h | h)
      · exact Or.inl (by rw [h])
      · exact Or.inr (by rw [h])
  · intro i hi
    have hc := boundingBox_contains st _ (pointAt_mem_stroke st i hi)
    have hq := hr _ (pointAt_mem_stroke st i hi)
    obtain ⟨⟨p1, m1, e1⟩, -, ⟨p3, m3, e3⟩, -⟩ :=
      foldl_growBox_tight (stroke st) (stroke_ne_nil st hn)
        (fun p hp => by
          obtain ⟨⟨h1, h2⟩, ⟨h3, h4⟩⟩ := hr p hp
          have hx : p.x ≤ k * p.x := by nlinarith
          have hy : p.y ≤ k * p.y := by nlinarith
          omega)
    rw [← boundingBox_eq] at e1 e3
    have g1 := (hr p1 m1).1.1
    have g3 := (hr p3 m3).2.1
    rw [hs, pointAt_scaleStroke k st i, b1, b3]
    constructor
    · refine remap_scaled _ k _ _ hk (by omega) ?_
      have : k * ((pointAt st i).x - (boundingBox st).minX) =
          k * (pointAt st i).x - k * (boundingBox st).minX := by ring
      have h0 : 0 ≤ k * (boundingBox st).minX := mul_nonneg hk.le (by omega)
      omega
    · refine remap_scaled _ k _ _ hk (by omega) ?_
      have : k * ((pointAt st i).y - (boundingBox st).minY) =
          k * (pointAt st i).y - k * (boundingBox st).minY := by ring
      have h0 : 0 ≤ k * (boundingBox st).minY := mul_nonneg hk.le (by omega)
      omega

/-- The sides of the box of a stroke with coordinates in 0..32767 lie in 0..32767. -/
theorem boundingBox_range (st : State) (hn : 2 ≤ st.point_count)
    (hr : ∀ p ∈ stroke st, (0 ≤ p.x ∧ p.x ≤ 32767) ∧ (0 ≤ p.y ∧ p.y ≤ 32767)) :
    (0 ≤ (boundingBox st).minX ∧ (boundingBox st).maxX ≤ 32767) ∧
      (0 ≤ (boundingBox st).minY ∧ (boundingBox st).maxY ≤ 32767) := by
  obtain ⟨⟨p1, m1, e1⟩, ⟨p2, m2, e2⟩, ⟨p3, m3, e3⟩, ⟨p4, m4, e4⟩⟩ :=
    foldl_growBox_tight (stroke st) (stroke_ne_nil st hn)
      (fun p hp => by have := hr p hp; omega)
  rw [← boundingBox_eq] at e1 e2 e3 e4
  have g1 := hr p1 m1
  have g2 := hr p2 m2
  have g3 := hr p3 m3
  have g4 := hr p4 m4
  exact ⟨⟨by omega, by omega⟩, ⟨by omega, by omega⟩⟩

/-! ## Gestures -/

/-- The function preprocessImage does not read the previous image: from two states that only
differ in image_buffer it produces the same image. -/
theorem preprocessImage_fresh (fuel : Nat) (hf : 41 ≤ fuel) (st : State) (img : Buffer)
    (hlen : st.image_buffer.length = 784) (himg : img.length = 784) :
    ∃ image, preprocessImage fuel st = .ok { st with image_buffer := image } ∧
      preprocessImage fuel { st with image_buffer := img } = .ok { st with image_buffer := image } := by
  obtain ⟨image, e, -⟩ := preprocessImage_spec fuel hf st hlen
  refine ⟨image, e, ?_⟩
  rw [preprocessImage_eq_with] at e ⊢
  exact preprocessImageWith_congr scaleOf scaleOf fuel st { st with image_buffer := img } hlen himg
    rfl Iff.rfl (fun i _ => ⟨rfl, rfl⟩) image e

theorem beginStroke_image (st : State) :
    (beginStroke st).image_buffer = st.image_buffer ∧ (beginStroke st).is_drawing = true ∧
      ∀ img, beginStroke { st with image_buffer := img } =
        { beginStroke st with image_buffer := img } := by
  unfold beginStroke
  by_cases hd : st.is_drawing = false
  · rw [if_pos hd]
    refine ⟨rfl, rfl, fun img => ?_⟩
    rw [if_pos (show ({ st with image_buffer := img } : State).is_drawing = false from hd)]
  · rw [if_neg hd]
    refine ⟨rfl, by simpa using hd, fun img => ?_⟩
    rw [if_neg (show ¬ ({ st with image_buffer := img } : State).is_drawing = false from hd)]

theorem appendSample_image (s : Sample) (st st1 : State) (h : appendSample s st = .ok st1) :
    st1.image_buffer = st.image_buffer ∧ st1.is_drawing = st.is_drawing ∧
      ∀ img, appendSample s { st with image_buffer := img } =
        .ok { st1 with image_buffer := img } := by
  unfold appendSample at h ⊢
  by_cases hg : s.x > 10 ∧ s.x < 230 ∧ s.y > 10 ∧ s.y < 230 ∧ st.point_count < MAX_POINTS
  · rw [if_pos hg] at h
    cases hw : writePoint st.captured_points st.point_count ⟨s.x, s.y⟩ with
    | error f => rw [hw] at h; simp at h
    | ok points =>
      rw [hw] at h
      cases h
      refine ⟨rfl, rfl, fun img => ?_⟩
      dsimp only
      rw [if_pos hg, hw]
  · rw [if_neg hg] at h
    cases h
    refine ⟨rfl, rfl, fun img => ?_⟩
    dsimp only
    rw [if_neg hg]

/-- An iteration that sees a touch leaves image_buffer alone and does not read it; afterwards a
stroke is in progress. -/
theorem loop_touch_image (fuel : Nat) (invoke : Buffer → Invocation) (x y : Int) (st st1 : State)
    (h : loop fuel invoke ⟨true, x, y⟩ st = .ok st1) :
    st1.image_buffer = st.image_buffer ∧ st1.is_drawing = true ∧
      ∀ img, loop fuel invoke ⟨true, x, y⟩ { st with image_buffer := img } =
        .ok { st1 with image_buffer := img } := by
  unfold loop at h ⊢
  dsimp only at h ⊢
  rw [if_pos rfl] at h
  obtain ⟨b1, b2, b3⟩ := beginStroke_image st
  obtain ⟨a1, a2, a3⟩ := appendSample_image _ _ _ h
  refine ⟨a1.trans b1, a2.trans b2, fun img => ?_⟩
  rw [if_pos rfl, b3 img]
  exact a3 img

/-- The touch iterations of a gesture return, keep the state well-formed and image_buffer as
it was, and do not read image_buffer; after at least one of them a stroke is in progress. -/
theorem touches_run (fuel : Nat) (invoke : Buffer → Invocation) (hf : 41 ≤ fuel) :
    ∀ (samples : List (Int × Int)) (st : State), StateOk st →
      ∃ st1, forEach (fun s (p : Int × Int) => loop fuel invoke ⟨true, p.1, p.2⟩ s) samples st =
          .ok st1 ∧
        StateOk st1 ∧ st1.image_buffer = st.image_buffer ∧
        (samples ≠ [] ∨ st.is_drawing = true → st1.is_drawing = true) ∧
        ∀ img, forEach (fun s (p : Int × Int) => loop fuel invoke ⟨true, p.1, p.2⟩ s) samples
          { st with image_buffer := img } = .ok { st1 with image_buffer := img }
  | [], st, hok => ⟨st, rfl, hok, rfl, fun h => h.resolve_left (fun hc => hc rfl), fun _ => rfl⟩
  | p :: rest, st, hok => by
    obtain ⟨st2, e2⟩ := loop_total fuel invoke ⟨true, p.1, p.2⟩ st hf hok
    have hok2 := loop_preserves fuel invoke _ st st2 hok e2
    obtain ⟨i1, i2, i3⟩ := loop_touch_image fuel invoke p.1 p.2 st st2 e2
    obtain ⟨st1, e1, hok1, j1, j2, j3⟩ := touches_run fuel invoke hf rest st2 hok2
    refine ⟨st1, ?_, hok1, j1.trans i1, fun _ => j2 (Or.inr i2), fun img => ?_⟩
    · rw [forEach_cons_ok rest e2]
      exact e1
    · rw [forEach_cons_ok rest (i3 img)]
      exact j3 img

/-- The release iteration: with more than 10 captured points it builds the image from the
captured points alone; otherwise it leaves image_buffer as it was. -/
theorem release_run (fuel : Nat) (invoke : Buffer → Invocation) (hf : 41 ≤ fuel) (st : State)
    (img : Buffer) (hok : StateOk st) (himg : img.length = 784) (hd : st.is_drawing = true) :
    ∃ r, loop fuel invoke ⟨false, 0, 0⟩ st = .ok r ∧ r.point_count = st.point_count ∧
      (10 < st.point_count →
        loop fuel invoke ⟨false, 0, 0⟩ { st with image_buffer := img } = .ok r) ∧
      (st.point_count ≤ 10 → r.image_buffer = st.image_buffer ∧
        loop fuel invoke ⟨false, 0, 0⟩ { st with image_buffer := img } =
          .ok { r with image_buffer := img }) := by
  unfold loop
  dsimp only
  rw [if_neg (by decide), if_pos hd, if_neg (by decide), if_pos hd]
  unfold endStroke
  dsimp only
  by_cases hc : st.point_count > 10
  · rw [if_pos hc, if_pos hc]
    unfold processDrawing
    obtain ⟨image, e, e1⟩ := preprocessImage_fresh fuel hf { st with is_drawing := false } img
      hok.2.2 himg
    dsimp only at e e1 ⊢
    rw [e, e1]
    exact ⟨_, rfl, rfl, fun _ => rfl, fun h => absurd hc (not_lt.mpr h)⟩
  · rw [if_neg hc, if_neg hc]
    exact ⟨_, rfl, rfl, fun h => absurd h hc, fun _ => ⟨rfl, rfl⟩⟩

/-- A gesture from a well-formed state returns.  With more than 10 captured points at the
release, the run from the same state with another image_buffer ends in the same state; with
at most 10, each run ends with the image_buffer it started with. -/
theorem gesture_run (fuel : Nat) (invoke : Buffer → Invocation) (samples : List (Int × Int))
    (st : State) (img : Buffer) (hf : 41 ≤ fuel) (hok : StateOk st) (himg : img.length = 784)
    (hne : samples ≠ []) :
    ∃ r, gesture fuel invoke samples st = .ok r ∧
      (10 < r.point_count →
        gesture fuel invoke samples { st with image_buffer := img } = .ok r) ∧
      (r.point_count ≤ 10 → r.image_buffer = st.image_buffer ∧
        gesture fuel invoke samples { st with image_buffer := img } =
          .ok { r with image_buffer := img }) := by
  obtain ⟨st1, e1, hok1, j1, j2, j3⟩ := touches_run fuel invoke hf samples st hok
  obtain ⟨r, e, hp, h1, h2⟩ := release_run fuel invoke hf st1 img hok1 himg (j2 (Or.inl hne))
  unfold gesture
  rw [e1, j3 img]
  dsimp only
  refine ⟨r, e, fun h => h1 (by rw [← hp]; exact h), fun h => ?_⟩
  obtain ⟨h3, h4⟩ := h2 (by rw [← hp]; exact h)
  exact ⟨h3.trans j1, h4⟩

theorem initialState_image_getD (j : Nat) : initialState.image_buffer.getD j 0 = 0 := by
  show (List.replicate (IMG_WIDTH * IMG_HEIGHT).toNat (0 : Int)).getD j 0 = 0
  rw [List.getD_eq_getElem?_getD]
  exact @List.getElem?_getD_replicate_default_eq Int 0 _ j

/-- The gesture of one touch at (100, 100) from the initial state ends with 1 captured point. -/
theorem gesture_single (fuel : Nat) (invoke : Buffer → Invocation) :
    gesture fuel invoke [(100, 100)] initialState = .ok { fedState 1 with is_drawing := false } := by
  have h1 : (fun s (p : Int × Int) => loop fuel invoke ⟨true, p.1, p.2⟩ s) initialState (100, 100) =
      .ok (fedState 1) := loop_initial fuel invoke
  unfold gesture
  rw [@forEach_cons_ok State (Int × Int)
    (fun s (p : Int × Int) => loop fuel invoke ⟨true, p.1, p.2⟩ s) initialState (fedState 1)
    (100, 100) [] h1, forEach_nil]
  dsimp only
  unfold loop
  dsimp only
  have hd : (fedState 1).is_drawing = true := rfl
  rw [if_neg (by decide), if_pos hd]
  unfold endStroke
  have hc : ¬ (fedState 1).point_count > 10 := by decide
  rw [if_neg hc]

/-- C12 fails: the gesture of a single touch at (100, 100), run from the initial state and from
the state that only differs from it in image_buffer (all cells -128 in place of 0), ends with
different contents of image_buffer. -/
theorem gesture_keeps_stale_image :
    ∃ r r1, gesture 41 (fixedScores []) [(100, 100)] initialState = .ok r ∧
      gesture 41 (fixedScores []) [(100, 100)] { initialState with image_buffer := background } =
        .ok r1 ∧
      r.image_buffer ≠ r1.image_buffer := by
  obtain ⟨r, e, -, h2⟩ := gesture_run 41 (fixedScores []) [(100, 100)] initialState background
    (by decide) initialState_ok background_length (by simp)
  have hr : r = { fedState 1 with is_drawing := false } := by
    have := e.symm.trans (gesture_single 41 (fixedScores []))
    exact Except.ok.inj this
  have hp : r.point_count ≤ 10 := by rw [hr]; decide
  obtain ⟨h3, h4⟩ := h2 hp
  refine ⟨r, _, e, h4, fun hc => ?_⟩
  have h5 : r.image_buffer.getD 0 0 = background.getD 0 0 := congrArg (fun l => l.getD 0 0) hc
  rw [h3, initialState_image_getD, background_getD 0 (by norm_num)] at h5
  exact absurd h5 (by decide)

/-- C12 (amended): a gesture (touch samples, then the release) from a well-formed state
returns.  When more than 10 points are captured at the release, the run that starts from the
same state with any other 784-cell image_buffer ends in the same state, so the image is
rebuilt from the captured points alone; with at most 10 captured points processDrawing is
skipped and each run ends with the image_buffer it started with. -/
theorem gesture_image_rebuilt (fuel : Nat) (invoke : Buffer → Invocation)
    (samples : List (Int × Int)) (st : State) (img : Buffer) (hf : 41 ≤ fuel) (hok : StateOk st)
    (himg : img.length = 784) (hne : samples ≠ []) :
    ∃ r, gesture fuel invoke samples st = .ok r ∧
      (10 < r.point_count →
        gesture fuel invoke samples { st with image_buffer := img } = .ok r) ∧
      (r.point_count ≤ 10 → r.image_buffer = st.image_buffer ∧
        gesture fuel invoke samples { st with image_buffer := img } =
          .ok { r with image_buffer := img }) :=
  gesture_run fuel invoke samples st img hf hok himg hne

/-- An accepted sample is appended: point_count grows by one. -/
theorem appendSample_count (s : Sample) (st st1 : State) (h : appendSample s st = .ok st1)
    (hin : 10 < s.x ∧ s.x < 230 ∧ 10 < s.y ∧ s.y < 230) (hc : st.point_count < 250) :
    st1.point_count = st.point_count + 1 := by
  unfold appendSample at h
  rw [if_pos ⟨hin.1, hin.2.1, hin.2.2.1, hin.2.2.2, hc⟩] at h
  cases hw : writePoint st.captured_points st.point_count ⟨s.x, s.y⟩ with
  | error f => rw [hw] at h; simp at h
  | ok points =>
    rw [hw] at h
    cases h
    rfl

/-- The first touch of a gesture with a sample inside the drawing area leaves one captured
point. -/
theorem loop_first_touch (fuel : Nat) (invoke : Buffer → Invocation) (x y : Int) (st st1 : State)
    (hd : st.is_drawing = false) (hin : 10 < x ∧ x < 230 ∧ 10 < y ∧ y < 230)
    (h : loop fuel invoke ⟨true, x, y⟩ st = .ok st1) : st1.point_count = 1 := by
  unfold loop at h
  dsimp only at h
  rw [if_pos rfl] at h
  have hb : (beginStroke st).point_count = 0 := by
    unfold beginStroke
    rw [if_pos hd]
  have := appendSample_count _ _ _ h hin (by rw [hb]; decide)
  rw [this, hb]
  rfl

/-- A further touch of a gesture with a sample inside the drawing area adds a captured point
while the array has room. -/
theorem loop_next_touch (fuel : Nat) (invoke : Buffer → Invocation) (x y : Int) (st st1 : State)
    (hd : st.is_drawing = true) (hin : 10 < x ∧ x < 230 ∧ 10 < y ∧ y < 230)
    (hc : st.point_count < 250) (h : loop fuel invoke ⟨true, x, y⟩ st = .ok st1) :
    st1.point_count = st.point_count + 1 := by
  unfold loop at h
  dsimp only at h
  rw [if_pos rfl, beginStroke_drawing st hd] at h
  exact appendSample_count _ _ _ h hin hc

/-- The touch iterations of a stroke in progress, with samples inside the drawing area and
room in the array, add one captured point per sample. -/
theorem touches_count (fuel : Nat) (invoke : Buffer → Invocation) (hf : 41 ≤ fuel) :
    ∀ (samples : List (Int × Int)) (st st1 : State), StateOk st → st.is_drawing = true →
      (∀ p ∈ samples, 10 < p.1 ∧ p.1 < 230 ∧ 10 < p.2 ∧ p.2 < 230) →
      st.point_count + samples.length ≤ 250 →
      forEach (fun s (p : Int × Int) => loop fuel invoke ⟨true, p.1, p.2⟩ s) samples st = .ok st1 →
      st1.point_count = st.point_count + samples.length
  | [], st, st1, _, _, _, _, h => by
    cases h
    simp
  | p :: rest, st, st1, hok, hd, hin, hc, h => by
    obtain ⟨st2, e2⟩ := loop_total fuel invoke ⟨true, p.1, p.2⟩ st hf hok
    have hok2 := loop_preserves fuel invoke _ st st2 hok e2
    obtain ⟨-, i2, -⟩ := loop_touch_image fuel invoke p.1 p.2 st st2 e2
    simp only [List.length_cons] at hc ⊢
    push_cast at hc ⊢
    have hn := loop_next_touch fuel invoke p.1 p.2 st st2 hd (hin p (List.mem_cons_self _ _))
      (by omega) e2
    rw [forEach_cons_ok rest e2] at h
    have := touches_count fuel invoke hf rest st2 st1 hok2 i2
      (fun q hq => hin q (List.mem_cons_of_mem _ hq)) (by omega) h
    omega

/-- A gesture that starts with no stroke in progress and whose samples all lie inside the
drawing area ends with as many captured points as it has samples, up to 250. -/
theorem gesture_count (fuel : Nat) (invoke : Buffer → Invocation) (hf : 41 ≤ fuel)
    (p : Int × Int) (rest : List (Int × Int)) (st r : State) (hok : StateOk st)
    (hd : st.is_drawing = false)
    (hin : ∀ q ∈ p :: rest, 10 < q.1 ∧ q.1 < 230 ∧ 10 < q.2 ∧ q.2 < 230)
    (hc : (p :: rest).length ≤ 250) (h : gesture fuel invoke (p :: rest) st = .ok r) :
    r.point_count = (p :: rest).length := by
  obtain ⟨st2, e2⟩ := loop_total fuel invoke ⟨true, p.1, p.2⟩ st hf hok
  have hok2 := loop_preserves fuel invoke _ st st2 hok e2
  obtain ⟨-, i2, -⟩ := loop_touch_image fuel invoke p.1 p.2 st st2 e2
  have h1 := loop_first_touch fuel invoke p.1 p.2 st st2 hd (hin p (List.mem_cons_self _ _)) e2
  obtain ⟨st1, e1, hok1, -, j2, -⟩ := touches_run fuel invoke hf rest st2 hok2
  simp only [List.length_cons] at hc ⊢
  have hn := touches_count fuel invoke hf rest st2 st1 hok2 i2
    (fun q hq => hin q (List.mem_cons_of_mem _ hq)) (by rw [h1]; omega) e1
  obtain ⟨r1, e, hp, -⟩ := release_run fuel invoke hf st1 background hok1 background_length
    (j2 (Or.inr i2))
  unfold gesture at h
  rw [forEach_cons_ok rest e2, e1] at h
  dsimp only at h
  rw [e] at h
  cases h
  rw [hp, hn, h1]
  push_cast
  ring

theorem gesture_image_rebuilt_witness :
    ((41 ≤ 41 ∧ StateOk initialState ∧ background.length = 784 ∧ diagonalSamples ≠ []) ∧
      ∃ r, gesture 41 (fixedScores []) diagonalSamples initialState = .ok r ∧
        r.point_count = 11 ∧
        gesture 41 (fixedScores []) diagonalSamples { initialState with image_buffer := background } =
          .ok r) ∧
    ((41 ≤ 41 ∧ StateOk initialState ∧ background.length = 784 ∧
        ([(100, 100)] : List (Int × Int)) ≠ []) ∧
      ∃ r, gesture 41 (fixedScores []) [(100, 100)] initialState = .ok r ∧
        (r.point_count ≤ 10 → r.image_buffer = initialState.image_buffer ∧
          gesture 41 (fixedScores []) [(100, 100)]
              { initialState with image_buffer := background } =
            .ok { r with image_buffer := background })) := by
  refine ⟨⟨⟨by decide, initialState_ok, background_length, by decide⟩, ?_⟩,
    ⟨⟨by decide, initialState_ok, background_length, by simp⟩, ?_⟩⟩
  · obtain ⟨r, e, h1, -⟩ := gesture_image_rebuilt 41 (fixedScores []) diagonalSamples
      initialState background (by decide) initialState_ok background_length (by decide)
    have hp : r.point_count = 11 :=
      gesture_count 41 (fixedScores []) (by decide) (11, 11) _ initialState r initialState_ok rfl
        (by decide) (by decide) e
    exact ⟨r, e, hp, h1 (by rw [hp]; decide)⟩
  · obtain ⟨r, e, -, h2⟩ := gesture_image_rebuilt 41 (fixedScores []) [(100, 100)]
      initialState background (by decide) initialState_ok background_length (by simp)
    exact ⟨r, e, h2⟩

/-! ## The captured points stay in the drawing area -/

theorem getD_set_point (pts : List Point) (k : Nat) (p : Point) (i : Nat) (hk : k < pts.length) :
    (pts.set k p).getD i ⟨0, 0⟩ = if k = i then p else pts.getD i ⟨0, 0⟩ := by
  simp only [List.getD_eq_getElem?_getD, List.getElem?_set]
  by_cases h : k = i
  · subst h
    simp [hk]
  · simp [h]

theorem initialState_range : PointsInRange initialState := by
  intro i hi
  have h0 : initialState.point_count.toNat = 0 := rfl
  rw [h0] at hi
  exact absurd hi (Nat.not_lt_zero i)

theorem beginStroke_range (st : State) (h : PointsInRange st) : PointsInRange (beginStroke st) := by
  unfold beginStroke
  split_ifs
  · intro i hi
    exact absurd hi (by simp)
  · exact h

theorem appendSample_range (s : Sample) (st st1 : State) (hok : StateOk st) (h : PointsInRange st)
    (e : appendSample s st = .ok st1) : PointsInRange st1 := by
  obtain ⟨⟨h0, h250⟩, hp, -⟩ := hok
  unfold appendSample at e
  split_ifs at e with hg
  · have hlt : st.point_count < 250 := by
      have := hg.2.2.2.2
      simp only [MAX_POINTS_eq] at this
      exact this
    unfold writePoint at e
    rw [if_pos ⟨h0, by rw [hp]; omega⟩] at e
    cases e
    intro i hi
    have hi1 : i < (st.point_count + 1).toNat := hi
    show 10 < ((st.captured_points.set st.point_count.toNat ⟨s.x, s.y⟩).getD i ⟨0, 0⟩).x ∧
      ((st.captured_points.set st.point_count.toNat ⟨s.x, s.y⟩).getD i ⟨0, 0⟩).x < 230 ∧
      10 < ((st.captured_points.set st.point_count.toNat ⟨s.x, s.y⟩).getD i ⟨0, 0⟩).y ∧
      ((st.captured_points.set st.point_count.toNat ⟨s.x, s.y⟩).getD i ⟨0, 0⟩).y < 230
    rw [getD_set_point _ _ _ _ (by omega)]
    by_cases hk : st.point_count.toNat = i
    · rw [if_pos hk]
      exact ⟨hg.1, hg.2.1, hg.2.2.1, hg.2.2.2.1⟩
    · rw [if_neg hk]
      exact h i (by omega)
  · cases e
    exact h

/-- One iteration of loop() keeps the stored points inside the drawing area. -/
theorem loop_range (fuel : Nat) (invoke : Buffer → Invocation) (s : Sample) (st st1 : State)
    (hok : StateOk st) (h : PointsInRange st) (e : loop fuel invoke s st = .ok st1) :
    PointsInRange st1 := by
  unfold loop at e
  split_ifs at e with ht hd
  · exact appendSample_range s _ st1 (beginStroke_ok st hok) (beginStroke_range st h) e
  · obtain ⟨f1, f2, -⟩ := endStroke_frame fuel invoke st st1 hok.2.2 e
    intro i hi
    unfold pointAt
    rw [f1]
    exact h i (by rw [← f2]; exact hi)
  · cases e; exact h

theorem reachable_range (fuel : Nat) (invoke : Buffer → Invocation) (st : State)
    (h : Reachable fuel invoke st) : PointsInRange st := by
  induction h with
  | init => exact initialState_range
  | step s st st1 hr hstep ih =>
    exact loop_range fuel invoke s st st1 (reachable_ok fuel invoke st hr) ih hstep

/-- While a stroke is in progress, a touch sample outside the drawing area leaves the whole
state as it is. -/
theorem loop_rejects (fuel : Nat) (invoke : Buffer → Invocation) (s : Sample) (st : State)
    (hd : st.is_drawing = true) (ht : s.touched = true)
    (hout : ¬ (10 < s.x ∧ s.x < 230 ∧ 10 < s.y ∧ s.y < 230)) :
    loop fuel invoke s st = .ok st := by
  unfold loop
  rw [if_pos ht, beginStroke_drawing st hd]
  unfold appendSample
  rw [if_neg (fun hg => hout ⟨hg.1, hg.2.1, hg.2.2.1, hg.2.2.2.1⟩)]

/-- C16: in every state reachable from the initial state by iterations of loop(), every stored
point captured_points[i], i < point_count, has 10 < x < 230 and 10 < y < 230; and while a
stroke is in progress an iteration whose sample lies outside that range leaves point_count and
captured_points unchanged (a touch sample leaves the whole state unchanged). -/
theorem loop_points_in_range (fuel : Nat) (invoke : Buffer → Invocation) (st : State)
    (hreach : Reachable fuel invoke st) :
    (∀ i : Nat, (i : Int) < st.point_count →
      10 < (pointAt st i).x ∧ (pointAt st i).x < 230 ∧
        10 < (pointAt st i).y ∧ (pointAt st i).y < 230) ∧
    ∀ s : Sample, st.is_drawing = true → ¬ (10 < s.x ∧ s.x < 230 ∧ 10 < s.y ∧ s.y < 230) →
      (s.touched = true → loop fuel invoke s st = .ok st) ∧
      ∀ st1, loop fuel invoke s st = .ok st1 →
        st1.point_count = st.point_count ∧ st1.captured_points = st.captured_points := by
  have hok := reachable_ok fuel invoke st hreach
  refine ⟨fun i hi => reachable_range fuel invoke st hreach i (by omega), fun s hd hout => ?_⟩
  refine ⟨fun ht => loop_rejects fuel invoke s st hd ht hout, fun st1 e => ?_⟩
  by_cases ht : s.touched = true
  · rw [loop_rejects fuel invoke s st hd ht hout] at e
    cases e
    exact ⟨rfl, rfl⟩
  · unfold loop at e
    rw [if_neg ht, if_pos hd] at e
    obtain ⟨f1, f2, -⟩ := endStroke_frame fuel invoke st st1 hok.2.2 e
    exact ⟨f2, f1⟩

theorem loop_points_in_range_witness :
    Reachable 41 (fixedScores []) (fedState 3) ∧
    ((∀ i : Nat, (i : Int) < (fedState 3).point_count →
      10 < (pointAt (fedState 3) i).x ∧ (pointAt (fedState 3) i).x < 230 ∧
        10 < (pointAt (fedState 3) i).y ∧ (pointAt (fedState 3) i).y < 230) ∧
    ∀ s : Sample, (fedState 3).is_drawing = true →
      ¬ (10 < s.x ∧ s.x < 230 ∧ 10 < s.y ∧ s.y < 230) →
      (s.touched = true → loop 41 (fixedScores []) s (fedState 3) = .ok (fedState 3)) ∧
      ∀ st1, loop 41 (fixedScores []) s (fedState 3) = .ok st1 →
        st1.point_count = (fedState 3).point_count ∧
          st1.captured_points = (fedState 3).captured_points) :=
  ⟨reachable_fed 41 (fixedScores []) 2 (by decide),
    loop_points_in_range 41 (fixedScores []) (fedState 3)
      (reachable_fed 41 (fixedScores []) 2 (by decide))⟩

/-! ## The centering pass is a clipped translation -/

/-- The shifts of main.cpp 297-298, computed in float, are 14 minus the floor of the mean ink
coordinate. -/
theorem shift_eq (t : Buffer) (ht : TwoValued t) (hink : HasInk t) :
    IMG_WIDTH / 2 - comX t = centreShiftX t ∧ IMG_HEIGHT / 2 - comY t = centreShiftY t := by
  have hz := massSumsZ_eq t ht
  have hpos := inkCount_pos_of_hasInk hink
  have hm : (massSumsZ t).2.2 ≠ 0 := by rw [hz]; exact hpos.ne'
  rw [comX_eq t hm, comY_eq t hm, hz]
  exact ⟨rfl, rfl⟩

/-- The mass is not zero when the scratch buffer holds ink: the early return of main.cpp 292 is
not taken. -/
theorem mass_ne_zero (t : Buffer) (ht : TwoValued t) (hink : HasInk t) :
    (massSums t).2.2 ≠ 0 := by
  have hz := massSumsZ_eq t ht
  have hpos := inkCount_pos_of_hasInk hink
  rw [(massSums_eq t).1, hz]
  show ((inkCount t : Int) : ℚ) ≠ 0
  exact_mod_cast hpos.ne'

/-- The centering pass on a two-valued scratch buffer that holds ink: the output cell (x1, y1)
holds 127 when (x1 - shiftX, y1 - shiftY) is on the canvas and an ink cell of the scratch buffer,
and -128 otherwise. -/
theorem centerImage_spec (t : Buffer) (ht : TwoValued t) (hink : HasInk t) :
    ∃ image, centerImage t background = .ok image ∧ image.length = 784 ∧
      ∀ x1 y1 : Nat, x1 < 28 → y1 < 28 →
        ((((0 ≤ (x1 : Int) - centreShiftX t ∧ (x1 : Int) - centreShiftX t < 28) ∧
            (0 ≤ (y1 : Int) - centreShiftY t ∧ (y1 : Int) - centreShiftY t < 28)) ∧
            t.getD (((y1 : Int) - centreShiftY t) * 28 + ((x1 : Int) - centreShiftX t)).toNat 0 = 127) →
          image.getD (y1 * 28 + x1) 0 = 127) ∧
        (¬ (((0 ≤ (x1 : Int) - centreShiftX t ∧ (x1 : Int) - centreShiftX t < 28) ∧
            (0 ≤ (y1 : Int) - centreShiftY t ∧ (y1 : Int) - centreShiftY t < 28)) ∧
            t.getD (((y1 : Int) - centreShiftY t) * 28 + ((x1 : Int) - centreShiftX t)).toNat 0 = 127) →
          image.getD (y1 * 28 + x1) 0 = -128) := by
  obtain ⟨sx, sy⟩ := shift_eq t ht hink
  have hm := mass_ne_zero t ht hink
  unfold centerImage
  rw [if_neg hm, sx, sy]
  obtain ⟨out, e, hl, q⟩ := shiftInk_spec t background (centreShiftX t) (centreShiftY t)
    background_length
  refine ⟨out, e, hl, fun x1 y1 hx1 hy1 => ⟨?_, ?_⟩⟩
  · rintro ⟨⟨⟨a0, a1⟩, ⟨c0, c1⟩⟩, hcell⟩
    refine (q (y1 * 28 + x1)).1 ⟨((y1 : Int) - centreShiftY t).toNat, List.mem_range.mpr (by omega),
      ((x1 : Int) - centreShiftX t).toNat, List.mem_range.mpr (by omega), ?_, ?_, ?_⟩
    · rw [readCell_cast]
      have : ((y1 : Int) - centreShiftY t).toNat * 28 + ((x1 : Int) - centreShiftX t).toNat =
          (((y1 : Int) - centreShiftY t) * 28 + ((x1 : Int) - centreShiftX t)).toNat := by omega
      rw [this, hcell]
      decide
    · simp only [IMG_WIDTH_eq, IMG_HEIGHT_eq]
      omega
    · simp only [IMG_WIDTH_eq]
      omega
  · intro hno
    rw [(q (y1 * 28 + x1)).2 ?_, background_getD _ (by omega)]
    rintro ⟨y, hy, x, hx, hsrc, hrange, hidx⟩
    have hy' : y < 28 := List.mem_range.mp hy
    have hx' : x < 28 := List.mem_range.mp hx
    simp only [IMG_WIDTH_eq, IMG_HEIGHT_eq] at hrange hidx
    have ex : (x : Int) = (x1 : Int) - centreShiftX t := by omega
    have ey : (y : Int) = (y1 : Int) - centreShiftY t := by omega
    apply hno
    refine ⟨⟨⟨by omega, by omega⟩, ⟨by omega, by omega⟩⟩, ?_⟩
    rw [← ex, ← ey]
    have h127 := (twoValued_gt_iff ht y x hy' hx').mp hsrc
    rw [readCell_cast] at h127
    have : ((y : Int) * 28 + (x : Int)).toNat = y * 28 + x := by omega
    rw [this]
    exact h127

theorem scratchDot_twoValued : TwoValued scratchDot :=
  twoValued_background.of_inked (inked_set background 0)

theorem scratchDot_hasInk : HasInk scratchDot := by
  refine ⟨0, 0, by decide, by decide, ?_⟩
  unfold scratchDot
  rw [getD_set, if_pos ⟨rfl, by rw [background_length]; decide⟩]

/-- C15: in the mass-centering pass, for every scratch buffer (two-valued, 784 cells) with at
least one ink cell, the shifts computed by the code are shiftX = 14 - floor(sumX / mass) and
shiftY = 14 - floor(sumY / mass), the pass returns, and every cell (x1, y1) of the 28x28 output
holds 127 if and only if (x1 - shiftX, y1 - shiftY) lies inside the grid and is an ink cell of
the scratch buffer; it holds -128 otherwise. -/
theorem centerImage_clipped_translation (t : Buffer) (ht : TwoValued t) (hink : HasInk t) :
    (IMG_WIDTH / 2 - comX t = centreShiftX t ∧ IMG_HEIGHT / 2 - comY t = centreShiftY t) ∧
    ∃ image, centerImage t background = .ok image ∧ image.length = 784 ∧
      ∀ x1 y1 : Nat, x1 < 28 → y1 < 28 →
        (image.getD (y1 * 28 + x1) 0 = 127 ↔
          (((0 ≤ (x1 : Int) - centreShiftX t ∧ (x1 : Int) - centreShiftX t < 28) ∧
            (0 ≤ (y1 : Int) - centreShiftY t ∧ (y1 : Int) - centreShiftY t < 28)) ∧
            t.getD (((y1 : Int) - centreShiftY t) * 28 + ((x1 : Int) - centreShiftX t)).toNat 0 =
              127)) ∧
        (image.getD (y1 * 28 + x1) 0 = 127 ∨ image.getD (y1 * 28 + x1) 0 = -128) := by
  refine ⟨shift_eq t ht hink, ?_⟩
  obtain ⟨image, e, hl, q⟩ := centerImage_spec t ht hink
  refine ⟨image, e, hl, fun x1 y1 hx1 hy1 => ?_⟩
  obtain ⟨q1, q2⟩ := q x1 y1 hx1 hy1
  by_cases hc : (((0 ≤ (x1 : Int) - centreShiftX t ∧ (x1 : Int) - centreShiftX t < 28) ∧
      (0 ≤ (y1 : Int) - centreShiftY t ∧ (y1 : Int) - centreShiftY t < 28)) ∧
      t.getD (((y1 : Int) - centreShiftY t) * 28 + ((x1 : Int) - centreShiftX t)).toNat 0 = 127)
  · exact ⟨⟨fun _ => hc, fun _ => q1 hc⟩, Or.inl (q1 hc)⟩
  · refine ⟨⟨fun h => ?_, fun h => absurd h hc⟩, Or.inr (q2 hc)⟩
    rw [q2 hc] at h
    exact absurd h (by decide)

theorem centerImage_clipped_translation_witness :
    (TwoValued scratchDot ∧ HasInk scratchDot) ∧
    ((IMG_WIDTH / 2 - comX scratchDot = centreShiftX scratchDot ∧
      IMG_HEIGHT / 2 - comY scratchDot = centreShiftY scratchDot) ∧
    ∃ image, centerImage scratchDot background = .ok image ∧ image.length = 784 ∧
      ∀ x1 y1 : Nat, x1 < 28 → y1 < 28 →
        (image.getD (y1 * 28 + x1) 0 = 127 ↔
          (((0 ≤ (x1 : Int) - centreShiftX scratchDot ∧ (x1 : Int) - centreShiftX scratchDot < 28) ∧
            (0 ≤ (y1 : Int) - centreShiftY scratchDot ∧
              (y1 : Int) - centreShiftY scratchDot < 28)) ∧
            scratchDot.getD (((y1 : Int) - centreShiftY scratchDot) * 28 +
              ((x1 : Int) - centreShiftX scratchDot)).toNat 0 = 127)) ∧
        (image.getD (y1 * 28 + x1) 0 = 127 ∨ image.getD (y1 * 28 + x1) 0 = -128)) :=
  ⟨⟨scratchDot_twoValued, scratchDot_hasInk⟩,
    centerImage_clipped_translation scratchDot scratchDot_twoValued scratchDot_hasInk⟩

/-! ## The brush along the stepped pixels -/

theorem inkedWithin_refl (n : Nat) (b : Buffer) : InkedWithin n b b := ⟨rfl, fun _ => Or.inl rfl⟩

theorem inkedWithin_trans {n : Nat} {a b c : Buffer} (h1 : InkedWithin n a b)
    (h2 : InkedWithin n b c) : InkedWithin n a c := by
  refine ⟨h2.1.trans h1.1, fun i => ?_⟩
  rcases h2.2 i with h | h
  · rw [h]; exact h1.2 i
  · exact Or.inr h

theorem inkedWithin_inked {n : Nat} {a b : Buffer} (h : InkedWithin n a b) : Inked a b :=
  ⟨h.1, fun i => (h.2 i).imp id fun h1 => h1.1⟩

/-- The guarded store at a pixel of the columns and rows up to n only inks there. -/
theorem plot_within (n : Nat) (px py : Int) (b : Buffer) (hb : b.length = 784) (hx : px ≤ n)
    (hy : py ≤ n) : ∃ b1, plot px py b = .ok b1 ∧ InkedWithin n b b1 := by
  unfold plot
  by_cases h : px ≥ 0 ∧ px < IMG_WIDTH ∧ py ≥ 0 ∧ py < IMG_HEIGHT
  · rw [if_pos h]
    simp only [IMG_WIDTH_eq, IMG_HEIGHT_eq] at h ⊢
    have h0 : 0 ≤ py * 28 + px := by omega
    have h1 : py * 28 + px < (b.length : Int) := by rw [hb]; omega
    refine ⟨_, writeCell_ok 127 h0 h1, by simp, fun i => ?_⟩
    rw [getD_set]
    split_ifs with hc
    · right
      refine ⟨rfl, ?_, ?_⟩ <;> omega
    · exact Or.inl rfl
  · rw [if_neg h]
    exact ⟨b, rfl, inkedWithin_refl n b⟩

theorem brush_within (n : Nat) (x0 y0 : Int) (b : Buffer) (hb : b.length = 784)
    (hx0 : -2147483648 ≤ x0) (hx : x0 + 1 ≤ n) (hy0 : -2147483648 ≤ y0) (hy : y0 + 1 ≤ n) :
    ∃ b1, brush x0 y0 b = .ok b1 ∧ InkedWithin n b b1 := by
  have wx0 : wrap32 (x0 + 0) ≤ n := by unfold wrap32; omega
  have wx1 : wrap32 (x0 + 1) ≤ n := by unfold wrap32; omega
  have wy0 : wrap32 (y0 + 0) ≤ n := by unfold wrap32; omega
  have wy1 : wrap32 (y0 + 1) ≤ n := by unfold wrap32; omega
  obtain ⟨b1, e1, i1⟩ := plot_within n (wrap32 (x0 + 0)) (wrap32 (y0 + 0)) b hb wx0 wy0
  obtain ⟨b2, e2, i2⟩ := plot_within n (wrap32 (x0 + 0)) (wrap32 (y0 + 1)) b1 (i1.1.trans hb)
    wx0 wy1
  obtain ⟨b3, e3, i3⟩ := plot_within n (wrap32 (x0 + 1)) (wrap32 (y0 + 0)) b2
    (i2.1.trans (i1.1.trans hb)) wx1 wy0
  obtain ⟨b4, e4, i4⟩ := plot_within n (wrap32 (x0 + 1)) (wrap32 (y0 + 1)) b3
    (i3.1.trans (i2.1.trans (i1.1.trans hb))) wx1 wy1
  refine ⟨b4, ?_, inkedWithin_trans (inkedWithin_trans i1 i2) (inkedWithin_trans i3 i4)⟩
  unfold brush
  rw [forEach_cons_ok _ e1, forEach_cons_ok _ e2, forEach_cons_ok _ e3, forEach_cons_ok _ e4]
  rfl

/-- The brush along a list of pixels of the columns and rows below n, with int coordinates: it
returns, only inks cells of the columns and rows up to n, and inks every pixel of the list that
is on the canvas. -/
theorem brushAlong_spec (n : Nat) :
    ∀ (path : List (Int × Int)) (b : Buffer), b.length = 784 →
      (∀ p ∈ path, (-2147483648 ≤ p.1 ∧ p.1 + 1 ≤ n) ∧ (-2147483648 ≤ p.2 ∧ p.2 + 1 ≤ n)) →
      ∃ b1, brushAlong path b = .ok b1 ∧ InkedWithin n b b1 ∧
        ∀ p ∈ path, (0 ≤ p.1 ∧ p.1 < 28 ∧ 0 ≤ p.2 ∧ p.2 < 28) →
          b1.getD (p.2 * 28 + p.1).toNat 0 = 127
  | [], b, _, _ => ⟨b, rfl, inkedWithin_refl n b, fun p hp => by simp at hp⟩
  | q :: rest, b, hb, hr => by
    obtain ⟨⟨q1, q2⟩, ⟨q3, q4⟩⟩ := hr q (List.mem_cons_self _ _)
    obtain ⟨b1, e1, i1⟩ := brush_within n q.1 q.2 b hb q1 q2 q3 q4
    obtain ⟨b1', e1', -, k1⟩ := brush_spec q.1 q.2 b hb
    have hbb : b1' = b1 := Except.ok.inj (e1'.symm.trans e1)
    subst hbb
    obtain ⟨b2, e2, i2, k2⟩ := brushAlong_spec n rest b1' (i1.1.trans hb)
      (fun p hp => hr p (List.mem_cons_of_mem _ hp))
    refine ⟨b2, ?_, inkedWithin_trans i1 i2, fun p hp hc => ?_⟩
    · unfold brushAlong at e2 ⊢
      rw [forEach_cons_ok rest e1]
      exact e2
    · rcases List.mem_cons.mp hp with rfl | hp1
      · exact (inkedWithin_inked i2).keeps (k1 hc)
      · exact k2 p hp1 hc

/-! ## The path of the whole stroke -/

theorem forEach_append {σ ι : Type} (body : σ → ι → Except Fault σ) :
    ∀ (l1 l2 : List ι) (s s1 : σ), forEach body l1 s = .ok s1 →
      forEach body (l1 ++ l2) s = forEach body l2 s1
  | [], l2, s, s1, h => by cases h; rfl
  | i :: rest, l2, s, s1, h => by
    simp only [forEach, List.cons_append] at h ⊢
    cases hb : body s i with
    | error f => rw [hb] at h; simp at h
    | ok s2 =>
      rw [hb] at h
      simp only at h ⊢
      exact forEach_append body rest l2 s2 s1 h

theorem brushAlong_append (l1 l2 : List (Int × Int)) (b b1 : Buffer)
    (h : brushAlong l1 b = .ok b1) : brushAlong (l1 ++ l2) b = brushAlong l2 b1 :=
  forEach_append _ l1 l2 b b1 h

theorem near_refl (p : Int × Int) : Near p p := by
  unfold Near
  simp

theorem Adjacent.near {p q : Int × Int} (h : Adjacent p q) : Near p q := ⟨h.2.1, h.2.2⟩

/-- The trace of one segment of a stroke that is remapped into 0..20: it exists with fuel 41,
runs from the remapped point i-1 to the remapped point i along 8-neighbours in at most 40 steps,
and stays inside 0..20 x 0..20. -/
theorem segmentTrace_spec (scale : ℚ) (fuel : Nat) (hf : 41 ≤ fuel) (st : State)
    (hb : ∀ i, i < st.point_count.toNat →
      (0 ≤ remap scale (boundingBox st).minX (pointAt st i).x ∧
        remap scale (boundingBox st).minX (pointAt st i).x ≤ 20) ∧
      (0 ≤ remap scale (boundingBox st).minY (pointAt st i).y ∧
        remap scale (boundingBox st).minY (pointAt st i).y ≤ 20))
    (i : Nat) (hi : 1 ≤ i ∧ i < st.point_count.toNat) :
    ∃ tail, segmentTrace fuel st (boundingBox st) scale i = some (remapped scale st (i - 1) :: tail) ∧
      List.Chain Adjacent (remapped scale st (i - 1)) tail ∧
      (remapped scale st (i - 1) :: tail).getLast? = some (remapped scale st i) ∧
      tail.length ≤ 40 ∧
      ∀ p ∈ remapped scale st (i - 1) :: tail, (0 ≤ p.1 ∧ p.1 ≤ 20) ∧ (0 ≤ p.2 ∧ p.2 ≤ 20) := by
  obtain ⟨⟨a0, a1⟩, ⟨a2, a3⟩⟩ := hb (i - 1) (by omega)
  obtain ⟨⟨c0, c1⟩, ⟨c2, c3⟩⟩ := hb i hi.2
  have h1 : |remap scale (boundingBox st).minX (pointAt st i).x -
      remap scale (boundingBox st).minX (pointAt st (i - 1)).x| ≤ 20 := by
    rw [abs_le]; constructor <;> omega
  have h2 : |remap scale (boundingBox st).minY (pointAt st i).y -
      remap scale (boundingBox st).minY (pointAt st (i - 1)).y| ≤ 20 := by
    rw [abs_le]; constructor <;> omega
  have h41 : (41 : Int) ≤ fuel := by exact_mod_cast hf
  obtain ⟨tail, e, c, l, n, m⟩ := drawLineTrace_spec fuel
    (remap scale (boundingBox st).minX (pointAt st (i - 1)).x)
    (remap scale (boundingBox st).minY (pointAt st (i - 1)).y)
    (remap scale (boundingBox st).minX (pointAt st i).x)
    (remap scale (boundingBox st).minY (pointAt st i).y)
    (small_isInt32 _ a0 a1) (small_isInt32 _ a2 a3)
    (small_isInt32 _ c0 c1) (small_isInt32 _ c2 c3) (small_span _ _ a0 a1 c0 c1)
    (small_span _ _ a2 a3 c2 c3) (by linarith)
  refine ⟨tail, e, c, l, by omega, fun p hp => ?_⟩
  obtain ⟨⟨m1, m2⟩, ⟨m3, m4⟩⟩ := m p hp
  have n1 := le_min a0 c0
  have n2 := max_le a1 c1
  have n3 := le_min a2 c2
  have n4 := max_le a3 c3
  exact ⟨⟨by omega, by omega⟩, ⟨by omega, by omega⟩⟩

theorem drawSegment_eq_brushAlong (fuel : Nat) (st : State) (b : BBox) (scale : ℚ) (t : Buffer)
    (i : Nat) (path : List (Int × Int)) (h : segmentTrace fuel st b scale i = some path) :
    drawSegment fuel st b scale t i = brushAlong path t :=
  drawLineOnBuffer_eq_brushAlong fuel _ _ _ _ t path h

/-- The traces of the segments s .. s+m-1 of a stroke that is remapped into 0..20: joined, they
form one path from the remapped point s-1 to the remapped point s+m-1 in which consecutive
pixels are equal or 8-neighbours, and the segment loop is the brush applied along that path. -/
theorem joinTraces_spec (scale : ℚ) (fuel : Nat) (hf : 41 ≤ fuel) (st : State)
    (hb : ∀ i, i < st.point_count.toNat →
      (0 ≤ remap scale (boundingBox st).minX (pointAt st i).x ∧
        remap scale (boundingBox st).minX (pointAt st i).x ≤ 20) ∧
      (0 ≤ remap scale (boundingBox st).minY (pointAt st i).y ∧
        remap scale (boundingBox st).minY (pointAt st i).y ≤ 20)) :
    ∀ (m s : Nat), 1 ≤ s → s + m ≤ st.point_count.toNat →
      ∃ path, joinTraces (segmentTrace fuel st (boundingBox st) scale) (List.range' s m) = some path ∧
        List.Chain' Near path ∧
        (0 < m → path.head? = some (remapped scale st (s - 1)) ∧
          path.getLast? = some (remapped scale st (s + m - 1))) ∧
        (∀ p ∈ path, (0 ≤ p.1 ∧ p.1 ≤ 20) ∧ (0 ≤ p.2 ∧ p.2 ≤ 20)) ∧
        ∀ t : Buffer, t.length = 784 →
          forEach (drawSegment fuel st (boundingBox st) scale) (List.range' s m) t =
            brushAlong path t
  | 0, s, _, _ => ⟨[], rfl, List.chain'_nil, fun h => absurd h (lt_irrefl 0),
      fun p hp => by simp at hp, fun _ _ => rfl⟩
  | m + 1, s, hs, hsm => by
    obtain ⟨tail, e, c, l, -, r⟩ := segmentTrace_spec scale fuel hf st hb s ⟨hs, by omega⟩
    obtain ⟨rest, e1, c1, hl1, r1, f1⟩ := joinTraces_spec scale fuel hf st hb m (s + 1)
      (by omega) (by omega)
    have hc : List.Chain' Near (remapped scale st (s - 1) :: tail) :=
      List.Chain.imp (fun _ _ h => h.near) c
    refine ⟨(remapped scale st (s - 1) :: tail) ++ rest, ?_, ?_, fun _ => ⟨rfl, ?_⟩, ?_, ?_⟩
    · rw [List.range'_succ]
      simp only [joinTraces, e, e1]
    · refine hc.append c1 (fun x hx y hy => ?_)
      rw [l] at hx
      cases hx
      by_cases hm : 0 < m
      · rw [(hl1 hm).1] at hy
        cases hy
        exact near_refl _
      · have hm0 : m = 0 := by omega
        subst hm0
        simp only [List.range'_zero, joinTraces] at e1
        cases e1
        simp at hy
    · rw [List.getLast?_append]
      by_cases hm : 0 < m
      · rw [(hl1 hm).2]
        have : s + 1 + m - 1 = s + (m + 1) - 1 := by omega
        rw [this]
        rfl
      · have hm0 : m = 0 := by omega
        subst hm0
        simp only [List.range'_zero, joinTraces] at e1
        cases e1
        rw [l]
        rfl
    · intro p hp
      rcases List.mem_append.mp hp with h | h
      · exact r p h
      · exact r1 p h
    · intro t ht
      rw [List.range'_succ]
      obtain ⟨t1, e2, i2, -⟩ := brushAlong_spec 21 (remapped scale st (s - 1) :: tail) t ht
        (fun p hp => by have := r p hp; omega)
      rw [brushAlong_append _ rest t t1 e2, ← f1 t1 (i2.1.trans ht)]
      have hd := drawSegment_eq_brushAlong fuel st (boundingBox st) scale t s _ e
      rw [e2] at hd
      rw [forEach_cons_ok _ hd]

/-- The stroke drawn into the scratch buffer under a scale that remaps it into 0..20: the
joined trace is one path from the first remapped point to the last in which consecutive pixels
are equal or 8-neighbours; the scratch buffer is the brush applied along it, so every pixel of
the path is an ink cell, and ink only lies in the columns and rows 0..21. -/
theorem strokeTrace_spec (scale : ℚ) (fuel : Nat) (hf : 41 ≤ fuel) (st : State)
    (hn : 2 ≤ st.point_count)
    (hb : ∀ i, i < st.point_count.toNat →
      (0 ≤ remap scale (boundingBox st).minX (pointAt st i).x ∧
        remap scale (boundingBox st).minX (pointAt st i).x ≤ 20) ∧
      (0 ≤ remap scale (boundingBox st).minY (pointAt st i).y ∧
        remap scale (boundingBox st).minY (pointAt st i).y ≤ 20)) :
    ∃ path t, strokeTrace scale fuel st = some path ∧ rasterizeWith scale fuel st = .ok t ∧
      brushAlong path background = .ok t ∧ List.Chain' Near path ∧
      path.head? = some (remapped scale st 0) ∧
      path.getLast? = some (remapped scale st (st.point_count.toNat - 1)) ∧
      (∀ p ∈ path, ((0 ≤ p.1 ∧ p.1 ≤ 20) ∧ (0 ≤ p.2 ∧ p.2 ≤ 20)) ∧
        t.getD (p.2 * 28 + p.1).toNat 0 = 127) ∧
      InkedWithin 21 background t := by
  obtain ⟨path, e, c, hl, r, f⟩ := joinTraces_spec scale fuel hf st hb
    (st.point_count.toNat - 1) 1 le_rfl (by omega)
  obtain ⟨h1, h2⟩ := hl (by omega)
  obtain ⟨t, e2, i2, k2⟩ := brushAlong_spec 21 path background background_length
    (fun p hp => by have := r p hp; omega)
  refine ⟨path, t, e, ?_, e2, c, h1, ?_, fun p hp => ⟨r p hp, ?_⟩, i2⟩
  · unfold rasterizeWith
    rw [f background background_length]
    exact e2
  · rw [h2]
    have : 1 + (st.point_count.toNat - 1) - 1 = st.point_count.toNat - 1 := by omega
    rw [this]
  · have := r p hp
    exact k2 p hp ⟨by omega, by omega, by omega, by omega⟩

/-- The binary32 scale factor remaps every captured point of a stroke with a positive box into
0..20. -/
theorem remapped_bounds (st : State) (hbox : PositiveBox st) :
    ∀ i, i < st.point_count.toNat →
      (0 ≤ remap (scaleOf (boundingBox st)) (boundingBox st).minX (pointAt st i).x ∧
        remap (scaleOf (boundingBox st)) (boundingBox st).minX (pointAt st i).x ≤ 20) ∧
      (0 ≤ remap (scaleOf (boundingBox st)) (boundingBox st).minY (pointAt st i).y ∧
        remap (scaleOf (boundingBox st)) (boundingBox st).minY (pointAt st i).y ≤ 20) := by
  intro i hi
  obtain ⟨hx, hy⟩ := boundingBox_positive st hbox
  exact remap_in_canvas (boundingBox st) _ hx hy
    (boundingBox_contains st _ (pointAt_mem_stroke st i hi))

/-- One iteration of the line loop away from the end point. -/
theorem drawLoopTrace_succ (x1 y1 dx sx dy sy : Int) (fuel : Nat) (x0 y0 err : Int)
    (hend : ¬ (x0 = x1 ∧ y0 = y1)) :
    drawLoopTrace x1 y1 dx sx dy sy (fuel + 1) x0 y0 err =
      (drawLoopTrace x1 y1 dx sx dy sy fuel
        (if wrap32 (2 * err) ≥ dy then wrap32 (x0 + sx) else x0)
        (if wrap32 (2 * err) ≤ dx then wrap32 (y0 + sy) else y0)
        (if wrap32 (2 * err) ≤ dx then
          wrap32 ((if wrap32 (2 * err) ≥ dy then wrap32 (err + dy) else err) + dx)
        else if wrap32 (2 * err) ≥ dy then wrap32 (err + dy) else err)).map
        fun rest => (x0, y0) :: rest := by
  rw [drawLoopTrace, if_neg hend]

/-- The first iteration of drawLineOnBuffer from (0, 0) to (1500000000, 0): dx = 1500000000,
dy = 0, sy = -1 and err = 1500000000; e2 = 2 * err wraps around to -1294967296, which is below
dy, so x0 stays 0; it is at most dx, so err wraps around to -1294967296 and the loop steps to
y0 = -1. -/
theorem drawLineTrace_far (fuel : Nat) :
    drawLineTrace (fuel + 1) 0 0 1500000000 0 =
      (drawLoopTrace 1500000000 0 1500000000 1 0 (-1) fuel 0 (-1) (-1294967296)).map
        fun rest => (0, 0) :: rest := by
  have e1 : wrap32 |wrap32 (1500000000 - 0)| = 1500000000 := by decide
  have e2 : wrap32 (-wrap32 |wrap32 (0 - 0)|) = 0 := by decide
  have e3 : wrap32 (1500000000 + 0) = 1500000000 := by decide
  have e4 : wrap32 (2 * 1500000000) = -1294967296 := by decide
  have e5 : wrap32 (1500000000 + 1500000000) = -1294967296 := by decide
  have e6 : wrap32 (0 + -1) = -1 := by decide
  have s1 : (if (0 : Int) < 1500000000 then (1 : Int) else -1) = 1 := by decide
  have s2 : (if (0 : Int) < 0 then (1 : Int) else -1) = -1 := by decide
  have c1 : ¬ ((-1294967296 : Int) ≥ 0) := by decide
  have c2 : (-1294967296 : Int) ≤ 1500000000 := by decide
  unfold drawLineTrace
  simp only [e1, e2, e3, s1, s2]
  rw [drawLoopTrace_succ _ _ _ _ _ _ fuel 0 0 _ (by decide)]
  simp only [e4, e5, e6, if_neg c1, if_pos c2]

/-- Every later iteration of that call: with err = -1294967296 the value e2 = 2 * err wraps
around to 1705032704, which is at least dy = 0 and above dx = 1500000000, so the loop steps in
x only and leaves err and y0 = -1 as they are: it never reaches the end row 0. -/
theorem drawLoopTrace_far :
    ∀ (fuel : Nat) (x0 : Int),
      drawLoopTrace 1500000000 0 1500000000 1 0 (-1) fuel x0 (-1) (-1294967296) = none
  | 0, _ => rfl
  | fuel + 1, x0 => by
    have e1 : wrap32 (2 * -1294967296) = 1705032704 := by decide
    have e2 : wrap32 (-1294967296 + 0) = -1294967296 := by decide
    have c1 : (1705032704 : Int) ≥ 0 := by decide
    have c2 : ¬ ((1705032704 : Int) ≤ 1500000000) := by decide
    rw [drawLoopTrace_succ _ _ _ _ _ _ fuel x0 (-1) _ (fun h => absurd h.2 (by decide))]
    simp only [e1, e2, if_pos c1, if_neg c2]
    rw [drawLoopTrace_far fuel (wrap32 (x0 + 1))]
    rfl

/-- From (0, 0) to (1500000000, 0) the loop does not reach the exit test, however many
iterations it is given. -/
theorem drawLineTrace_far_none : ∀ fuel : Nat, drawLineTrace fuel 0 0 1500000000 0 = none
  | 0 => rfl
  | fuel + 1 => by
    rw [drawLineTrace_far fuel, drawLoopTrace_far fuel 0]
    rfl

/-- The brush loop of the rasteriser, on buffers, runs out of fuel whenever the trace does. -/
theorem drawLoop_outOfFuel (x1 y1 dx sx dy sy : Int) :
    ∀ (fuel : Nat) (x0 y0 err : Int) (b : Buffer), b.length = 784 →
      drawLoopTrace x1 y1 dx sx dy sy fuel x0 y0 err = none →
      drawLoop x1 y1 dx sx dy sy fuel x0 y0 err b = .error .outOfFuel
  | 0, _, _, _, _, _, _ => rfl
  | fuel + 1, x0, y0, err, b, hb, h => by
    obtain ⟨b1, e1, i1, -⟩ := brush_spec x0 y0 b hb
    unfold drawLoopTrace at h
    simp only [drawLoop, e1]
    by_cases hend : x0 = x1 ∧ y0 = y1
    · rw [if_pos hend] at h
      exact absurd h (by simp)
    · rw [if_neg hend] at h ⊢
      simp only [Option.map_eq_none'] at h
      exact drawLoop_outOfFuel x1 y1 dx sx dy sy fuel _ _ _ b1 (i1.1.trans hb) h

/-- The rasteriser runs out of fuel whenever its trace does. -/
theorem drawLineOnBuffer_outOfFuel (fuel : Nat) (x0 y0 x1 y1 : Int) (b : Buffer)
    (hb : b.length = 784) (h : drawLineTrace fuel x0 y0 x1 y1 = none) :
    drawLineOnBuffer fuel x0 y0 x1 y1 b = .error .outOfFuel :=
  drawLoop_outOfFuel _ _ _ _ _ _ fuel x0 y0 _ b hb h

/-- C13 fails for 32-bit int: from (0, 0) to (1500000000, 0) the first e2 = 2 * err wraps
around and the loop steps to (0, -1); from then on it steps in x only, along the row -1.  The
pixels it steps never arrive at (x1, y1): no number of iterations yields a finished path. -/
theorem drawLineOnBuffer_never_arrives :
    ¬ ∃ (fuel : Nat) (path : List (Int × Int)),
      drawLineTrace fuel 0 0 1500000000 0 = some path := by
  rintro ⟨fuel, path, h⟩
  rw [drawLineTrace_far_none fuel] at h
  exact absurd h (by simp)

/-- C14 fails for 32-bit int: from (0, 0) to (1500000000, 0), where |x1-x0| + |y1-y0| is
1500000000, the first e2 = 2 * err wraps around, the loop steps to (0, -1) and never reaches
the exit test: the call does not return, however many iterations it is given. -/
theorem drawLineOnBuffer_never_returns :
    ¬ ∃ (fuel : Nat) (b1 : Buffer),
      drawLineOnBuffer fuel 0 0 1500000000 0 background = .ok b1 := by
  rintro ⟨fuel, b1, h⟩
  rw [drawLineOnBuffer_outOfFuel fuel 0 0 1500000000 0 background background_length
    (drawLineTrace_far_none fuel)] at h
  exact absurd h (by simp)

/-- C13 (amended): for int end points whose spans |x1-x0| and |y1-y0| are at most 715827882, a
third of the largest int, so that e2 = 2*err does not wrap around, the pixels stepped by
drawLineOnBuffer start at (x0, y0), end at (x1, y1), and consecutive pixels are
distinct and differ by at most 1 in x and in y; the rasteriser applies its brush along exactly
these pixels.  Inside preprocessImage, for a stroke of at least 2 captured points with a
positive box, segment i runs from the remapped point i-1 to the remapped point i, so each
segment starts where the previous one ended, and the joined pixels form one path, connected
through equal or 8-neighbouring pixels, all of them ink cells of the scratch buffer. -/
theorem drawLineOnBuffer_connected :
    (∀ (fuel : Nat) (x0 y0 x1 y1 : Int), IsInt32 x0 ∧ IsInt32 y0 ∧ IsInt32 x1 ∧ IsInt32 y1 →
      |x1 - x0| ≤ 715827882 ∧ |y1 - y0| ≤ 715827882 → |x1 - x0| + |y1 - y0| < fuel →
      ∃ tail, drawLineTrace fuel x0 y0 x1 y1 = some ((x0, y0) :: tail) ∧
        List.Chain Adjacent (x0, y0) tail ∧ ((x0, y0) :: tail).getLast? = some (x1, y1) ∧
        ∀ b, drawLineOnBuffer fuel x0 y0 x1 y1 b = brushAlong ((x0, y0) :: tail) b) ∧
    ∀ (fuel : Nat) (st : State), 41 ≤ fuel → 2 ≤ st.point_count → PositiveBox st →
      (∀ i, 1 ≤ i → i < st.point_count.toNat →
        ∃ tail, segmentTrace fuel st (boundingBox st) (scaleOf (boundingBox st)) i =
            some (remapped (scaleOf (boundingBox st)) st (i - 1) :: tail) ∧
          List.Chain Adjacent (remapped (scaleOf (boundingBox st)) st (i - 1)) tail ∧
          (remapped (scaleOf (boundingBox st)) st (i - 1) :: tail).getLast? =
            some (remapped (scaleOf (boundingBox st)) st i)) ∧
      ∃ path t, strokeTrace (scaleOf (boundingBox st)) fuel st = some path ∧
        rasterize fuel st = .ok t ∧ brushAlong path background = .ok t ∧
        List.Chain' Near path ∧
        path.head? = some (remapped (scaleOf (boundingBox st)) st 0) ∧
        path.getLast? =
          some (remapped (scaleOf (boundingBox st)) st (st.point_count.toNat - 1)) ∧
        ∀ p ∈ path, ((0 ≤ p.1 ∧ p.1 < 28) ∧ (0 ≤ p.2 ∧ p.2 < 28)) ∧
          t.getD (p.2 * 28 + p.1).toNat 0 = 127 := by
  constructor
  · intro fuel x0 y0 x1 y1 hr hs hf
    obtain ⟨tail, e, c, l, -, -⟩ := drawLineTrace_spec fuel x0 y0 x1 y1 hr.1 hr.2.1 hr.2.2.1
      hr.2.2.2 hs.1 hs.2 hf
    exact ⟨tail, e, c, l, fun b => drawLineOnBuffer_eq_brushAlong fuel x0 y0 x1 y1 b _ e⟩
  · intro fuel st hf hn hbox
    have hb := remapped_bounds st hbox
    constructor
    · intro i h1 h2
      obtain ⟨tail, e, c, l, -, -⟩ := segmentTrace_spec _ fuel hf st hb i ⟨h1, h2⟩
      exact ⟨tail, e, c, l⟩
    · obtain ⟨path, t, e, er, eb, c, h1, h2, hp, -⟩ := strokeTrace_spec _ fuel hf st hn hb
      refine ⟨path, t, e, by rw [rasterize_eq_with]; exact er, eb, c, h1, h2, fun p hm => ?_⟩
      obtain ⟨⟨⟨a, b⟩, ⟨c, d⟩⟩, k⟩ := hp p hm
      exact ⟨⟨⟨a, by omega⟩, ⟨c, by omega⟩⟩, k⟩

/-- C14 (amended): for int end points whose spans |x1-x0| and |y1-y0| are at most 715827882,
a third of the largest int, so that e2 = 2*err does not wrap around, the for (;;) loop of drawLineOnBuffer terminates: with room for more than |x1-x0| + |y1-y0|
iterations it reaches the exit test at (x1, y1) after at most |x1-x0| + |y1-y0| steps and
returns.  Inside preprocessImage, for a stroke with a positive box, every rasteriser call takes
at most 40 steps and returns with room for 41 iterations. -/
theorem drawLineOnBuffer_step_bound :
    (∀ (fuel : Nat) (x0 y0 x1 y1 : Int), IsInt32 x0 ∧ IsInt32 y0 ∧ IsInt32 x1 ∧ IsInt32 y1 →
      |x1 - x0| ≤ 715827882 ∧ |y1 - y0| ≤ 715827882 → |x1 - x0| + |y1 - y0| < fuel →
      ∃ tail, drawLineTrace fuel x0 y0 x1 y1 = some ((x0, y0) :: tail) ∧
        ((x0, y0) :: tail).getLast? = some (x1, y1) ∧
        (tail.length : Int) ≤ |x1 - x0| + |y1 - y0| ∧
        ∀ b : Buffer, b.length = 784 → ∃ b1, drawLineOnBuffer fuel x0 y0 x1 y1 b = .ok b1) ∧
    ∀ (st : State) (i : Nat), PositiveBox st → 1 ≤ i → i < st.point_count.toNat →
      ∃ tail, segmentTrace 41 st (boundingBox st) (scaleOf (boundingBox st)) i =
          some (remapped (scaleOf (boundingBox st)) st (i - 1) :: tail) ∧
        tail.length ≤ 40 ∧
        ∀ t : Buffer, t.length = 784 →
          ∃ t1, drawSegment 41 st (boundingBox st) (scaleOf (boundingBox st)) t i = .ok t1 := by
  constructor
  · intro fuel x0 y0 x1 y1 hr hs hf
    obtain ⟨tail, e, -, l, n, -⟩ := drawLineTrace_spec fuel x0 y0 x1 y1 hr.1 hr.2.1 hr.2.2.1
      hr.2.2.2 hs.1 hs.2 hf
    refine ⟨tail, e, l, n, fun b hb => ?_⟩
    obtain ⟨b1, e1, -⟩ := drawLineOnBuffer_spec fuel x0 y0 x1 y1 b hb hr.1 hr.2.1 hr.2.2.1
      hr.2.2.2 hs.1 hs.2 hf
    exact ⟨b1, e1⟩
  · intro st i hbox h1 h2
    have hb := remapped_bounds st hbox
    obtain ⟨tail, e, -, -, n, -⟩ := segmentTrace_spec _ 41 le_rfl st hb i ⟨h1, h2⟩
    refine ⟨tail, e, n, fun t ht => ?_⟩
    obtain ⟨t1, e1, -⟩ := drawSegment_with_spec _ 41 le_rfl st hb i ⟨h1, h2⟩ t ht
    exact ⟨t1, e1⟩

/-! ## The centering shift keeps some ink on the canvas -/

/-- Among cells with a coordinate g in 0..21, fewer than half are moved off the canvas 0..27 by
the shift 14 - floor(mean of g). -/
theorem few_clipped (S : Finset (ℕ × ℕ)) (g : ℕ × ℕ → ℤ) (hg : ∀ p ∈ S, 0 ≤ g p ∧ g p ≤ 21)
    (hS : 0 < S.card) :
    2 * ((S.filter fun p => ¬ (0 ≤ g p + (14 - (∑ q ∈ S, g q) / S.card) ∧
      g p + (14 - (∑ q ∈ S, g q) / S.card) < 28)).card : ℤ) < S.card := by
  have hn : (0 : ℤ) < S.card := by exact_mod_cast hS
  have hT0 : 0 ≤ ∑ q ∈ S, g q := Finset.sum_nonneg fun p hp => (hg p hp).1
  have hT1 : ∑ q ∈ S, g q ≤ 21 * S.card := by
    have := Finset.sum_le_sum (fun p hp => (hg p hp).2)
    simpa [Finset.sum_const, mul_comm] using this
  have hdiv := Int.ediv_add_emod (∑ q ∈ S, g q) S.card
  have hmod0 := Int.emod_nonneg (∑ q ∈ S, g q) hn.ne'
  have hmod1 := Int.emod_lt_of_pos (∑ q ∈ S, g q) hn
  generalize hc : (∑ q ∈ S, g q) / (S.card : ℤ) = c at hdiv ⊢
  generalize hr : (∑ q ∈ S, g q) % (S.card : ℤ) = r at hdiv hmod0 hmod1
  have hc0 : 0 ≤ c := by
    by_contra hcon
    have : (S.card : ℤ) * c ≤ (S.card : ℤ) * (-1) := mul_le_mul_of_nonneg_left (by omega) hn.le
    omega
  have hc1 : c ≤ 21 := by
    by_contra hcon
    have : (S.card : ℤ) * 22 ≤ (S.card : ℤ) * c := mul_le_mul_of_nonneg_left (by omega) hn.le
    omega
  set B := S.filter fun p => ¬ (0 ≤ g p + (14 - c) ∧ g p + (14 - c) < 28) with hB
  have hsub : B ⊆ S := Finset.filter_subset _ _
  by_cases hA : 15 ≤ c
  · -- cells moved off to the left
    have h1 : B.card • (36 - c) ≤ ∑ p ∈ B, (21 - g p) := by
      apply Finset.card_nsmul_le_sum
      intro p hp
      have hp1 := (Finset.mem_filter.mp hp)
      have := hg p hp1.1
      have hbad := hp1.2
      by_contra hcon
      exact hbad ⟨by omega, by omega⟩
    have h2 : ∑ p ∈ B, (21 - g p) ≤ ∑ p ∈ S, (21 - g p) :=
      Finset.sum_le_sum_of_subset_of_nonneg hsub fun p hp _ => by have := hg p hp; omega
    have h3 : ∑ p ∈ S, (21 - g p) = 21 * S.card - ∑ q ∈ S, g q := by
      rw [Finset.sum_sub_distrib, Finset.sum_const]
      simp [mul_comm]
    rw [nsmul_eq_mul] at h1
    have h4 : (B.card : ℤ) * (36 - c) ≤ 21 * S.card - (S.card * c + r) := by
      rw [hdiv]; linarith
    have hb0 : (0 : ℤ) ≤ B.card := by positivity
    interval_cases c <;> omega
  · by_cases hC : c ≤ 7
    · -- cells moved off to the right
      have h1 : B.card • (c + 14) ≤ ∑ p ∈ B, g p := by
        apply Finset.card_nsmul_le_sum
        intro p hp
        have hp1 := (Finset.mem_filter.mp hp)
        have := hg p hp1.1
        have hbad := hp1.2
        by_contra hcon
        exact hbad ⟨by omega, by omega⟩
      have h2 : ∑ p ∈ B, g p ≤ ∑ p ∈ S, g p :=
        Finset.sum_le_sum_of_subset_of_nonneg hsub fun p hp _ => (hg p hp).1
      rw [nsmul_eq_mul] at h1
      have h4 : (B.card : ℤ) * (c + 14) ≤ S.card * c + r := by
        rw [hdiv]; linarith
      have hb0 : (0 : ℤ) ≤ B.card := by positivity
      interval_cases c <;> omega
    · have hempty : B = ∅ := by
        apply Finset.filter_eq_empty_iff.mpr
        intro p hp
        have := hg p hp
        simp only [not_not]
        exact ⟨by omega, by omega⟩
      rw [hempty]
      simpa using hn

/-- When fewer than half of the cells fail one test and fewer than half fail another, some cell
passes both. -/
theorem exists_pass_both (S : Finset (ℕ × ℕ)) (P Q : ℕ × ℕ → Prop) [DecidablePred P]
    [DecidablePred Q] (hP : 2 * ((S.filter fun p => ¬ P p).card : ℤ) < S.card)
    (hQ : 2 * ((S.filter fun p => ¬ Q p).card : ℤ) < S.card) : ∃ p ∈ S, P p ∧ Q p := by
  by_contra hcon
  push_neg at hcon
  have hsub : S ⊆ (S.filter fun p => ¬ P p) ∪ (S.filter fun p => ¬ Q p) := by
    intro p hp
    by_cases h : P p
    · exact Finset.mem_union_right _ (Finset.mem_filter.mpr ⟨hp, hcon p hp h⟩)
    · exact Finset.mem_union_left _ (Finset.mem_filter.mpr ⟨hp, h⟩)
  have h1 := Finset.card_le_card hsub
  have h2 := Finset.card_union_le (S.filter fun p => ¬ P p) (S.filter fun p => ¬ Q p)
  have h3 : (S.card : ℤ) ≤ ((S.filter fun p => ¬ P p).card : ℤ) + (S.filter fun p => ¬ Q p).card := by
    exact_mod_cast h1.trans h2
  omega

/-- The scratch buffer of a stroke of at least two points with a positive box holds ink, and
only in the columns and rows 0..21. -/
theorem rasterize_ink (fuel : Nat) (hf : 41 ≤ fuel) (st : State) (hn : 2 ≤ st.point_count)
    (hbox : PositiveBox st) :
    ∃ t, rasterize fuel st = .ok t ∧ TwoValued t ∧ HasInk t ∧
      ∀ x y : Nat, x < 28 → y < 28 → t.getD (y * 28 + x) 0 = 127 → x ≤ 21 ∧ y ≤ 21 := by
  obtain ⟨path, t, -, er, -, -, h1, -, hp, iw⟩ :=
    strokeTrace_spec _ fuel hf st hn (remapped_bounds st hbox)
  refine ⟨t, by rw [rasterize_eq_with]; exact er,
    twoValued_background.of_inked (inkedWithin_inked iw), ?_, fun x y hx hy h => ?_⟩
  · have hm : remapped (scaleOf (boundingBox st)) st 0 ∈ path := List.mem_of_mem_head? h1
    obtain ⟨⟨⟨a, b⟩, ⟨c, d⟩⟩, k⟩ := hp _ hm
    refine ⟨(remapped (scaleOf (boundingBox st)) st 0).1.toNat,
      (remapped (scaleOf (boundingBox st)) st 0).2.toNat, by omega, by omega, ?_⟩
    convert k using 2
    omega
  · rcases iw.2 (y * 28 + x) with h2 | ⟨-, h3, h4⟩
    · rw [h, background_getD _ (by omega)] at h2
      exact absurd h2 (by decide)
    · omega

/-- The centering pass keeps ink on the canvas when the ink of the scratch buffer lies in the
columns and rows 0..21: fewer than half of the ink cells leave on either axis. -/
theorem centerImage_keeps_ink (t : Buffer) (ht : TwoValued t) (hink : HasInk t)
    (hreg : ∀ x y : Nat, x < 28 → y < 28 → t.getD (y * 28 + x) 0 = 127 → x ≤ 21 ∧ y ≤ 21) :
    ∃ image, centerImage t background = .ok image ∧ HasInk image := by
  obtain ⟨image, e, -, q⟩ := centerImage_spec t ht hink
  refine ⟨image, e, ?_⟩
  have hpos := inkCount_pos_of_hasInk hink
  have hcard := inkCount_eq_card t
  have hS : 0 < (inkCells t).card := by
    rw [hcard] at hpos
    exact_mod_cast hpos
  have hcell : ∀ p ∈ inkCells t, (p.1 < 28 ∧ p.2 < 28) ∧ t.getD (p.1 * 28 + p.2) 0 = 127 := by
    intro p hp
    have := (mem_inkCells t p).mp hp
    rw [readCell_cast] at this
    exact this
  have hX := few_clipped (inkCells t) (fun p => (p.2 : ℤ))
    (fun p hp => by
      obtain ⟨⟨h1, h2⟩, h3⟩ := hcell p hp
      have := hreg p.2 p.1 h2 h1 h3
      simp only
      omega) hS
  have hY := few_clipped (inkCells t) (fun p => (p.1 : ℤ))
    (fun p hp => by
      obtain ⟨⟨h1, h2⟩, h3⟩ := hcell p hp
      have := hreg p.2 p.1 h2 h1 h3
      simp only
      omega) hS
  have eX : ∑ q ∈ inkCells t, (q.2 : ℤ) = inkSumX t := by
    unfold inkSumX
    rw [inkSum_eq_sum]
  have eY : ∑ q ∈ inkCells t, (q.1 : ℤ) = inkSumY t := by
    unfold inkSumY
    rw [inkSum_eq_sum]
  simp only [eX, eY] at hX hY
  obtain ⟨p, hp, ⟨x0, x1⟩, ⟨y0, y1⟩⟩ := exists_pass_both (inkCells t)
    (fun p => 0 ≤ (p.2 : ℤ) + (14 - inkSumX t / ((inkCells t).card : ℤ)) ∧
      (p.2 : ℤ) + (14 - inkSumX t / ((inkCells t).card : ℤ)) < 28)
    (fun p => 0 ≤ (p.1 : ℤ) + (14 - inkSumY t / ((inkCells t).card : ℤ)) ∧
      (p.1 : ℤ) + (14 - inkSumY t / ((inkCells t).card : ℤ)) < 28) hX hY
  rw [← hcard] at x0 x1 y0 y1
  obtain ⟨⟨h1, h2⟩, h3⟩ := hcell p hp
  refine ⟨((p.2 : ℤ) + centreShiftX t).toNat, ((p.1 : ℤ) + centreShiftY t).toNat, ?_, ?_, ?_⟩
  · unfold centreShiftX; omega
  · unfold centreShiftY; omega
  · have hx0 : 0 ≤ (p.2 : ℤ) + centreShiftX t := x0
    have hx1 : (p.2 : ℤ) + centreShiftX t < 28 := x1
    have hy0 : 0 ≤ (p.1 : ℤ) + centreShiftY t := y0
    have hy1 : (p.1 : ℤ) + centreShiftY t < 28 := y1
    refine (q ((p.2 : ℤ) + centreShiftX t).toNat ((p.1 : ℤ) + centreShiftY t).toNat
      (by omega) (by omega)).1 ⟨⟨⟨by omega, by omega⟩, ⟨by omega, by omega⟩⟩, ?_⟩
    have : ((((p.1 : ℤ) + centreShiftY t).toNat : ℤ) - centreShiftY t) * 28 +
        ((((p.2 : ℤ) + centreShiftX t).toNat : ℤ) - centreShiftX t) = ((p.1 * 28 + p.2 : ℕ) : ℤ) := by
      push_cast
      omega
    rw [this, Int.toNat_ofNat]
    exact h3

/-- C17: for every stroke of at least 2 captured points with a bounding box of positive width
and height, preprocessImage returns and image_buffer holds at least one cell equal to 127: the
scratch buffer holds ink, so the total mass is not 0 and the early return of main.cpp 292 is
not taken, and the clipping of the centering shift leaves some ink cell on the canvas. -/
theorem preprocessImage_has_ink (fuel : Nat) (st : State) (hf : 41 ≤ fuel)
    (hlen : st.image_buffer.length = 784) (hn : 2 ≤ st.point_count) (hbox : PositiveBox st) :
    ∃ temp image, rasterize fuel st = .ok temp ∧ (massSums temp).2.2 ≠ 0 ∧
      preprocessImage fuel st = .ok { st with image_buffer := image } ∧
      ∃ x y : Nat, x < 28 ∧ y < 28 ∧ image.getD (y * 28 + x) 0 = 127 := by
  obtain ⟨hx, hy⟩ := boundingBox_positive st hbox
  obtain ⟨t, e, ht, hink, hreg⟩ := rasterize_ink fuel hf st hn hbox
  obtain ⟨image, ec, hi⟩ := centerImage_keeps_ink t ht hink hreg
  refine ⟨t, image, e, mass_ne_zero t ht hink, ?_, hi⟩
  unfold preprocessImage
  rw [fillBackground_eq _ hlen]
  simp only
  rw [if_neg (by omega), if_neg (by omega), e]
  simp only [ec]

theorem preprocessImage_has_ink_witness :
    (41 ≤ 41 ∧ strokeL.image_buffer.length = 784 ∧ 2 ≤ strokeL.point_count ∧ PositiveBox strokeL) ∧
    ∃ temp image, rasterize 41 strokeL = .ok temp ∧ (massSums temp).2.2 ≠ 0 ∧
      preprocessImage 41 strokeL = .ok { strokeL with image_buffer := image } ∧
      ∃ x y : Nat, x < 28 ∧ y < 28 ∧ image.getD (y * 28 + x) 0 = 127 :=
  ⟨⟨by decide, List.length_replicate 784 (0 : Int), by decide,
      positiveBox_of strokeL ⟨10, 10⟩ ⟨50, 50⟩ ⟨10, 10⟩ ⟨50, 50⟩
        (by decide) (by decide) (by decide) (by decide) (by decide) (by decide)⟩,
    preprocessImage_has_ink 41 strokeL (by decide) (List.length_replicate 784 (0 : Int))
      (by decide)
      (positiveBox_of strokeL ⟨10, 10⟩ ⟨50, 50⟩ ⟨10, 10⟩ ⟨50, 50⟩
        (by decide) (by decide) (by decide) (by decide) (by decide) (by decide))⟩

theorem strokeL_positive : PositiveBox strokeL :=
  positiveBox_of strokeL ⟨10, 10⟩ ⟨50, 50⟩ ⟨10, 10⟩ ⟨50, 50⟩
    (by decide) (by decide) (by decide) (by decide) (by decide) (by decide)

theorem drawLineOnBuffer_connected_witness :
    ((IsInt32 (-3) ∧ IsInt32 30 ∧ IsInt32 5 ∧ IsInt32 2) ∧
      (|(5 : Int) - (-3)| ≤ 715827882 ∧ |(2 : Int) - 30| ≤ 715827882) ∧
      |(5 : Int) - (-3)| + |(2 : Int) - 30| < ((37 : Nat) : Int) ∧
      ∃ tail, drawLineTrace 37 (-3) 30 5 2 = some ((-3, 30) :: tail) ∧
        List.Chain Adjacent (-3, 30) tail ∧ ((-3, 30) :: tail).getLast? = some (5, 2) ∧
        ∀ b, drawLineOnBuffer 37 (-3) 30 5 2 b = brushAlong ((-3, 30) :: tail) b) ∧
    ((41 ≤ 41 ∧ 2 ≤ strokeL.point_count ∧ PositiveBox strokeL) ∧
      ∃ path t, strokeTrace (scaleOf (boundingBox strokeL)) 41 strokeL = some path ∧
        rasterize 41 strokeL = .ok t ∧ brushAlong path background = .ok t ∧
        List.Chain' Near path ∧
        path.head? = some (remapped (scaleOf (boundingBox strokeL)) strokeL 0) ∧
        path.getLast? =
          some (remapped (scaleOf (boundingBox strokeL)) strokeL (strokeL.point_count.toNat - 1)) ∧
        ∀ p ∈ path, ((0 ≤ p.1 ∧ p.1 < 28) ∧ (0 ≤ p.2 ∧ p.2 < 28)) ∧
          t.getD (p.2 * 28 + p.1).toNat 0 = 127) :=
  ⟨⟨sampleLine_isInt32, ⟨by decide, by decide⟩, by decide,
      drawLineOnBuffer_connected.1 37 (-3) 30 5 2 sampleLine_isInt32 ⟨by decide, by decide⟩
        (by decide)⟩,
    ⟨⟨by decide, by decide, strokeL_positive⟩,
      (drawLineOnBuffer_connected.2 41 strokeL (by decide) (by decide) strokeL_positive).2⟩⟩

theorem drawLineOnBuffer_step_bound_witness :
    ((IsInt32 (-3) ∧ IsInt32 30 ∧ IsInt32 5 ∧ IsInt32 2) ∧
      (|(5 : Int) - (-3)| ≤ 715827882 ∧ |(2 : Int) - 30| ≤ 715827882) ∧
      |(5 : Int) - (-3)| + |(2 : Int) - 30| < ((37 : Nat) : Int) ∧
      ∃ tail, drawLineTrace 37 (-3) 30 5 2 = some ((-3, 30) :: tail) ∧
        ((-3, 30) :: tail).getLast? = some (5, 2) ∧
        (tail.length : Int) ≤ |(5 : Int) - (-3)| + |(2 : Int) - 30| ∧
        ∀ b : Buffer, b.length = 784 → ∃ b1, drawLineOnBuffer 37 (-3) 30 5 2 b = .ok b1) ∧
    ((PositiveBox strokeL ∧ 1 ≤ 2 ∧ 2 < strokeL.point_count.toNat) ∧
      ∃ tail, segmentTrace 41 strokeL (boundingBox strokeL) (scaleOf (boundingBox strokeL)) 2 =
          some (remapped (scaleOf (boundingBox strokeL)) strokeL (2 - 1) :: tail) ∧
        tail.length ≤ 40 ∧
        ∀ t : Buffer, t.length = 784 →
          ∃ t1, drawSegment 41 strokeL (boundingBox strokeL) (scaleOf (boundingBox strokeL)) t 2 =
            .ok t1) :=
  ⟨⟨sampleLine_isInt32, ⟨by decide, by decide⟩, by decide,
      drawLineOnBuffer_step_bound.1 37 (-3) 30 5 2 sampleLine_isInt32 ⟨by decide, by decide⟩
        (by decide)⟩,
    ⟨⟨strokeL_positive, by decide, by decide⟩,
      drawLineOnBuffer_step_bound.2 strokeL 2 strokeL_positive (by decide) (by decide)⟩⟩

/-! ## The binary32 scale factor under scaling of the stroke -/

theorem roundHalfEven_eq_of_abs_lt (q : ℚ) (m : Int) (h : |q - m| < 1 / 2) :
    roundHalfEven q = m := by
  rw [abs_lt] at h
  obtain ⟨h1, h2⟩ := h
  unfold roundHalfEven
  by_cases hm : (m : ℚ) ≤ q
  · have hf : ⌊q⌋ = m := Int.floor_eq_iff.mpr ⟨hm, by linarith⟩
    rw [hf, if_pos (by linarith)]
  · have hf : ⌊q⌋ = m - 1 := Int.floor_eq_iff.mpr ⟨by push_cast; linarith, by push_cast; linarith⟩
    rw [hf]
    push_cast
    rw [if_neg (by linarith), if_pos (by linarith)]
    ring

/-- Evaluation of a rounding: in the binade of 2^e the value q rounds to m * 2^(e-23) when
q / 2^(e-23) is closer to m than one half. -/
theorem f32_eval (q : ℚ) (e m : Int) (h1 : (2 : ℚ) ^ e ≤ q) (h2 : q < (2 : ℚ) ^ (e + 1))
    (h3 : |q / (2 : ℚ) ^ (e - 23) - m| < 1 / 2) : f32 q = m * (2 : ℚ) ^ (e - 23) := by
  have hq : 0 < q := lt_of_lt_of_le (two_zpow_pos e) h1
  unfold f32
  rw [if_neg hq.ne', abs_of_pos hq, log_eq_of_bounds h1 h2, roundHalfEven_eq_of_abs_lt _ m h3]

theorem f32_twenty : f32 ((20 : Int) : ℚ) = 20 := by
  have := f32_intCast_of_nonneg 20 (by norm_num) (by norm_num)
  simpa using this

theorem scaleOf_19 : scaleOf ⟨11, 11, 30, 30⟩ = 4415057 / 4194304 := by
  unfold scaleOf
  have e1 : ((IMG_WIDTH - 8 : Int) : ℚ) = ((20 : Int) : ℚ) := by norm_num
  have e2 : ((IMG_HEIGHT - 8 : Int) : ℚ) = ((20 : Int) : ℚ) := by norm_num
  have e3 : f32 (((30 - 11 : Int)) : ℚ) = 19 := by
    have := f32_intCast_of_nonneg 19 (by norm_num) (by norm_num)
    simpa using this
  simp only [e1, e2, e3, f32_twenty, min_self]
  rw [f32_eval (20 / 19) 0 8830114 (by norm_num) (by norm_num)
    (by rw [abs_lt]; constructor <;> norm_num)]
  norm_num

theorem scaleOf_133 : scaleOf ⟨77, 77, 210, 210⟩ = 5045779 / 33554432 := by
  unfold scaleOf
  have e1 : ((IMG_WIDTH - 8 : Int) : ℚ) = ((20 : Int) : ℚ) := by norm_num
  have e2 : ((IMG_HEIGHT - 8 : Int) : ℚ) = ((20 : Int) : ℚ) := by norm_num
  have e3 : f32 (((210 - 77 : Int)) : ℚ) = 133 := by
    have := f32_intCast_of_nonneg 133 (by norm_num) (by norm_num)
    simpa using this
  simp only [e1, e2, e3, f32_twenty, min_self]
  rw [f32_eval (20 / 133) (-3) 10091558 (by norm_num) (by norm_num)
    (by rw [abs_lt]; constructor <;> norm_num)]
  norm_num

/-- In binary32 the far corner of a box of width 19 is remapped to 20. -/
theorem remap_19 : remap (4415057 / 4194304) 11 30 = 20 := by
  unfold remap
  have e3 : f32 (((30 - 11 : Int)) : ℚ) = 19 := by
    have := f32_intCast_of_nonneg 19 (by norm_num) (by norm_num)
    simpa using this
  rw [e3, f32_eval (19 * (4415057 / 4194304)) 4 10485760 (by norm_num) (by norm_num)
    (by rw [abs_lt]; constructor <;> norm_num)]
  unfold floatToInt
  norm_num

/-- In binary32 the far corner of a box of width 133 is remapped to 19: the product
133 * float(20 / 133) rounds to a float below 20. -/
theorem remap_133 : remap (5045779 / 33554432) 77 210 = 19 := by
  unfold remap
  have e3 : f32 (((210 - 77 : Int)) : ℚ) = 133 := by
    have := f32_intCast_of_nonneg 133 (by norm_num) (by norm_num)
    simpa using this
  rw [e3, f32_eval (133 * (5045779 / 33554432)) 4 10485759 (by norm_num) (by norm_num)
    (by rw [abs_lt]; constructor <;> norm_num)]
  unfold floatToInt
  rw [if_pos (by norm_num)]
  rw [Int.floor_eq_iff]
  constructor <;> norm_num

theorem remap_zero (s : ℚ) (c : Int) : remap s c c = 0 := by
  unfold remap
  simp [f32_zero, floatToInt]

theorem strokeShort_box : boundingBox strokeShort = ⟨11, 11, 30, 30⟩ := by decide!

theorem strokeShort_scaled_box : boundingBox (scaleStroke 7 strokeShort) = ⟨77, 77, 210, 210⟩ := by
  decide!

theorem strokeShort_stroke : stroke strokeShort = [⟨11, 11⟩, ⟨30, 30⟩] := by decide!

theorem strokeShort_scaled_stroke :
    stroke (scaleStroke 7 strokeShort) = [⟨77, 77⟩, ⟨210, 210⟩] := by decide!

theorem strokeShort_run :
    preprocessImage 41 strokeShort =
      .ok { strokeShort with
        image_buffer := decodeMask (maskOf (preprocessMask 41 20 19 strokeShort)) } := by
  refine preprocessImage_run 41 20 19 strokeShort (List.length_replicate 784 (0 : Int)) ?_
    (by decide!)
  apply rasterize_eq_Z
  rw [strokeShort_box, scaleOf_19, strokeShort_stroke]
  intro p hp
  simp only [List.mem_cons, List.mem_singleton, List.not_mem_nil, or_false] at hp
  rcases hp with rfl | rfl
  · exact ⟨by rw [remap_zero]; decide, by rw [remap_zero]; decide⟩
  · exact ⟨by rw [remap_19]; decide, by rw [remap_19]; decide⟩

theorem strokeShort_scaled_run :
    preprocessImage 41 (scaleStroke 7 strokeShort) =
      .ok { scaleStroke 7 strokeShort with
        image_buffer := decodeMask (maskOf (preprocessMask 41 19 133 (scaleStroke 7 strokeShort))) } := by
  refine preprocessImage_run 41 19 133 (scaleStroke 7 strokeShort)
    (List.length_replicate 784 (0 : Int)) ?_ (by decide!)
  apply rasterize_eq_Z
  rw [strokeShort_scaled_box, scaleOf_133, strokeShort_scaled_stroke]
  intro p hp
  simp only [List.mem_cons, List.mem_singleton, List.not_mem_nil, or_false] at hp
  rcases hp with rfl | rfl
  · exact ⟨by rw [remap_zero]; decide, by rw [remap_zero]; decide⟩
  · exact ⟨by rw [remap_133]; decide, by rw [remap_133]; decide⟩

/-- C11 fails for the code, whose scale factor is a binary32 quotient: the stroke (11,11),
(30,30) and its 7-fold (77,77), (210,210) give images that differ in cell 697 (x = 25,
y = 24), because the far corner is remapped to 20 for the first and to 19 for the second: the
product 133 * float(20 / 133) rounds to a float below 20. -/
theorem scale_changes_image_binary32 :
    ∃ im1 im2, preprocessImage 41 strokeShort = .ok { strokeShort with image_buffer := im1 } ∧
      preprocessImage 41 (scaleStroke 7 strokeShort) =
        .ok { scaleStroke 7 strokeShort with image_buffer := im2 } ∧
      im1.getD 697 0 = 127 ∧ im2.getD 697 0 = -128 := by
  refine ⟨_, _, strokeShort_run, strokeShort_scaled_run, ?_, ?_⟩
  · rw [decodeMask_getD _ 697 (by norm_num)]
    decide!
  · rw [decodeMask_getD _ 697 (by norm_num)]
    decide!

/-- Division by a power of two commutes with rounding. -/
theorem f32_div_two_pow (q : ℚ) : ∀ m : Nat, f32 (q / 2 ^ m) = f32 q / 2 ^ m
  | 0 => by simp
  | m + 1 => by
    have e : q / 2 ^ (m + 1) = q / 2 ^ m / 2 := by rw [pow_succ, div_div]
    rw [e, f32_half, f32_div_two_pow q m, div_div, ← pow_succ]

/-- The binary32 scale factor of a box 2^m times as wide and as high is 2^m times smaller. -/
theorem scaleOf_scaled_pow2 (b b1 : BBox) (m : Nat)
    (hx : b1.maxX - b1.minX = 2 ^ m * (b.maxX - b.minX))
    (hy : b1.maxY - b1.minY = 2 ^ m * (b.maxY - b.minY))
    (hw0 : 0 ≤ b.maxX - b.minX) (hw : 2 ^ m * (b.maxX - b.minX) < 2 ^ 24)
    (hh0 : 0 ≤ b.maxY - b.minY) (hh : 2 ^ m * (b.maxY - b.minY) < 2 ^ 24) :
    scaleOf b1 = scaleOf b / ((2 ^ m : Int) : ℚ) := by
  have hp : (0 : Int) < 2 ^ m := by positivity
  have hpq : (0 : ℚ) < (2 : ℚ) ^ m := by positivity
  have hW : b.maxX - b.minX < 2 ^ 24 := by nlinarith
  have hH : b.maxY - b.minY < 2 ^ 24 := by nlinarith
  unfold scaleOf
  rw [hx, hy, f32_intCast_of_nonneg _ (mul_nonneg hp.le hw0) hw,
    f32_intCast_of_nonneg _ (mul_nonneg hp.le hh0) hh, f32_intCast_of_nonneg _ hw0 hW,
    f32_intCast_of_nonneg _ hh0 hH]
  push_cast
  rw [← min_div_div_right hpq.le, ← f32_div_two_pow, ← f32_div_two_pow]
  congr 2
  · rw [div_div, mul_comm]
  · rw [div_div, mul_comm]

/-- C11 (amended): for every stroke of at least 2 captured points (coordinates from 0 on) and
every factor k = 2^m such that every k-fold coordinate is representable (at most 32767),
preprocessImage, with its binary32 scale factor, returns on the stroke and on the stroke with
every raw coordinate multiplied by k, with the same image_buffer: the division by 2^m is exact
in binary32. -/
theorem preprocessImage_scale_invariant_pow2 (fuel : Nat) (st : State) (m : Nat) (hf : 41 ≤ fuel)
    (hlen : st.image_buffer.length = 784) (hn : 2 ≤ st.point_count)
    (hr : ∀ p ∈ stroke st, (0 ≤ p.x ∧ 2 ^ m * p.x ≤ 32767) ∧ (0 ≤ p.y ∧ 2 ^ m * p.y ≤ 32767)) :
    ∃ image, preprocessImage fuel st = .ok { st with image_buffer := image } ∧
      preprocessImage fuel (scaleStroke (2 ^ m) st) =
        .ok { scaleStroke (2 ^ m) st with image_buffer := image } := by
  have hk : (0 : Int) < 2 ^ m := by positivity
  have hr0 : ∀ p ∈ stroke st, (0 ≤ p.x ∧ p.x ≤ 32767) ∧ (0 ≤ p.y ∧ p.y ≤ 32767) := by
    intro p hp
    obtain ⟨⟨h1, h2⟩, ⟨h3, h4⟩⟩ := hr p hp
    have hx : p.x ≤ 2 ^ m * p.x := by nlinarith
    have hy : p.y ≤ 2 ^ m * p.y := by nlinarith
    omega
  obtain ⟨image, e, -⟩ := preprocessImage_spec fuel hf st hlen
  refine ⟨image, e, ?_⟩
  obtain ⟨b1, b2, b3, b4⟩ := boundingBox_scaleStroke (2 ^ m) st hk hn hr
  obtain ⟨⟨s1, s2⟩, ⟨s3, s4⟩⟩ := boundingBox_range (scaleStroke (2 ^ m) st) hn (by
    intro p hp
    rw [stroke_scaleStroke] at hp
    obtain ⟨q, hq, rfl⟩ := List.mem_map.mp hp
    obtain ⟨⟨h1, h2⟩, ⟨h3, h4⟩⟩ := hr q hq
    exact ⟨⟨mul_nonneg hk.le h1, h2⟩, ⟨mul_nonneg hk.le h3, h4⟩⟩)
  obtain ⟨p0, hp0⟩ := stroke_ne_nil st hn
  have hc := boundingBox_contains st p0 hp0
  rw [b1] at s1
  rw [b2] at s2
  rw [b3] at s3
  rw [b4] at s4
  rw [preprocessImage_eq_with] at e ⊢
  refine scaled_image_eq scaleOf fuel st (2 ^ m) hlen hn hk hr ?_ image e
  refine scaleOf_scaled_pow2 _ _ m (by rw [b1, b2]; ring) (by rw [b3, b4]; ring)
    (by omega) ?_ (by omega) ?_
  · have : (2 : Int) ^ m * ((boundingBox st).maxX - (boundingBox st).minX) =
        2 ^ m * (boundingBox st).maxX - 2 ^ m * (boundingBox st).minX := by ring
    have h24 : (32767 : Int) < 2 ^ 24 := by norm_num
    omega
  · have : (2 : Int) ^ m * ((boundingBox st).maxY - (boundingBox st).minY) =
        2 ^ m * (boundingBox st).maxY - 2 ^ m * (boundingBox st).minY := by ring
    have h24 : (32767 : Int) < 2 ^ 24 := by norm_num
    omega

theorem preprocessImage_scale_invariant_pow2_witness :
    (41 ≤ 41 ∧ strokeL.image_buffer.length = 784 ∧ 2 ≤ strokeL.point_count ∧
      (∀ p ∈ stroke strokeL, (0 ≤ p.x ∧ 2 ^ 2 * p.x ≤ 32767) ∧ (0 ≤ p.y ∧ 2 ^ 2 * p.y ≤ 32767))) ∧
    ∃ image, preprocessImage 41 strokeL = .ok { strokeL with image_buffer := image } ∧
      preprocessImage 41 (scaleStroke (2 ^ 2) strokeL) =
        .ok { scaleStroke (2 ^ 2) strokeL with image_buffer := image } :=
  ⟨⟨by decide, List.length_replicate 784 (0 : Int), by decide, by decide⟩,
    preprocessImage_scale_invariant_pow2 41 strokeL 2 (by decide)
      (List.length_replicate 784 (0 : Int)) (by decide) (by decide)⟩

end DigitRecognition
